import Mathlib

/-!
# Lambda-calculus interpreter: terms, substitution and the reducer

A shallow embedding of `expression.h`, `environment.h`, `evaluator.cpp` and the
expression parser of `parser.cpp`.

* `std::shared_ptr<Expression>` trees are values of the inductive type `Expression`;
  `clone()` is the identity on values.
* `std::unordered_set<std::string>` is `Finset String` (only `insert`, `erase`, `find`
  and iteration into another set are used, so the set of members is all that matters).
* The C++ functions recurse without bound (through the environment, and in the reducer);
  every recursive function takes a recursion-depth budget `fuel` and returns `none`
  when a call chain would go deeper than the budget.  One call costs one unit.
* `std::string` is `String`; equality of the UTF-8 byte strings coincides with equality
  of the code-point strings.
-/

namespace LambdaCalc

/-! ## expression.h -/

/-- The class hierarchy below `Expression`: one constructor per concrete subclass. -/
inductive Expression where
  | Variable (name : String)
  | Abstraction (parameter : String) (body : Expression)
  | Application (function : Expression) (argument : Expression)
  | NamedReference (name : String)
  deriving DecidableEq

open Expression

/-- The virtual method `toString` of the four subclasses. -/
def Expression.toString : Expression → String
  | Variable name => name
  | Abstraction parameter body => "λ" ++ parameter ++ "." ++ body.toString
  | Application function argument =>
    "(" ++ function.toString ++ " " ++ argument.toString ++ ")"
  | NamedReference name => name

/-! ## environment.h -/

/-- The class `Environment`: the `std::map` from names to expressions, kept as an
association list with at most one entry per key. -/
structure Environment where
  definitions : List (String × Expression)

/-- The call `definitions.find(name)` on the association list. -/
def lookupIn : List (String × Expression) → String → Option Expression
  | [], _ => none
  | (key, value) :: rest, name => if key = name then some value else lookupIn rest name

/-- The assignment `definitions[name] = expr` on the association list. -/
def defineIn : List (String × Expression) → String → Expression → List (String × Expression)
  | [], name, expr => [(name, expr)]
  | (key, value) :: rest, name, expr =>
    if key = name then (key, expr) :: rest else (key, value) :: defineIn rest name expr

/-- The method `Environment::define`. -/
def Environment.define (env : Environment) (name : String) (expr : Expression) : Environment :=
  ⟨defineIn env.definitions name expr⟩

/-- The method `Environment::lookup`; `none` is the null pointer. -/
def Environment.lookup (env : Environment) (name : String) : Option Expression :=
  lookupIn env.definitions name

/-- The method `Environment::isDefined`. -/
def Environment.isDefined (env : Environment) (name : String) : Bool :=
  (lookupIn env.definitions name).isSome

/-- The environment of a fresh session. -/
def emptyEnv : Environment := ⟨[]⟩

/-! ## evaluator.cpp -/

/-- The method `Evaluator::getFreeVariables`. -/
def getFreeVariables (env : Environment) : Nat → Expression → Option (Finset String)
  | 0, _ => none
  | _ + 1, Variable name => some {name}
  | fuel + 1, NamedReference name =>
    match env.lookup name with
    | some definition => getFreeVariables env fuel definition
    | none => some {name}
  | fuel + 1, Abstraction parameter body =>
    match getFreeVariables env fuel body with
    | some freeVars => some (freeVars.erase parameter)
    | none => none
  | fuel + 1, Application function argument =>
    match getFreeVariables env fuel function with
    | none => none
    | some functionVars =>
      match getFreeVariables env fuel argument with
      | none => none
      | some argumentVars => some (functionVars ∪ argumentVars)

/-- The `while` loop of `Evaluator::generateFreshVariable`: `suffix` and `freshVar` are
the loop variables, `budget` bounds the number of iterations still allowed. -/
def generateFreshVariableLoop (usedVars : Finset String) (base : String) :
    Nat → Nat → String → String
  | 0, _, freshVar => freshVar
  | budget + 1, suffix, freshVar =>
    if freshVar ∈ usedVars then
      generateFreshVariableLoop usedVars base budget (suffix + 1)
        (base ++ Nat.repr (suffix + 1))
    else freshVar

/-- The method `Evaluator::generateFreshVariable`.  The loop is given `|usedVars| + 1`
iterations, which it never exhausts (`generateFreshVariable_not_mem`); the `int`
counter stays far below `2^31` for every set that fits in memory. -/
def generateFreshVariable (usedVars : Finset String) (hint : String) : String :=
  generateFreshVariableLoop usedVars hint (usedVars.card + 1) 0 hint

/-- The method `Evaluator::substitute`. -/
def substitute (env : Environment) : Nat → Expression → String → Expression → Option Expression
  | 0, _, _, _ => none
  | _ + 1, Variable name, var, replacement =>
    if name = var then some replacement else some (Variable name)
  | fuel + 1, NamedReference name, var, replacement =>
    match env.lookup name with
    | some definition => substitute env fuel definition var replacement
    | none => if name = var then some replacement else some (NamedReference name)
  | fuel + 1, Abstraction parameter body, var, replacement =>
    if parameter = var then some (Abstraction parameter body)
    else
      match getFreeVariables env fuel replacement with
      | none => none
      | some freeVarsInReplacement =>
        if parameter ∈ freeVarsInReplacement then
          match getFreeVariables env fuel (Abstraction parameter body) with
          | none => none
          | some exprVars =>
            match substitute env fuel body parameter
                (Variable (generateFreshVariable (exprVars ∪ freeVarsInReplacement) parameter)) with
            | none => none
            | some renamedBody =>
              match substitute env fuel renamedBody var replacement with
              | none => none
              | some newBody =>
                some (Abstraction
                  (generateFreshVariable (exprVars ∪ freeVarsInReplacement) parameter) newBody)
        else
          match substitute env fuel body var replacement with
          | none => none
          | some newBody => some (Abstraction parameter newBody)
  | fuel + 1, Application function argument, var, replacement =>
    match substitute env fuel function var replacement with
    | none => none
    | some newFunction =>
      match substitute env fuel argument var replacement with
      | none => none
      | some newArgument => some (Application newFunction newArgument)

mutual
/-- The method `Evaluator::betaReduce`: `expr->accept(*this)` runs the `visit` overload
of the node, each of which assigns `result` as its last action, so `result` is never
null afterwards and the value returned is the one the overload computed. -/
def betaReduce (env : Environment) : Nat → Expression → Option Expression
  | 0, _ => none
  | _ + 1, Variable name => some (Variable name)
  | fuel + 1, Abstraction parameter body =>
    match evaluateNormalOrder env fuel body with
    | none => none
    | some evaluatedBody => some (Abstraction parameter evaluatedBody)
  | fuel + 1, Application function argument =>
    match function with
    | Abstraction parameter body => substitute env fuel body parameter argument
    | _ =>
      match evaluateNormalOrder env fuel function with
      | none => none
      | some evaluatedFunction =>
        match evaluateNormalOrder env fuel argument with
        | none => none
        | some evaluatedArgument => some (Application evaluatedFunction evaluatedArgument)
  | _ + 1, NamedReference name =>
    match env.lookup name with
    | some definition => some definition
    | none => some (Variable name)

/-- The method `Evaluator::isNormalForm`. -/
def isNormalForm (env : Environment) : Nat → Expression → Option Bool
  | 0, _ => none
  | fuel + 1, expr =>
    match betaReduce env fuel expr with
    | none => none
    | some reduced => some (decide (reduced.toString = expr.toString))

/-- The method `Evaluator::evaluateNormalOrder`. -/
def evaluateNormalOrder (env : Environment) : Nat → Expression → Option Expression
  | 0, _ => none
  | fuel + 1, expr =>
    match isNormalForm env fuel expr with
    | none => none
    | some true => some expr
    | some false =>
      match betaReduce env fuel expr with
      | none => none
      | some reduced => evaluateNormalOrder env fuel reduced
end

/-! ## parser.cpp: the character classes of identifiers -/

/-- The method `Parser::isAlpha`. -/
def isAlpha (c : Char) : Bool :=
  ('a' ≤ c && c ≤ 'z') || ('A' ≤ c && c ≤ 'Z') || c == '_'

/-- The method `Parser::isAlphaNumeric`. -/
def isAlphaNumeric (c : Char) : Bool :=
  isAlpha c || ('0' ≤ c && c ≤ '9')

/-- The strings `Parser::parseIdentifier` accepts in full: a first character for which
`isAlpha` holds, followed by characters for which `isAlphaNumeric` holds. -/
def isIdentifier (name : String) : Bool :=
  match name.data with
  | [] => false
  | c :: rest => isAlpha c && rest.all isAlphaNumeric

/-! ## parser.cpp: the recursive-descent parser

The parser reads the `char`s of its input from `position` on; the model passes the
remaining `char`s as a list.  A `ParserError` that is thrown is the outcome `parserError`.
The recursion of `parseExpression` and the loop of `parseApplication` draw on `fuel`. -/

/-- The values of the character literal `'λ'`, which does not fit a `char`: `asChar` is the
`char` that `match('λ')` compares with, and `equalsPeek c` tells whether `peek() == 'λ'`
holds when `peek()` is `c`.  Both depend on the compiler and are left open. -/
structure LambdaLiteral where
  asChar : Char
  equalsPeek : Char → Bool

/-- The outcome of a parsing method. -/
inductive Outcome (α : Type) where
  | ok (value : α)
  | parserError
  | outOfFuel
  deriving DecidableEq

/-- The function `std::isspace` in the "C" locale. -/
def isSpace (c : Char) : Bool :=
  c == ' ' || c == '\t' || c == '\n' || c == '\x0b' || c == '\x0c' || c == '\r'

/-- The method `Parser::skipWhitespace`. -/
def skipWhitespace : List Char → List Char
  | [] => []
  | c :: rest => if isSpace c then skipWhitespace rest else c :: rest

/-- The second loop of `Parser::parseIdentifier`: the characters appended to `name`, and
the input left. -/
def parseIdentifierLoop : List Char → List Char × List Char
  | [] => ([], [])
  | c :: rest =>
    if isAlphaNumeric c then
      ((c :: (parseIdentifierLoop rest).1), (parseIdentifierLoop rest).2)
    else ([], c :: rest)

/-- The method `Parser::parseIdentifier`; `none` stands for the `ParserError`. -/
def parseIdentifier : List Char → Option (String × List Char)
  | [] => none
  | c :: rest =>
    if isAlpha c then
      some (String.mk (c :: (parseIdentifierLoop rest).1), (parseIdentifierLoop rest).2)
    else none

/-- The method `Parser::parseVariable`. -/
def parseVariable (env : Environment) (input : List Char) :
    Outcome (Expression × List Char) :=
  match parseIdentifier input with
  | none => Outcome.parserError
  | some (name, rest) =>
    if env.isDefined name then Outcome.ok (NamedReference name, rest)
    else Outcome.ok (Variable name, rest)

mutual
/-- The method `Parser::parseExpression`. -/
def parseExpression (lit : LambdaLiteral) (env : Environment) :
    Nat → List Char → Outcome (Expression × List Char)
  | 0, _ => Outcome.outOfFuel
  | fuel + 1, input => parseApplication lit env fuel input

/-- The method `Parser::parseApplication` up to its loop. -/
def parseApplication (lit : LambdaLiteral) (env : Environment) :
    Nat → List Char → Outcome (Expression × List Char)
  | 0, _ => Outcome.outOfFuel
  | fuel + 1, input =>
    match parsePrimary lit env fuel input with
    | Outcome.ok (expr, rest) => parseApplicationLoop lit env fuel expr rest
    | Outcome.parserError => Outcome.parserError
    | Outcome.outOfFuel => Outcome.outOfFuel

/-- The `while (true)` loop of `Parser::parseApplication`, `expr` being its variable. -/
def parseApplicationLoop (lit : LambdaLiteral) (env : Environment) :
    Nat → Expression → List Char → Outcome (Expression × List Char)
  | 0, _, _ => Outcome.outOfFuel
  | fuel + 1, expr, input =>
    match skipWhitespace input with
    | [] => Outcome.ok (expr, [])
    | c :: rest =>
      if isAlpha c || c == '(' || lit.equalsPeek c || c == '\\' then
        match parsePrimary lit env fuel (c :: rest) with
        | Outcome.ok (right, rest') =>
          parseApplicationLoop lit env fuel (Application expr right) rest'
        | Outcome.parserError => Outcome.parserError
        | Outcome.outOfFuel => Outcome.outOfFuel
      else Outcome.ok (expr, c :: rest)

/-- The method `Parser::parsePrimary`. -/
def parsePrimary (lit : LambdaLiteral) (env : Environment) :
    Nat → List Char → Outcome (Expression × List Char)
  | 0, _ => Outcome.outOfFuel
  | fuel + 1, input =>
    match skipWhitespace input with
    | [] => Outcome.parserError
    | c :: rest =>
      if isAlpha c then parseVariable env (c :: rest)
      else if c == '(' then parseParenthesized lit env fuel rest
      else if c == lit.asChar || c == '\\' then parseAbstraction lit env fuel rest
      else Outcome.parserError

/-- The method `Parser::parseAbstraction`. -/
def parseAbstraction (lit : LambdaLiteral) (env : Environment) :
    Nat → List Char → Outcome (Expression × List Char)
  | 0, _ => Outcome.outOfFuel
  | fuel + 1, input =>
    match parseIdentifier (skipWhitespace input) with
    | none => Outcome.parserError
    | some (parameter, rest) =>
      match skipWhitespace rest with
      | '.' :: rest' =>
        match parseExpression lit env fuel (skipWhitespace rest') with
        | Outcome.ok (body, rest'') => Outcome.ok (Abstraction parameter body, rest'')
        | Outcome.parserError => Outcome.parserError
        | Outcome.outOfFuel => Outcome.outOfFuel
      | _ => Outcome.parserError

/-- The method `Parser::parseParenthesized`. -/
def parseParenthesized (lit : LambdaLiteral) (env : Environment) :
    Nat → List Char → Outcome (Expression × List Char)
  | 0, _ => Outcome.outOfFuel
  | fuel + 1, input =>
    match parseExpression lit env fuel input with
    | Outcome.ok (expr, rest) =>
      match skipWhitespace rest with
      | ')' :: rest' => Outcome.ok (expr, rest')
      | _ => Outcome.parserError
    | Outcome.parserError => Outcome.parserError
    | Outcome.outOfFuel => Outcome.outOfFuel
end

/-- The method `Parser::parse` of a parser constructed on `input` and `env`. -/
def parse (lit : LambdaLiteral) (env : Environment) (fuel : Nat) (input : String) :
    Outcome Expression :=
  match parseExpression lit env fuel (skipWhitespace input.data) with
  | Outcome.ok (expr, rest) =>
    match skipWhitespace rest with
    | [] => Outcome.ok expr
    | _ => Outcome.parserError
  | Outcome.parserError => Outcome.parserError
  | Outcome.outOfFuel => Outcome.outOfFuel

/-- The literal as a compiler gives it that keeps the last byte of the UTF-8 encoding of
`λ` (`0xBB`) on conversion to `char` and compares the whole two-byte value as an `int`. -/
def truncatedLambda : LambdaLiteral := ⟨Char.ofNat 0xBB, fun _ => false⟩

/-! ## Auxiliary notions used in the statements and proofs -/

/-- Reads a decimal numeral back, most significant digit first. -/
def decimalValue (acc : Nat) (digits : List Char) : Nat :=
  digits.foldl (fun value c => 10 * value + (c.toNat - 48)) acc

/-- The free-variable analysis returns `s` on `expr` at some recursion depth. -/
def FreeVars (env : Environment) (expr : Expression) (s : Finset String) : Prop :=
  ∃ fuel, getFreeVariables env fuel expr = some s

/-- The call `substitute(M, x, N)` returns `r` at some recursion depth. -/
def Substitutes (env : Environment) (M : Expression) (x : String) (N r : Expression) : Prop :=
  ∃ fuel, substitute env fuel M x N = some r

/-- The call `betaReduce(t)` returns `r` at some recursion depth. -/
def Reduces (env : Environment) (t r : Expression) : Prop :=
  ∃ fuel, betaReduce env fuel t = some r

/-- The call `evaluateNormalOrder(t)` returns `r` at some recursion depth. -/
def Evaluates (env : Environment) (t r : Expression) : Prop :=
  ∃ fuel, evaluateNormalOrder env fuel t = some r

/-- The characters of the canonical string of a term. -/
def Expression.chars : Expression → List Char
  | Variable name => name.data
  | Abstraction parameter body => 'λ' :: (parameter.data ++ '.' :: body.chars)
  | Application function argument =>
    '(' :: (function.chars ++ ' ' :: (argument.chars ++ [')']))
  | NamedReference name => name.data

/-- No `NamedReference` node occurs in the term. -/
def namedReferenceFree : Expression → Bool
  | Variable _ => true
  | Abstraction _ body => namedReferenceFree body
  | Application function argument => namedReferenceFree function && namedReferenceFree argument
  | NamedReference _ => false

/-- The dynamic cast to `Abstraction` succeeds. -/
def isAbstraction : Expression → Bool
  | Abstraction _ _ => true
  | _ => false

/-- Some sub-term, possibly under binders, is an application of an abstraction. -/
def hasRedex : Expression → Bool
  | Variable _ => false
  | Abstraction _ body => hasRedex body
  | Application function argument =>
    isAbstraction function || hasRedex function || hasRedex argument
  | NamedReference _ => false

/-- The parameters of the abstractions of a term. -/
def boundNames : Expression → List String
  | Variable _ => []
  | Abstraction parameter body => parameter :: boundNames body
  | Application function argument => boundNames function ++ boundNames argument
  | NamedReference _ => []

/-- Replacement of the free occurrences of `x` by `N` without any renaming. -/
def replaceVariable (x : String) (N : Expression) : Expression → Expression
  | Variable name => if name = x then N else Variable name
  | Abstraction parameter body =>
    if parameter = x then Abstraction parameter body
    else Abstraction parameter (replaceVariable x N body)
  | Application function argument =>
    Application (replaceVariable x N function) (replaceVariable x N argument)
  | NamedReference name => NamedReference name

/-- The term `f (f (… (f z)))` with `k` applications of the variable `f`. -/
def applyTimes : Nat → Expression → Expression
  | 0, z => z
  | k + 1, z => Application (Variable "f") (applyTimes k z)

/-- The Church numeral `λf.λx.f^k x`. -/
def churchNumeral (k : Nat) : Expression :=
  Abstraction "f" (Abstraction "x" (applyTimes k (Variable "x")))

/-- The term `λx.x`. -/
def identityDefinition : Expression := Abstraction "x" (Variable "x")

/-- The term of `succ` in `main`: `λn.λf.λx.(f ((n f) x))`. -/
def succDefinition : Expression :=
  Abstraction "n" (Abstraction "f" (Abstraction "x"
    (Application (Variable "f")
      (Application (Application (Variable "n") (Variable "f")) (Variable "x")))))

/-- The term of `plus` in `main`: `λm.λn.λf.λx.((m f) ((n f) x))`. -/
def plusDefinition : Expression :=
  Abstraction "m" (Abstraction "n" (Abstraction "f" (Abstraction "x"
    (Application (Application (Variable "m") (Variable "f"))
      (Application (Application (Variable "n") (Variable "f")) (Variable "x"))))))

/-- A term that stands for the Church numeral `k`: the numeral itself, or a reference,
under an identifier, to a definition that is the numeral. -/
def DenotesNumeral (env : Environment) (t : Expression) (k : Nat) : Prop :=
  t = churchNumeral k ∨
    ∃ name, t = NamedReference name ∧ isIdentifier name = true ∧
      env.lookup name = some (churchNumeral k)

/-- The definitions `zero`, `one`, `two`, `succ`, `plus` and `id` of the scenarios, entered
in this order into a fresh environment. -/
def scenarioEnv : Environment :=
  (((((emptyEnv.define "zero" (churchNumeral 0)).define "one" (churchNumeral 1)).define
    "two" (churchNumeral 2)).define "succ" succDefinition).define
    "plus" plusDefinition).define "id" identityDefinition

/-- The number of nodes of a term. -/
def Expression.size : Expression → Nat
  | Variable _ => 1
  | Abstraction _ body => body.size + 1
  | Application function argument => function.size + argument.size + 1
  | NamedReference _ => 1

/-! ### The textbook notions the code is compared with -/

/-- The free variables of a term by structural recursion, no environment involved. -/
def freeNames : Expression → Finset String
  | Variable name => {name}
  | Abstraction parameter body => (freeNames body).erase parameter
  | Application function argument => freeNames function ∪ freeNames argument
  | NamedReference _ => ∅

/-- The image of a variable under a simultaneous substitution. -/
def substImage (sigma : List (String × Expression)) (name : String) : Expression :=
  match lookupIn sigma name with
  | some image => image
  | none => Variable name

/-- Textbook capture-avoiding substitution in its structurally recursive form: the
substitution acts on all variables at once, and every binder is renamed to the first of
`p`, `p1`, `p2`, … that is not free in the image of a free variable of the abstraction. -/
def textbookSubstAll (sigma : List (String × Expression)) : Expression → Expression
  | Variable name => substImage sigma name
  | Abstraction parameter body =>
    Abstraction
      (generateFreshVariable
        ((freeNames (Abstraction parameter body)).biUnion
          (fun v => freeNames (substImage sigma v))) parameter)
      (textbookSubstAll
        ((parameter, Variable (generateFreshVariable
          ((freeNames (Abstraction parameter body)).biUnion
            (fun v => freeNames (substImage sigma v))) parameter)) :: sigma) body)
  | Application function argument =>
    Application (textbookSubstAll sigma function) (textbookSubstAll sigma argument)
  | NamedReference name => NamedReference name

/-- The textbook substitution `M[x := N]`. -/
def textbookSubst (M : Expression) (x : String) (N : Expression) : Expression :=
  textbookSubstAll [(x, N)] M

/-- Terms with bound variables replaced by their distance to the binder. -/
inductive Nameless where
  | free (name : String)
  | bound (index : Nat)
  | reference (name : String)
  | lam (body : Nameless)
  | app (function : Nameless) (argument : Nameless)
  deriving DecidableEq

/-- The nameless form of a term below the binders `binders`, innermost first. -/
def toNameless (binders : List String) : Expression → Nameless
  | Variable name =>
    if name ∈ binders then Nameless.bound (binders.indexOf name) else Nameless.free name
  | Abstraction parameter body => Nameless.lam (toNameless (parameter :: binders) body)
  | Application function argument =>
    Nameless.app (toNameless binders function) (toNameless binders argument)
  | NamedReference name => Nameless.reference name

/-- Alpha-equivalence: equality up to the names of bound variables. -/
def alphaEquivalent (a b : Expression) : Bool :=
  decide (toNameless [] a = toNameless [] b)

/-- One beta step anywhere in a term, contracting with the textbook substitution. -/
inductive BetaStep : Expression → Expression → Prop where
  | beta (p : String) (b a : Expression) :
    BetaStep (Application (Abstraction p b) a) (textbookSubst b p a)
  | body {p : String} {b b' : Expression} :
    BetaStep b b' → BetaStep (Abstraction p b) (Abstraction p b')
  | function {f f' a : Expression} :
    BetaStep f f' → BetaStep (Application f a) (Application f' a)
  | argument {f a a' : Expression} :
    BetaStep a a' → BetaStep (Application f a) (Application f a')

/-- The term `λx.(x x)`. -/
def selfApplication : Expression :=
  Abstraction "x" (Application (Variable "x") (Variable "x"))

/-- The term `λx.((x x) x)`. -/
def selfApplication3 : Expression :=
  Abstraction "x" (Application (Application (Variable "x") (Variable "x")) (Variable "x"))

/-- The term `((λa.a) (λx.λy.y)) ((λx.((x x) x)) (λx.((x x) x)))`: its head reduces to a
function that drops its argument, and its argument has no normal form. -/
def discardsDivergent : Expression :=
  Application
    (Application (Abstraction "a" (Variable "a"))
      (Abstraction "x" (Abstraction "y" (Variable "y"))))
    (Application selfApplication3 selfApplication3)

/-- The environment with the single definition `foo = λy.x`. -/
def fooEnv : Environment := emptyEnv.define "foo" (Abstraction "y" (Variable "x"))

/-! ### Properties of parsed terms -/

/-- The decision of `Parser::parseVariable` on an identifier. -/
def resolveName (env : Environment) (name : String) : Expression :=
  if env.isDefined name then NamedReference name else Variable name

/-- Every `NamedReference` carries a name defined in `env`, every `Variable` a name that
is not. -/
def namesResolved (env : Environment) : Expression → Bool
  | Variable name => !env.isDefined name
  | Abstraction _ body => namesResolved env body
  | Application function argument => namesResolved env function && namesResolved env argument
  | NamedReference name => env.isDefined name

/-- All names of a term: of its variables, of its references and of its parameters. -/
def allNames : Expression → List String
  | Variable name => [name]
  | Abstraction parameter body => parameter :: allNames body
  | Application function argument => allNames function ++ allNames argument
  | NamedReference name => [name]

/-- Some `NamedReference` of the term carries the name of a parameter of `binders` or of
an abstraction of the term that encloses it. -/
def shadowCaptured (binders : List String) : Expression → Bool
  | Variable _ => false
  | Abstraction parameter body => shadowCaptured (parameter :: binders) body
  | Application function argument =>
    shadowCaptured binders function || shadowCaptured binders argument
  | NamedReference name => decide (name ∈ binders)

/-- A letter `A`–`Z` or `a`–`z`. -/
def isLetter (c : Char) : Bool :=
  ('a' ≤ c && c ≤ 'z') || ('A' ≤ c && c ≤ 'Z')

/-- A digit `0`–`9`. -/
def isDecimalDigit (c : Char) : Bool :=
  '0' ≤ c && c ≤ '9'

/-- The identifier grammar of the specification, `[A-Za-z_][A-Za-z0-9]*`. -/
def matchesSpecIdentifier (name : String) : Bool :=
  match name.data with
  | [] => false
  | c :: rest =>
    (isLetter c || c == '_') && rest.all (fun d => isLetter d || isDecimalDigit d)

/-- The grammar `[A-Za-z_][A-Za-z0-9_]*`. -/
def matchesUnderscoreIdentifier (name : String) : Bool :=
  match name.data with
  | [] => false
  | c :: rest =>
    (isLetter c || c == '_') &&
      rest.all (fun d => isLetter d || isDecimalDigit d || d == '_')

/-- The left-nested application `(…((e a1) a2) … an)`. -/
def leftNested (e : Expression) (arguments : List Expression) : Expression :=
  arguments.foldl Application e

/-- The environment after the input line `a = a` in a fresh session: `a` was not defined
when the right-hand side was parsed, so it is bound to the variable `a`. -/
def selfNamedEnv : Environment := emptyEnv.define "a" (Variable "a")

/-- The environment with the single definition `p = λz.z`. -/
def closedDefinitionEnv : Environment :=
  emptyEnv.define "p" (Abstraction "z" (Variable "z"))

/-- The characters of identifiers written one after the other, each preceded by its
separator. -/
def joinSeparated : List (List Char × String) → List Char
  | [] => []
  | (separator, name) :: rest => separator ++ name.data ++ joinSeparated rest

/-- The input left is empty or starts with a character that ends an identifier. -/
def EndsIdentifier (tail : List Char) : Prop :=
  ∀ c rest, tail = c :: rest → isAlphaNumeric c = false

/-- The separators are non-empty runs of whitespace and the names are identifiers. -/
def WellSeparated (others : List (List Char × String)) : Prop :=
  ∀ entry ∈ others, entry.1 ≠ [] ∧ (∀ c ∈ entry.1, isSpace c = true) ∧
    isIdentifier entry.2 = true

/-! ### The reference graph of an environment -/

/-- The names of the `NamedReference` nodes of a term. -/
def referencedNames : Expression → List String
  | Variable _ => []
  | Abstraction _ body => referencedNames body
  | Application function argument => referencedNames function ++ referencedNames argument
  | NamedReference name => [name]

/-- An edge of the reference graph: the definition of `n` contains a reference to the
defined name `m`. -/
def RefersTo (env : Environment) (m n : String) : Prop :=
  ∃ D, env.lookup n = some D ∧ m ∈ referencedNames D ∧ env.isDefined m = true

/-- The reference graph has no cycle: no name reaches itself along references. -/
def AcyclicReferences (env : Environment) : Prop :=
  ∀ n, ¬ Relation.TransGen (RefersTo env) n n

/-- The number of nodes of a term once the references to defined names are replaced by
their definitions, counting one more for each replacement. -/
inductive ExpandedSize (env : Environment) : Expression → Nat → Prop where
  | ofVariable (name : String) : ExpandedSize env (Variable name) 1
  | ofUndefined {name : String} :
    env.lookup name = none → ExpandedSize env (NamedReference name) 1
  | ofDefined {name : String} {D : Expression} {k : Nat} :
    env.lookup name = some D → ExpandedSize env D k →
    ExpandedSize env (NamedReference name) (k + 1)
  | ofAbstraction (p : String) {b : Expression} {k : Nat} :
    ExpandedSize env b k → ExpandedSize env (Abstraction p b) (k + 1)
  | ofApplication {f a : Expression} {k1 k2 : Nat} :
    ExpandedSize env f k1 → ExpandedSize env a k2 →
    ExpandedSize env (Application f a) (k1 + k2 + 1)

/-- The environment after `one = \f.\x.f x`, `succ = \n.\f.\x.f (n f x)` and
`two = succ one`: the last definition refers to the two others. -/
def chainEnv : Environment :=
  ((emptyEnv.define "one" (churchNumeral 1)).define "succ" succDefinition).define "two"
    (Application (NamedReference "succ") (NamedReference "one"))

/-! ### Names of references against names of parameters -/

/-- The list `q` is the list `p` followed by decimal digits, possibly none: the form of
the names `generateFreshVariable` derives from the hint `p`. -/
def extendsByDigits : List Char → List Char → Bool
  | [], rest => rest.all isDecimalDigit
  | _ :: _, [] => false
  | c :: cs, d :: ds => c == d && extendsByDigits cs ds

/-- The names that `names` gives on each term of a list, one list after the other. -/
def collectNames (names : Expression → List String) : List Expression → List String
  | [] => []
  | t :: rest => names t ++ collectNames names rest

/-- Among the terms `terms` and the definitions of `env`, no name of a `NamedReference` is
a parameter, nor a parameter followed by decimal digits. -/
def separatedNames (env : Environment) (terms : List Expression) : Bool :=
  (collectNames referencedNames (terms ++ env.definitions.map Prod.snd)).all fun n =>
    (collectNames boundNames (terms ++ env.definitions.map Prod.snd)).all fun p =>
      !extendsByDigits p.data n.data

/-- The references of `t` carry names of `R`, and its parameters are names of `P`
followed by decimal digits, possibly none. -/
def GoodNames (R P : List String) (t : Expression) : Prop :=
  (∀ n ∈ referencedNames t, n ∈ R) ∧
    ∀ q ∈ boundNames t, ∃ p ∈ P, extendsByDigits p.data q.data = true

/-- The environment with the single definition `y1 = λz.z`. -/
def freshNameEnv : Environment :=
  emptyEnv.define "y1" (Abstraction "z" (Variable "z"))

/-- The term that `(\x.plus x one) two` is parsed to in the environment of the scenarios. -/
def sumRedex : Expression :=
  Application
    (Abstraction "x"
      (Application (Application (NamedReference "plus") (Variable "x")) (NamedReference "one")))
    (NamedReference "two")

/-- The term `sumRedex` after its single step: the definitions of `plus` and `one` are
inlined and the reference `two` is put for `x`. -/
def sumReduct : Expression :=
  Application (Application plusDefinition (NamedReference "two")) (churchNumeral 1)

/-! ## A larger recursion budget never changes a result -/

theorem getFreeVariables_succ (env : Environment) :
    ∀ (fuel : Nat) (expr : Expression) (s : Finset String),
      getFreeVariables env fuel expr = some s → getFreeVariables env (fuel + 1) expr = some s := by
  intro fuel
  induction fuel with
  | zero => intro expr s h; simp [getFreeVariables] at h
  | succ k ih =>
    intro expr s h
    cases expr with
    | Variable name => simpa [getFreeVariables] using h
    | NamedReference name =>
      simp only [getFreeVariables] at h ⊢
      cases hl : env.lookup name with
      | none => simpa [hl] using h
      | some d =>
        simp only [hl] at h ⊢
        exact ih d s h
    | Abstraction p b =>
      simp only [getFreeVariables] at h ⊢
      cases hb : getFreeVariables env k b with
      | none => simp [hb] at h
      | some sb =>
        rw [ih b sb hb]
        simpa [hb] using h
    | Application f a =>
      simp only [getFreeVariables] at h ⊢
      cases hf : getFreeVariables env k f with
      | none => simp [hf] at h
      | some sf =>
        cases ha : getFreeVariables env k a with
        | none => simp [hf, ha] at h
        | some sa =>
          rw [ih f sf hf, ih a sa ha]
          simpa [hf, ha] using h

theorem getFreeVariables_mono (env : Environment) {fuel fuel' : Nat} {expr : Expression}
    {s : Finset String} (h : getFreeVariables env fuel expr = some s) (hle : fuel ≤ fuel') :
    getFreeVariables env fuel' expr = some s := by
  induction hle with
  | refl => exact h
  | step _ ih => exact getFreeVariables_succ env _ expr s ih

theorem substitute_succ (env : Environment) :
    ∀ (fuel : Nat) (expr : Expression) (var : String) (replacement r : Expression),
      substitute env fuel expr var replacement = some r →
      substitute env (fuel + 1) expr var replacement = some r := by
  intro fuel
  induction fuel with
  | zero => intro expr var replacement r h; simp [substitute] at h
  | succ k ih =>
    intro expr var replacement r h
    cases expr with
    | Variable name => simpa [substitute] using h
    | NamedReference name =>
      simp only [substitute] at h ⊢
      cases hl : env.lookup name with
      | none => simpa [hl] using h
      | some d =>
        simp only [hl] at h ⊢
        exact ih d var replacement r h
    | Abstraction p b =>
      simp only [substitute] at h ⊢
      by_cases hp : p = var
      · simpa [hp] using h
      · simp only [hp, if_false] at h ⊢
        cases hn : getFreeVariables env k replacement with
        | none => simp [hn] at h
        | some sn =>
          rw [getFreeVariables_succ env k replacement sn hn]
          simp only [hn] at h ⊢
          by_cases hmem : p ∈ sn
          · simp only [hmem, if_true] at h ⊢
            cases hm : getFreeVariables env k (Abstraction p b) with
            | none => simp [hm] at h
            | some sm =>
              rw [getFreeVariables_succ env k _ sm hm]
              simp only [hm] at h ⊢
              cases h1 : substitute env k b p (Variable (generateFreshVariable (sm ∪ sn) p)) with
              | none => simp [h1] at h
              | some rb =>
                rw [ih _ _ _ _ h1]
                simp only [h1] at h ⊢
                cases h2 : substitute env k rb var replacement with
                | none => simp [h2] at h
                | some nb =>
                  rw [ih _ _ _ _ h2]
                  simpa [h2] using h
          · simp only [hmem, if_false] at h ⊢
            cases h1 : substitute env k b var replacement with
            | none => simp [h1] at h
            | some nb =>
              rw [ih _ _ _ _ h1]
              simpa [h1] using h
    | Application f a =>
      simp only [substitute] at h ⊢
      cases hf : substitute env k f var replacement with
      | none => simp [hf] at h
      | some sf =>
        cases ha : substitute env k a var replacement with
        | none => simp [hf, ha] at h
        | some sa =>
          rw [ih _ _ _ _ hf, ih _ _ _ _ ha]
          simpa [hf, ha] using h

theorem substitute_mono (env : Environment) {fuel fuel' : Nat} {expr : Expression}
    {var : String} {replacement r : Expression}
    (h : substitute env fuel expr var replacement = some r) (hle : fuel ≤ fuel') :
    substitute env fuel' expr var replacement = some r := by
  induction hle with
  | refl => exact h
  | step _ ih => exact substitute_succ env _ _ _ _ _ ih

theorem reducer_succ(env : Environment) :
    ∀ fuel : Nat,
      (∀ expr r, betaReduce env fuel expr = some r → betaReduce env (fuel + 1) expr = some r) ∧
      (∀ expr b, isNormalForm env fuel expr = some b →
        isNormalForm env (fuel + 1) expr = some b) ∧
      (∀ expr r, evaluateNormalOrder env fuel expr = some r →
        evaluateNormalOrder env (fuel + 1) expr = some r) := by
  intro fuel
  induction fuel with
  | zero =>
    refine ⟨?_, ?_, ?_⟩ <;> intro expr r h
    · simp [betaReduce] at h
    · simp [isNormalForm] at h
    · simp [evaluateNormalOrder] at h
  | succ k ih =>
    obtain ⟨ihB, ihN, ihE⟩ := ih
    refine ⟨?_, ?_, ?_⟩
    · intro expr r h
      cases expr with
      | Variable name => simpa [betaReduce] using h
      | NamedReference name => simpa [betaReduce] using h
      | Abstraction p b =>
        simp only [betaReduce] at h ⊢
        cases hb : evaluateNormalOrder env k b with
        | none => simp [hb] at h
        | some eb =>
          rw [ihE b eb hb]
          simpa [hb] using h
      | Application f a =>
        cases f with
        | Abstraction p b =>
          simp only [betaReduce] at h ⊢
          exact substitute_succ env k _ _ _ _ h
        | Variable name =>
          simp only [betaReduce] at h ⊢
          cases hf : evaluateNormalOrder env k (Variable name) with
          | none => simp [hf] at h
          | some ef =>
            cases ha : evaluateNormalOrder env k a with
            | none => simp [hf, ha] at h
            | some ea =>
              rw [ihE _ _ hf, ihE _ _ ha]
              simpa [hf, ha] using h
        | NamedReference name =>
          simp only [betaReduce] at h ⊢
          cases hf : evaluateNormalOrder env k (NamedReference name) with
          | none => simp [hf] at h
          | some ef =>
            cases ha : evaluateNormalOrder env k a with
            | none => simp [hf, ha] at h
            | some ea =>
              rw [ihE _ _ hf, ihE _ _ ha]
              simpa [hf, ha] using h
        | Application f1 f2 =>
          simp only [betaReduce] at h ⊢
          cases hf : evaluateNormalOrder env k (Application f1 f2) with
          | none => simp [hf] at h
          | some ef =>
            cases ha : evaluateNormalOrder env k a with
            | none => simp [hf, ha] at h
            | some ea =>
              rw [ihE _ _ hf, ihE _ _ ha]
              simpa [hf, ha] using h
    · intro expr b h
      simp only [isNormalForm] at h ⊢
      cases hb : betaReduce env k expr with
      | none => simp [hb] at h
      | some rb =>
        rw [ihB _ _ hb]
        simpa [hb] using h
    · intro expr r h
      simp only [evaluateNormalOrder] at h ⊢
      cases hn : isNormalForm env k expr with
      | none => simp [hn] at h
      | some b =>
        rw [ihN _ _ hn]
        cases b with
        | true => simpa [hn] using h
        | false =>
          simp only [hn] at h ⊢
          cases hb : betaReduce env k expr with
          | none => simp [hb] at h
          | some rb =>
            rw [ihB _ _ hb]
            simp only [hb] at h ⊢
            exact ihE _ _ h

/-! ## The fresh-name loop leaves the avoidance set -/

theorem digitChar_value (k : Nat) (hk : k < 10) : (Nat.digitChar k).toNat - 48 = k := by
  interval_cases k <;> rfl

theorem decimalValue_toDigitsCore :
    ∀ (fuel n : Nat) (ds : List Char), n < fuel →
      decimalValue 0 (Nat.toDigitsCore 10 fuel n ds) = decimalValue n ds := by
  intro fuel
  induction fuel with
  | zero => intro n ds h; omega
  | succ k ih =>
    intro n ds h
    simp only [Nat.toDigitsCore]
    have hd : (Nat.digitChar (n % 10)).toNat - 48 = n % 10 :=
      digitChar_value _ (Nat.mod_lt _ (by decide))
    by_cases h0 : n / 10 = 0
    · simp only [h0, if_true]
      have hn : n % 10 = n := Nat.mod_eq_of_lt (by omega)
      simp only [decimalValue, List.foldl_cons, hd]
      congr 1
      omega
    · simp only [h0, if_false]
      rw [ih (n / 10) _ (by omega)]
      simp only [decimalValue, List.foldl_cons, hd]
      congr 1
      omega

theorem repr_injective {a b : Nat} (h : Nat.repr a = Nat.repr b) : a = b := by
  have ha := decimalValue_toDigitsCore (a + 1) a [] (Nat.lt_succ_self a)
  have hb := decimalValue_toDigitsCore (b + 1) b [] (Nat.lt_succ_self b)
  have hd : Nat.toDigits 10 a = Nat.toDigits 10 b := by
    have := congrArg String.data h
    simpa [Nat.repr, List.asString] using this
  simp only [Nat.toDigits] at hd
  rw [hd, hb] at ha
  simpa [decimalValue] using ha.symm

theorem append_repr_injective (base : String) {a b : Nat}
    (h : base ++ Nat.repr a = base ++ Nat.repr b) : a = b := by
  apply repr_injective
  have := congrArg String.data h
  simp only [String.data_append] at this
  exact String.ext (List.append_cancel_left this)

theorem generateFreshVariableLoop_mem (usedVars : Finset String) (base : String) :
    ∀ (budget suffix : Nat) (freshVar : String),
      generateFreshVariableLoop usedVars base budget suffix freshVar ∈ usedVars →
      ∀ j, 1 ≤ j → j ≤ budget → base ++ Nat.repr (suffix + j) ∈ usedVars := by
  intro budget
  induction budget with
  | zero => intro suffix freshVar _ j h1 h2; omega
  | succ k ih =>
    intro suffix freshVar h j h1 h2
    simp only [generateFreshVariableLoop] at h
    by_cases hm : freshVar ∈ usedVars
    · simp only [hm, if_true] at h
      by_cases hj : j = 1
      · subst hj
        cases k with
        | zero => exact h
        | succ k' =>
          simp only [generateFreshVariableLoop] at h
          by_cases hm2 : base ++ Nat.repr (suffix + 1) ∈ usedVars
          · exact hm2
          · simp only [hm2, if_false] at h
      · have := ih (suffix + 1) _ h (j - 1) (by omega) (by omega)
        have e : suffix + 1 + (j - 1) = suffix + j := by omega
        rwa [e] at this
    · simp only [hm, if_false] at h

theorem generateFreshVariable_not_mem (usedVars : Finset String) (hint : String) :
    generateFreshVariable usedVars hint ∉ usedVars := by
  intro h
  have hall := generateFreshVariableLoop_mem usedVars hint _ 0 hint h
  have hsub : (Finset.Icc 1 (usedVars.card + 1)).image (fun j => hint ++ Nat.repr j) ⊆ usedVars := by
    intro s hs
    obtain ⟨j, hj, rfl⟩ := Finset.mem_image.mp hs
    have hj' := Finset.mem_Icc.mp hj
    simpa using hall j hj'.1 hj'.2
  have hcard := Finset.card_le_card hsub
  rw [Finset.card_image_of_injective _ (fun a b hab => append_repr_injective hint hab)] at hcard
  simp at hcard

/-! ## Free variables of a substitution result -/

theorem freeVars_unique {env : Environment} {expr : Expression} {s s' : Finset String}
    (h : FreeVars env expr s) (h' : FreeVars env expr s') : s = s' := by
  obtain ⟨f, hf⟩ := h
  obtain ⟨f', hf'⟩ := h'
  have h1 := getFreeVariables_mono env hf (Nat.le_max_left f f')
  have h2 := getFreeVariables_mono env hf' (Nat.le_max_right f f')
  rw [h1] at h2
  exact Option.some.inj h2

theorem freeVars_variable {env : Environment} {name : String} {s : Finset String} :
    FreeVars env (Variable name) s ↔ s = {name} := by
  constructor
  · rintro ⟨fuel, h⟩
    cases fuel with
    | zero => simp [getFreeVariables] at h
    | succ k => simpa [getFreeVariables, eq_comm] using h
  · rintro rfl
    exact ⟨1, rfl⟩

theorem freeVars_reference_none {env : Environment} {name : String} {s : Finset String}
    (hl : env.lookup name = none) : FreeVars env (NamedReference name) s ↔ s = {name} := by
  constructor
  · rintro ⟨fuel, h⟩
    cases fuel with
    | zero => simp [getFreeVariables] at h
    | succ k => simpa [getFreeVariables, hl, eq_comm] using h
  · rintro rfl
    exact ⟨1, by simp [getFreeVariables, hl]⟩

theorem freeVars_reference_some {env : Environment} {name : String} {d : Expression}
    {s : Finset String} (hl : env.lookup name = some d) :
    FreeVars env (NamedReference name) s ↔ FreeVars env d s := by
  constructor
  · rintro ⟨fuel, h⟩
    cases fuel with
    | zero => simp [getFreeVariables] at h
    | succ k => exact ⟨k, by simpa [getFreeVariables, hl] using h⟩
  · rintro ⟨fuel, h⟩
    exact ⟨fuel + 1, by simpa [getFreeVariables, hl] using h⟩

theorem freeVars_abstraction {env : Environment} {p : String} {b : Expression}
    {s : Finset String} :
    FreeVars env (Abstraction p b) s ↔ ∃ sb, FreeVars env b sb ∧ s = sb.erase p := by
  constructor
  · rintro ⟨fuel, h⟩
    cases fuel with
    | zero => simp [getFreeVariables] at h
    | succ k =>
      simp only [getFreeVariables] at h
      cases hb : getFreeVariables env k b with
      | none => simp [hb] at h
      | some sb =>
        simp only [hb, Option.some.injEq] at h
        exact ⟨sb, ⟨k, hb⟩, h.symm⟩
  · rintro ⟨sb, ⟨fuel, hb⟩, rfl⟩
    exact ⟨fuel + 1, by simp [getFreeVariables, hb]⟩

theorem freeVars_application {env : Environment} {f a : Expression} {s : Finset String} :
    FreeVars env (Application f a) s ↔
      ∃ sf sa, FreeVars env f sf ∧ FreeVars env a sa ∧ s = sf ∪ sa := by
  constructor
  · rintro ⟨fuel, h⟩
    cases fuel with
    | zero => simp [getFreeVariables] at h
    | succ k =>
      simp only [getFreeVariables] at h
      cases hf : getFreeVariables env k f with
      | none => simp [hf] at h
      | some sf =>
        cases ha : getFreeVariables env k a with
        | none => simp [hf, ha] at h
        | some sa =>
          simp only [hf, ha, Option.some.injEq] at h
          exact ⟨sf, sa, ⟨k, hf⟩, ⟨k, ha⟩, h.symm⟩
  · rintro ⟨sf, sa, ⟨k1, hf⟩, ⟨k2, ha⟩, rfl⟩
    refine ⟨max k1 k2 + 1, ?_⟩
    simp [getFreeVariables, getFreeVariables_mono env hf (Nat.le_max_left k1 k2),
      getFreeVariables_mono env ha (Nat.le_max_right k1 k2)]

/-- What one call of `substitute` on an abstraction does, in terms of the results of
the calls it makes. -/
theorem substitute_abstraction_cases {env : Environment} {k : Nat} {p : String}
    {b : Expression} {x : String} {N r : Expression}
    (h : substitute env (k + 1) (Abstraction p b) x N = some r) :
    (p = x ∧ r = Abstraction p b) ∨
    (p ≠ x ∧ ∃ sn, getFreeVariables env k N = some sn ∧
      ((p ∉ sn ∧ ∃ nb, substitute env k b x N = some nb ∧ r = Abstraction p nb) ∨
       (p ∈ sn ∧ ∃ sm rb nb, getFreeVariables env k (Abstraction p b) = some sm ∧
          substitute env k b p (Variable (generateFreshVariable (sm ∪ sn) p)) = some rb ∧
          substitute env k rb x N = some nb ∧
          r = Abstraction (generateFreshVariable (sm ∪ sn) p) nb))) := by
  simp only [substitute] at h
  by_cases hp : p = x
  · left
    simp only [hp, if_true, Option.some.injEq] at h
    exact ⟨hp, by rw [← h, hp]⟩
  · right
    refine ⟨hp, ?_⟩
    simp only [hp, if_false] at h
    cases hn : getFreeVariables env k N with
    | none => simp [hn] at h
    | some sn =>
      refine ⟨sn, rfl, ?_⟩
      simp only [hn] at h
      by_cases hmem : p ∈ sn
      · right
        simp only [hmem, if_true] at h
        cases hm : getFreeVariables env k (Abstraction p b) with
        | none => simp [hm] at h
        | some sm =>
          simp only [hm] at h
          cases h1 : substitute env k b p (Variable (generateFreshVariable (sm ∪ sn) p)) with
          | none => simp [h1] at h
          | some rb =>
            simp only [h1] at h
            cases h2 : substitute env k rb x N with
            | none => simp [h2] at h
            | some nb =>
              simp only [h2, Option.some.injEq] at h
              exact ⟨hmem, sm, rb, nb, rfl, h1, h2, h.symm⟩
      · left
        simp only [hmem, if_false] at h
        cases h1 : substitute env k b x N with
        | none => simp [h1] at h
        | some nb =>
          simp only [h1, Option.some.injEq] at h
          exact ⟨hmem, nb, rfl, h.symm⟩

theorem substitute_application_cases {env : Environment} {k : Nat} {f a : Expression}
    {x : String} {N r : Expression}
    (h : substitute env (k + 1) (Application f a) x N = some r) :
    ∃ nf na, substitute env k f x N = some nf ∧ substitute env k a x N = some na ∧
      r = Application nf na := by
  simp only [substitute] at h
  cases hf : substitute env k f x N with
  | none => simp [hf] at h
  | some nf =>
    cases ha : substitute env k a x N with
    | none => simp [hf, ha] at h
    | some na =>
      simp only [hf, ha, Option.some.injEq] at h
      exact ⟨nf, na, rfl, rfl, h.symm⟩

theorem substitute_reference_cases {env : Environment} {k : Nat} {name : String}
    {x : String} {N r : Expression}
    (h : substitute env (k + 1) (NamedReference name) x N = some r) :
    (∃ d, env.lookup name = some d ∧ substitute env k d x N = some r) ∨
    (env.lookup name = none ∧ r = if name = x then N else NamedReference name) := by
  simp only [substitute] at h
  cases hl : env.lookup name with
  | none =>
    right
    simp only [hl] at h
    refine ⟨rfl, ?_⟩
    by_cases hx : name = x
    · simp only [hx, if_true, Option.some.injEq] at h ⊢; exact h.symm
    · simp only [hx, if_false, Option.some.injEq] at h ⊢; exact h.symm
  | some d =>
    left
    simp only [hl] at h
    exact ⟨d, rfl, h⟩

theorem substitute_variable_cases {env : Environment} {k : Nat} {name : String}
    {x : String} {N r : Expression}
    (h : substitute env (k + 1) (Variable name) x N = some r) :
    r = if name = x then N else Variable name := by
  simp only [substitute] at h
  by_cases hx : name = x
  · simp only [hx, if_true, Option.some.injEq] at h ⊢; exact h.symm
  · simp only [hx, if_false, Option.some.injEq] at h ⊢; exact h.symm

/-- Free-variable soundness of `substitute`, with the existence of the analysis result. -/
theorem substitute_freeVars (env : Environment) :
    ∀ (fuel : Nat) (M : Expression) (x : String) (N r : Expression) (sm sn : Finset String),
      substitute env fuel M x N = some r → FreeVars env M sm → FreeVars env N sn →
      ∃ sr, FreeVars env r sr ∧ sr ⊆ sm.erase x ∪ sn := by
  intro fuel
  induction fuel with
  | zero => intro M x N r sm sn h; simp [substitute] at h
  | succ k ih =>
    intro M x N r sm sn h hM hN
    cases M with
    | Variable name =>
      have hr := substitute_variable_cases h
      have hsm := freeVars_variable.mp hM
      by_cases hx : name = x
      · rw [if_pos hx] at hr
        subst hr
        exact ⟨sn, hN, Finset.subset_union_right⟩
      · rw [if_neg hx] at hr
        subst hr
        refine ⟨sm, hM, ?_⟩
        subst hsm
        intro v hv
        rw [Finset.mem_singleton] at hv
        subst hv
        simp [hx]
    | NamedReference name =>
      rcases substitute_reference_cases h with ⟨d, hl, hd⟩ | ⟨hl, hr⟩
      · exact ih d x N r sm sn hd ((freeVars_reference_some hl).mp hM) hN
      · have hsm := (freeVars_reference_none hl).mp hM
        by_cases hx : name = x
        · rw [if_pos hx] at hr
          subst hr
          exact ⟨sn, hN, Finset.subset_union_right⟩
        · rw [if_neg hx] at hr
          subst hr
          refine ⟨sm, hM, ?_⟩
          subst hsm
          intro v hv
          rw [Finset.mem_singleton] at hv
          subst hv
          simp [hx]
    | Abstraction p b =>
      obtain ⟨sb, hb, hsm⟩ := freeVars_abstraction.mp hM
      rcases substitute_abstraction_cases h with ⟨hp, hr⟩ | ⟨hp, sn', hn', hcase⟩
      · subst hr
        refine ⟨sm, hM, ?_⟩
        subst hsm hp
        intro v hv
        have := Finset.mem_erase.mp hv
        simp [this.1, this.2]
      · have hsn : sn' = sn := freeVars_unique ⟨k, hn'⟩ hN
        subst hsn
        rcases hcase with ⟨hmem, nb, hnb, hr⟩ | ⟨hmem, sm', rb, nb, hm', hrb, hnb, hr⟩
        · obtain ⟨snb, hfnb, hsub⟩ := ih b x N nb sb sn' hnb hb hN
          subst hr
          refine ⟨snb.erase p, freeVars_abstraction.mpr ⟨snb, hfnb, rfl⟩, ?_⟩
          subst hsm
          intro v hv
          obtain ⟨hvp, hvn⟩ := Finset.mem_erase.mp hv
          have := hsub hvn
          simp only [Finset.mem_union, Finset.mem_erase] at this ⊢
          tauto
        · obtain ⟨srb, hfrb, hsub1⟩ :=
            ih b p (Variable (generateFreshVariable (sm' ∪ sn') p)) rb sb _ hrb hb
              (freeVars_variable.mpr rfl)
          obtain ⟨snb, hfnb, hsub2⟩ := ih rb x N nb srb sn' hnb hfrb hN
          subst hr
          refine ⟨snb.erase _, freeVars_abstraction.mpr ⟨snb, hfnb, rfl⟩, ?_⟩
          subst hsm
          intro v hv
          obtain ⟨hvp, hvn⟩ := Finset.mem_erase.mp hv
          have h2 := hsub2 hvn
          simp only [Finset.mem_union, Finset.mem_erase] at h2 ⊢
          rcases h2 with ⟨hvx, hvrb⟩ | hvn
          · have h1 := hsub1 hvrb
            simp only [Finset.mem_union, Finset.mem_erase, Finset.mem_singleton] at h1
            tauto
          · exact Or.inr hvn
    | Application f a =>
      obtain ⟨sf, sa, hf, ha, hsm⟩ := freeVars_application.mp hM
      obtain ⟨nf, na, hnf, hna, hr⟩ := substitute_application_cases h
      obtain ⟨snf, hfnf, hsubf⟩ := ih f x N nf sf sn hnf hf hN
      obtain ⟨sna, hfna, hsuba⟩ := ih a x N na sa sn hna ha hN
      subst hr
      refine ⟨snf ∪ sna, freeVars_application.mpr ⟨snf, sna, hfnf, hfna, rfl⟩, ?_⟩
      subst hsm
      intro v hv
      rcases Finset.mem_union.mp hv with hv | hv
      · have := hsubf hv
        simp only [Finset.mem_union, Finset.mem_erase] at this ⊢
        tauto
      · have := hsuba hv
        simp only [Finset.mem_union, Finset.mem_erase] at this ⊢
        tauto

/-- A free variable other than the substituted one stays free. -/
theorem substitute_keeps_free (env : Environment) :
    ∀ (fuel : Nat) (M : Expression) (x : String) (N r : Expression) (sm sn sr : Finset String)
      (z : String),
      substitute env fuel M x N = some r → FreeVars env M sm → FreeVars env N sn →
      FreeVars env r sr → z ∈ sm → z ≠ x → z ∈ sr := by
  intro fuel
  induction fuel with
  | zero => intro M x N r sm sn sr z h; simp [substitute] at h
  | succ k ih =>
    intro M x N r sm sn sr z h hM hN hR hz hzx
    cases M with
    | Variable name =>
      have hr := substitute_variable_cases h
      have hsm := freeVars_variable.mp hM
      subst hsm
      rw [Finset.mem_singleton] at hz
      subst hz
      rw [if_neg hzx] at hr
      subst hr
      rw [freeVars_variable.mp hR]
      simp
    | NamedReference name =>
      rcases substitute_reference_cases h with ⟨d, hl, hd⟩ | ⟨hl, hr⟩
      · exact ih d x N r sm sn sr z hd ((freeVars_reference_some hl).mp hM) hN hR hz hzx
      · have hsm := (freeVars_reference_none hl).mp hM
        subst hsm
        rw [Finset.mem_singleton] at hz
        subst hz
        rw [if_neg hzx] at hr
        subst hr
        rw [(freeVars_reference_none hl).mp hR]
        simp
    | Abstraction p b =>
      obtain ⟨sb, hb, hsm⟩ := freeVars_abstraction.mp hM
      rcases substitute_abstraction_cases h with ⟨hp, hr⟩ | ⟨hp, sn', hn', hcase⟩
      · subst hr
        rw [freeVars_unique hR hM]
        exact hz
      · have hsn : sn' = sn := freeVars_unique ⟨k, hn'⟩ hN
        subst hsn
        have hzb : z ∈ sb ∧ z ≠ p := by
          subst hsm
          have := Finset.mem_erase.mp hz
          exact ⟨this.2, this.1⟩
        rcases hcase with ⟨hmem, nb, hnb, hr⟩ | ⟨hmem, sm', rb, nb, hm', hrb, hnb, hr⟩
        · subst hr
          obtain ⟨snb, hfnb, hsr⟩ := freeVars_abstraction.mp hR
          subst hsr
          have := ih b x N nb sb sn' snb z hnb hb hN hfnb hzb.1 hzx
          exact Finset.mem_erase.mpr ⟨hzb.2, this⟩
        · have hsm' : sm' = sm := freeVars_unique ⟨k, hm'⟩ hM
          subst hsm'
          have hfresh := generateFreshVariable_not_mem (sm' ∪ sn') p
          have hzf : z ≠ generateFreshVariable (sm' ∪ sn') p := by
            intro e
            apply hfresh
            rw [← e]
            exact Finset.mem_union_left _ hz
          obtain ⟨srb, hfrb, _⟩ :=
            substitute_freeVars env k b p _ rb sb _ hrb hb (freeVars_variable.mpr rfl)
          subst hr
          obtain ⟨snb, hfnb, hsr⟩ := freeVars_abstraction.mp hR
          subst hsr
          have h1 := ih b p _ rb sb _ srb z hrb hb (freeVars_variable.mpr rfl) hfrb hzb.1 hzb.2
          have h2 := ih rb x N nb srb sn' snb z hnb hfrb hN hfnb h1 hzx
          exact Finset.mem_erase.mpr ⟨hzf, h2⟩
    | Application f a =>
      obtain ⟨sf, sa, hf, ha, hsm⟩ := freeVars_application.mp hM
      obtain ⟨nf, na, hnf, hna, hr⟩ := substitute_application_cases h
      subst hr
      obtain ⟨snf, sna, hfnf, hfna, hsr⟩ := freeVars_application.mp hR
      subst hsr hsm
      rcases Finset.mem_union.mp hz with hz | hz
      · exact Finset.mem_union_left _ (ih f x N nf sf sn snf z hnf hf hN hfnf hz hzx)
      · exact Finset.mem_union_right _ (ih a x N na sa sn sna z hna ha hN hfna hz hzx)

/-- No free variable of the replacement is captured when the variable occurs free. -/
theorem substitute_no_capture (env : Environment) :
    ∀ (fuel : Nat) (M : Expression) (x : String) (N r : Expression) (sm sn sr : Finset String),
      substitute env fuel M x N = some r → FreeVars env M sm → FreeVars env N sn →
      FreeVars env r sr → x ∈ sm → sn ⊆ sr := by
  intro fuel
  induction fuel with
  | zero => intro M x N r sm sn sr h; simp [substitute] at h
  | succ k ih =>
    intro M x N r sm sn sr h hM hN hR hx
    cases M with
    | Variable name =>
      have hr := substitute_variable_cases h
      have hsm := freeVars_variable.mp hM
      subst hsm
      rw [Finset.mem_singleton] at hx
      subst hx
      rw [if_pos rfl] at hr
      subst hr
      rw [freeVars_unique hR hN]
    | NamedReference name =>
      rcases substitute_reference_cases h with ⟨d, hl, hd⟩ | ⟨hl, hr⟩
      · exact ih d x N r sm sn sr hd ((freeVars_reference_some hl).mp hM) hN hR hx
      · have hsm := (freeVars_reference_none hl).mp hM
        subst hsm
        rw [Finset.mem_singleton] at hx
        subst hx
        rw [if_pos rfl] at hr
        subst hr
        rw [freeVars_unique hR hN]
    | Abstraction p b =>
      obtain ⟨sb, hb, hsm⟩ := freeVars_abstraction.mp hM
      have hxb : x ∈ sb ∧ x ≠ p := by
        subst hsm
        have := Finset.mem_erase.mp hx
        exact ⟨this.2, this.1⟩
      rcases substitute_abstraction_cases h with ⟨hp, hr⟩ | ⟨hp, sn', hn', hcase⟩
      · exact absurd hp.symm hxb.2
      · have hsn : sn' = sn := freeVars_unique ⟨k, hn'⟩ hN
        subst hsn
        rcases hcase with ⟨hmem, nb, hnb, hr⟩ | ⟨hmem, sm', rb, nb, hm', hrb, hnb, hr⟩
        · subst hr
          obtain ⟨snb, hfnb, hsr⟩ := freeVars_abstraction.mp hR
          subst hsr
          have := ih b x N nb sb sn' snb hnb hb hN hfnb hxb.1
          intro v hv
          refine Finset.mem_erase.mpr ⟨?_, this hv⟩
          rintro rfl
          exact hmem hv
        · have hsm' : sm' = sm := freeVars_unique ⟨k, hm'⟩ hM
          subst hsm'
          have hfresh := generateFreshVariable_not_mem (sm' ∪ sn') p
          obtain ⟨srb, hfrb, _⟩ :=
            substitute_freeVars env k b p _ rb sb _ hrb hb (freeVars_variable.mpr rfl)
          subst hr
          obtain ⟨snb, hfnb, hsr⟩ := freeVars_abstraction.mp hR
          subst hsr
          have h1 := substitute_keeps_free env k b p _ rb sb _ srb x hrb hb
            (freeVars_variable.mpr rfl) hfrb hxb.1 hxb.2
          have h2 := ih rb x N nb srb sn' snb hnb hfrb hN hfnb h1
          intro v hv
          refine Finset.mem_erase.mpr ⟨?_, h2 hv⟩
          intro e
          apply hfresh
          rw [← e]
          exact Finset.mem_union_right _ hv
    | Application f a =>
      obtain ⟨sf, sa, hf, ha, hsm⟩ := freeVars_application.mp hM
      obtain ⟨nf, na, hnf, hna, hr⟩ := substitute_application_cases h
      subst hr
      obtain ⟨snf, sna, hfnf, hfna, hsr⟩ := freeVars_application.mp hR
      subst hsr hsm
      rcases Finset.mem_union.mp hx with hx | hx
      · exact (ih f x N nf sf sn snf hnf hf hN hfnf hx).trans Finset.subset_union_left
      · exact (ih a x N na sa sn sna hna ha hN hfna hx).trans Finset.subset_union_right

/-! ## The three functions as relations -/

theorem betaReduce_mono (env : Environment) {fuel fuel' : Nat} {expr r : Expression}
    (h : betaReduce env fuel expr = some r) (hle : fuel ≤ fuel') :
    betaReduce env fuel' expr = some r := by
  induction hle with
  | refl => exact h
  | step _ ih => exact (reducer_succ env _).1 _ _ ih

theorem isNormalForm_mono (env : Environment) {fuel fuel' : Nat} {expr : Expression} {b : Bool}
    (h : isNormalForm env fuel expr = some b) (hle : fuel ≤ fuel') :
    isNormalForm env fuel' expr = some b := by
  induction hle with
  | refl => exact h
  | step _ ih => exact (reducer_succ env _).2.1 _ _ ih

theorem evaluateNormalOrder_mono (env : Environment) {fuel fuel' : Nat} {expr r : Expression}
    (h : evaluateNormalOrder env fuel expr = some r) (hle : fuel ≤ fuel') :
    evaluateNormalOrder env fuel' expr = some r := by
  induction hle with
  | refl => exact h
  | step _ ih => exact (reducer_succ env _).2.2 _ _ ih

theorem substitutes_unique {env : Environment} {M : Expression} {x : String}
    {N r r' : Expression} (h : Substitutes env M x N r) (h' : Substitutes env M x N r') :
    r = r' := by
  obtain ⟨f, hf⟩ := h
  obtain ⟨f', hf'⟩ := h'
  have h1 := substitute_mono env hf (Nat.le_max_left f f')
  have h2 := substitute_mono env hf' (Nat.le_max_right f f')
  rw [h1] at h2
  exact Option.some.inj h2

theorem reduces_unique {env : Environment} {t r r' : Expression}
    (h : Reduces env t r) (h' : Reduces env t r') : r = r' := by
  obtain ⟨f, hf⟩ := h
  obtain ⟨f', hf'⟩ := h'
  have h1 := betaReduce_mono env hf (Nat.le_max_left f f')
  have h2 := betaReduce_mono env hf' (Nat.le_max_right f f')
  rw [h1] at h2
  exact Option.some.inj h2

theorem evaluates_unique {env : Environment} {t r r' : Expression}
    (h : Evaluates env t r) (h' : Evaluates env t r') : r = r' := by
  obtain ⟨f, hf⟩ := h
  obtain ⟨f', hf'⟩ := h'
  have h1 := evaluateNormalOrder_mono env hf (Nat.le_max_left f f')
  have h2 := evaluateNormalOrder_mono env hf' (Nat.le_max_right f f')
  rw [h1] at h2
  exact Option.some.inj h2

/-! ### Introduction rules for the three relations -/

theorem substitutes_variable_eq (env : Environment) (x : String) (N : Expression) :
    Substitutes env (Variable x) x N N :=
  ⟨1, by simp [substitute]⟩

theorem substitutes_variable_ne (env : Environment) {name x : String} (N : Expression)
    (h : name ≠ x) : Substitutes env (Variable name) x N (Variable name) :=
  ⟨1, by simp [substitute, h]⟩

theorem substitutes_application {env : Environment} {f a : Expression} {x : String}
    {N nf na : Expression} (hf : Substitutes env f x N nf) (ha : Substitutes env a x N na) :
    Substitutes env (Application f a) x N (Application nf na) := by
  obtain ⟨k1, h1⟩ := hf
  obtain ⟨k2, h2⟩ := ha
  refine ⟨max k1 k2 + 1, ?_⟩
  simp [substitute, substitute_mono env h1 (Nat.le_max_left k1 k2),
    substitute_mono env h2 (Nat.le_max_right k1 k2)]

theorem substitutes_shadow (env : Environment) (x : String) (b N : Expression) :
    Substitutes env (Abstraction x b) x N (Abstraction x b) :=
  ⟨1, by simp [substitute]⟩

theorem substitutes_abstraction {env : Environment} {p x : String} {b N nb : Expression}
    {sn : Finset String} (hp : p ≠ x) (hN : FreeVars env N sn) (hmem : p ∉ sn)
    (hb : Substitutes env b x N nb) :
    Substitutes env (Abstraction p b) x N (Abstraction p nb) := by
  obtain ⟨k1, h1⟩ := hN
  obtain ⟨k2, h2⟩ := hb
  refine ⟨max k1 k2 + 1, ?_⟩
  simp [substitute, hp, hmem, getFreeVariables_mono env h1 (Nat.le_max_left k1 k2),
    substitute_mono env h2 (Nat.le_max_right k1 k2)]

theorem substitutes_rename {env : Environment} {p x : String} {b N rb nb : Expression}
    {sm sn : Finset String} (hp : p ≠ x) (hN : FreeVars env N sn) (hmem : p ∈ sn)
    (hM : FreeVars env (Abstraction p b) sm)
    (hrb : Substitutes env b p (Variable (generateFreshVariable (sm ∪ sn) p)) rb)
    (hnb : Substitutes env rb x N nb) :
    Substitutes env (Abstraction p b) x N
      (Abstraction (generateFreshVariable (sm ∪ sn) p) nb) := by
  obtain ⟨k1, h1⟩ := hN
  obtain ⟨k2, h2⟩ := hM
  obtain ⟨k3, h3⟩ := hrb
  obtain ⟨k4, h4⟩ := hnb
  refine ⟨max (max k1 k2) (max k3 k4) + 1, ?_⟩
  have e1 := getFreeVariables_mono env h1 (show k1 ≤ max (max k1 k2) (max k3 k4) by omega)
  have e2 := getFreeVariables_mono env h2 (show k2 ≤ max (max k1 k2) (max k3 k4) by omega)
  have e3 := substitute_mono env h3 (show k3 ≤ max (max k1 k2) (max k3 k4) by omega)
  have e4 := substitute_mono env h4 (show k4 ≤ max (max k1 k2) (max k3 k4) by omega)
  simp [substitute, hp, hmem, e1, e2, e3, e4]

theorem substitutes_reference_some {env : Environment} {name x : String} {d N r : Expression}
    (hl : env.lookup name = some d) (hd : Substitutes env d x N r) :
    Substitutes env (NamedReference name) x N r := by
  obtain ⟨k, h⟩ := hd
  exact ⟨k + 1, by simpa [substitute, hl] using h⟩

theorem substitutes_reference_none {env : Environment} {name : String} (x : String)
    (N : Expression) (hl : env.lookup name = none) :
    Substitutes env (NamedReference name) x N (if name = x then N else NamedReference name) :=
  ⟨1, by simp [substitute, hl]; split <;> rfl⟩

theorem reduces_variable (env : Environment) (name : String) :
    Reduces env (Variable name) (Variable name) :=
  ⟨1, by simp [betaReduce]⟩

theorem reduces_abstraction {env : Environment} {p : String} {b b' : Expression}
    (h : Evaluates env b b') : Reduces env (Abstraction p b) (Abstraction p b') := by
  obtain ⟨k, hk⟩ := h
  exact ⟨k + 1, by simp [betaReduce, hk]⟩

theorem reduces_redex {env : Environment} {p : String} {b a r : Expression}
    (h : Substitutes env b p a r) : Reduces env (Application (Abstraction p b) a) r := by
  obtain ⟨k, hk⟩ := h
  exact ⟨k + 1, by simpa [betaReduce] using hk⟩

theorem reduces_application {env : Environment} {f a f' a' : Expression}
    (hf : ∀ p b, f ≠ Abstraction p b) (h1 : Evaluates env f f') (h2 : Evaluates env a a') :
    Reduces env (Application f a) (Application f' a') := by
  obtain ⟨k1, e1⟩ := h1
  obtain ⟨k2, e2⟩ := h2
  refine ⟨max k1 k2 + 1, ?_⟩
  have m1 := evaluateNormalOrder_mono env e1 (Nat.le_max_left k1 k2)
  have m2 := evaluateNormalOrder_mono env e2 (Nat.le_max_right k1 k2)
  cases f with
  | Abstraction p b => exact absurd rfl (hf p b)
  | Variable name => simp [betaReduce, m1, m2]
  | NamedReference name => simp [betaReduce, m1, m2]
  | Application f1 f2 => simp [betaReduce, m1, m2]

theorem reduces_reference_some {env : Environment} {name : String} {d : Expression}
    (hl : env.lookup name = some d) : Reduces env (NamedReference name) d :=
  ⟨1, by simp [betaReduce, hl]⟩

theorem reduces_reference_none {env : Environment} {name : String}
    (hl : env.lookup name = none) : Reduces env (NamedReference name) (Variable name) :=
  ⟨1, by simp [betaReduce, hl]⟩

theorem evaluates_fixed {env : Environment} {t t' : Expression} (h : Reduces env t t')
    (hs : t'.toString = t.toString) : Evaluates env t t := by
  obtain ⟨k, hk⟩ := h
  exact ⟨k + 2, by simp [evaluateNormalOrder, isNormalForm, hk, hs]⟩

theorem evaluates_step {env : Environment} {t t' r : Expression} (h : Reduces env t t')
    (hs : t'.toString ≠ t.toString) (hr : Evaluates env t' r) : Evaluates env t r := by
  obtain ⟨k1, e1⟩ := h
  obtain ⟨k2, e2⟩ := hr
  refine ⟨max k1 k2 + 2, ?_⟩
  have m1 := betaReduce_mono env e1 (Nat.le_max_left k1 k2)
  have m1' := betaReduce_mono env m1 (Nat.le_succ _)
  have m2 := evaluateNormalOrder_mono env e2
    (show k2 ≤ max k1 k2 + 1 from le_trans (Nat.le_max_right k1 k2) (Nat.le_succ _))
  have hn : isNormalForm env (max k1 k2 + 1) t = some false := by
    simp [isNormalForm, m1, hs]
  rw [evaluateNormalOrder, hn]
  simp only [m1']
  exact m2

/-- The result of an evaluation is returned unchanged when evaluated again. -/
theorem evaluateNormalOrder_idempotent (env : Environment) :
    ∀ (fuel : Nat) (t r : Expression),
      evaluateNormalOrder env fuel t = some r → evaluateNormalOrder env fuel r = some r := by
  intro fuel
  induction fuel with
  | zero => intro t r h; simp [evaluateNormalOrder] at h
  | succ k ih =>
    intro t r h
    have h' := h
    simp only [evaluateNormalOrder] at h
    cases hn : isNormalForm env k t with
    | none => simp [hn] at h
    | some b =>
      cases b with
      | true =>
        simp only [hn, Option.some.injEq] at h
        subst h
        exact h'
      | false =>
        simp only [hn] at h
        cases hb : betaReduce env k t with
        | none => simp [hb] at h
        | some rb =>
          simp only [hb] at h
          exact evaluateNormalOrder_mono env (ih rb r h) (Nat.le_succ k)

theorem evaluates_idempotent {env : Environment} {t r : Expression} (h : Evaluates env t r) :
    Evaluates env r r := by
  obtain ⟨k, hk⟩ := h
  exact ⟨k, evaluateNormalOrder_idempotent env k t r hk⟩

/-! ## Canonical strings -/

theorem toString_data (t : Expression) : t.toString.data = t.chars := by
  induction t with
  | Variable name => rfl
  | NamedReference name => rfl
  | Abstraction p b ih =>
    simp only [Expression.toString, Expression.chars, String.data_append, ih]
    simp
  | Application f a ihf iha =>
    simp only [Expression.toString, Expression.chars, String.data_append, ihf, iha]
    simp

theorem toString_eq_iff (a b : Expression) : a.toString = b.toString ↔ a.chars = b.chars := by
  rw [← toString_data, ← toString_data]
  constructor
  · intro h; rw [h]
  · intro h; exact String.ext h

theorem toString_ne_of_length {a b : Expression} (h : a.chars.length ≠ b.chars.length) :
    a.toString ≠ b.toString := by
  intro e
  exact h (by rw [(toString_eq_iff a b).mp e])

theorem isIdentifier_head {name : String} (h : isIdentifier name = true) :
    ∃ c rest, name.data = c :: rest ∧ c ≠ 'λ' ∧ c ≠ '(' := by
  unfold isIdentifier at h
  cases hd : name.data with
  | nil => simp [hd] at h
  | cons c rest =>
    simp only [hd, Bool.and_eq_true] at h
    refine ⟨c, rest, rfl, ?_, ?_⟩
    · rintro rfl
      exact absurd h.1 (by decide)
    · rintro rfl
      exact absurd h.1 (by decide)

/-! ## Terms without redex, and substitution without renaming -/

theorem freeVars_total (env : Environment) :
    ∀ t : Expression, namedReferenceFree t = true → ∃ s, FreeVars env t s := by
  intro t
  induction t with
  | Variable name => intro _; exact ⟨_, freeVars_variable.mpr rfl⟩
  | NamedReference name => intro h; simp [namedReferenceFree] at h
  | Abstraction p b ih =>
    intro h
    obtain ⟨sb, hb⟩ := ih (by simpa [namedReferenceFree] using h)
    exact ⟨_, freeVars_abstraction.mpr ⟨sb, hb, rfl⟩⟩
  | Application f a ihf iha =>
    intro h
    simp only [namedReferenceFree, Bool.and_eq_true] at h
    obtain ⟨sf, hf⟩ := ihf h.1
    obtain ⟨sa, ha⟩ := iha h.2
    exact ⟨_, freeVars_application.mpr ⟨sf, sa, hf, ha, rfl⟩⟩

/-- When no parameter of `M` is free in `N`, `substitute` replaces without renaming. -/
theorem substitutes_plain (env : Environment) (x : String) (N : Expression)
    (sn : Finset String) (hN : FreeVars env N sn) :
    ∀ M : Expression, namedReferenceFree M = true → (∀ p ∈ boundNames M, p ∉ sn) →
      Substitutes env M x N (replaceVariable x N M) := by
  intro M
  induction M with
  | Variable name =>
    intro _ _
    by_cases h : name = x
    · subst h
      simpa [replaceVariable] using substitutes_variable_eq env name N
    · simpa [replaceVariable, h] using substitutes_variable_ne env N h
  | NamedReference name => intro h; simp [namedReferenceFree] at h
  | Abstraction p b ih =>
    intro hfree hb
    by_cases h : p = x
    · subst h
      simpa [replaceVariable] using substitutes_shadow env p b N
    · have hp : p ∉ sn := hb p (by simp [boundNames])
      have := ih (by simpa [namedReferenceFree] using hfree)
        (fun q hq => hb q (by simp [boundNames, hq]))
      simpa [replaceVariable, h] using substitutes_abstraction h hN hp this
  | Application f a ihf iha =>
    intro hfree hb
    simp only [namedReferenceFree, Bool.and_eq_true] at hfree
    have h1 := ihf hfree.1 (fun q hq => hb q (by simp [boundNames, hq]))
    have h2 := iha hfree.2 (fun q hq => hb q (by simp [boundNames, hq]))
    simpa [replaceVariable] using substitutes_application h1 h2

theorem replaceVariable_self (x : String) :
    ∀ M : Expression, replaceVariable x (Variable x) M = M := by
  intro M
  induction M with
  | Variable name =>
    by_cases h : name = x
    · simp [replaceVariable, h]
    · simp [replaceVariable, h]
  | NamedReference name => rfl
  | Abstraction p b ih =>
    by_cases h : p = x
    · simp [replaceVariable, h]
    · simp [replaceVariable, h, ih]
  | Application f a ihf iha => simp [replaceVariable, ihf, iha]

theorem isAbstraction_false {f : Expression} (h : isAbstraction f = false) :
    ∀ p b, f ≠ Abstraction p b := by
  intro p b e
  subst e
  simp [isAbstraction] at h

/-- A term without references and without redex is a fixed point of the single step,
and is returned unchanged by the driver. -/
theorem normal_reduces (env : Environment) :
    ∀ t : Expression, namedReferenceFree t = true → hasRedex t = false →
      Reduces env t t ∧ Evaluates env t t := by
  intro t
  induction t with
  | Variable name =>
    intro _ _
    exact ⟨reduces_variable env name, evaluates_fixed (reduces_variable env name) rfl⟩
  | NamedReference name => intro h; simp [namedReferenceFree] at h
  | Abstraction p b ih =>
    intro hfree hred
    have hb := ih (by simpa [namedReferenceFree] using hfree) (by simpa [hasRedex] using hred)
    have := reduces_abstraction (p := p) hb.2
    exact ⟨this, evaluates_fixed this rfl⟩
  | Application f a ihf iha =>
    intro hfree hred
    simp only [namedReferenceFree, Bool.and_eq_true] at hfree
    simp only [hasRedex, Bool.or_eq_false_iff] at hred
    have hf := ihf hfree.1 hred.1.2
    have ha := iha hfree.2 hred.2
    have := reduces_application (isAbstraction_false hred.1.1) hf.2 ha.2
    exact ⟨this, evaluates_fixed this rfl⟩

/-- Under a binder: when the body evaluates to a term with a different string, the
abstraction evaluates to the abstraction of that term. -/
theorem evaluates_abstraction {env : Environment} {p : String} {b b' : Expression}
    (h : Evaluates env b b') (hne : b'.toString ≠ b.toString) :
    Evaluates env (Abstraction p b) (Abstraction p b') := by
  refine evaluates_step (reduces_abstraction h) ?_
    (evaluates_fixed (reduces_abstraction (evaluates_idempotent h)) rfl)
  intro e
  apply hne
  rw [toString_eq_iff] at e ⊢
  simpa [Expression.chars] using e

/-! ## Church numerals under the reducer -/

theorem applyTimes_free (k : Nat) (z : Expression) :
    namedReferenceFree (applyTimes k z) = namedReferenceFree z := by
  induction k with
  | zero => rfl
  | succ k ih => simp [applyTimes, namedReferenceFree, ih]

theorem applyTimes_hasRedex (k : Nat) (z : Expression) :
    hasRedex (applyTimes k z) = hasRedex z := by
  induction k with
  | zero => rfl
  | succ k ih => simp [applyTimes, hasRedex, isAbstraction, ih]

theorem applyTimes_boundNames (k : Nat) (z : Expression) :
    boundNames (applyTimes k z) = boundNames z := by
  induction k with
  | zero => rfl
  | succ k ih => simp [applyTimes, boundNames, ih]

theorem applyTimes_length (k : Nat) (z : Expression) :
    (applyTimes k z).chars.length = 4 * k + z.chars.length := by
  induction k with
  | zero => simp [applyTimes]
  | succ k ih =>
    simp only [applyTimes, Expression.chars, List.length_cons, List.length_append, ih]
    have : ("f" : String).data.length = 1 := rfl
    simp only [this, List.length_nil]
    omega

theorem replaceVariable_applyTimes (y : String) (N : Expression) (hy : "f" ≠ y) (k : Nat)
    (z : Expression) :
    replaceVariable y N (applyTimes k z) = applyTimes k (replaceVariable y N z) := by
  induction k with
  | zero => rfl
  | succ k ih => simp [applyTimes, replaceVariable, hy, ih]

theorem churchNumeral_normal (k : Nat) :
    namedReferenceFree (churchNumeral k) = true ∧ hasRedex (churchNumeral k) = false := by
  simp [churchNumeral, namedReferenceFree, hasRedex, applyTimes_free, applyTimes_hasRedex]

theorem freeVars_churchNumeral (env : Environment) (k : Nat) :
    FreeVars env (churchNumeral k) ∅ := by
  have hbody : ∃ s, FreeVars env (applyTimes k (Variable "x")) s ∧ s ⊆ {"f", "x"} := by
    induction k with
    | zero => exact ⟨{"x"}, freeVars_variable.mpr rfl, by simp⟩
    | succ k ih =>
      obtain ⟨s, hs, hsub⟩ := ih
      refine ⟨{"f"} ∪ s, freeVars_application.mpr ⟨_, s, freeVars_variable.mpr rfl, hs, rfl⟩, ?_⟩
      intro v hv
      rcases Finset.mem_union.mp hv with hv | hv
      · simp only [Finset.mem_singleton] at hv
        simp [hv]
      · exact hsub hv
  obtain ⟨s, hs, hsub⟩ := hbody
  have : (s.erase "x").erase "f" = ∅ := by
    ext v
    simp only [Finset.mem_erase, Finset.not_mem_empty, iff_false, not_and]
    intro hvf hvx hv
    have := hsub hv
    simp only [Finset.mem_insert, Finset.mem_singleton] at this
    tauto
  rw [← this]
  exact freeVars_abstraction.mpr ⟨_, freeVars_abstraction.mpr ⟨s, hs, rfl⟩, rfl⟩

/-- The numeral applied to `f` and to a normal term `z`: the reducer returns `f^k z`. -/
theorem numeral_applied (env : Environment) (k : Nat) (z : Expression)
    (hfree : namedReferenceFree z = true) (hred : hasRedex z = false) :
    Evaluates env (Application (Application (churchNumeral k) (Variable "f")) z)
        (applyTimes k z) ∧
      (applyTimes k z).toString ≠
        (Application (Application (churchNumeral k) (Variable "f")) z).toString := by
  have h1 : ("f" : String).data.length = 1 := rfl
  have h2 : ("x" : String).data.length = 1 := rfl
  have hbodyNormal := normal_reduces env (Abstraction "x" (applyTimes k (Variable "x")))
    (by simp [namedReferenceFree, applyTimes_free])
    (by simp [hasRedex, applyTimes_hasRedex])
  -- the numeral applied to `f`
  have hsubF : Substitutes env (Abstraction "x" (applyTimes k (Variable "x"))) "f"
      (Variable "f") (Abstraction "x" (applyTimes k (Variable "x"))) := by
    have := substitutes_plain env "f" (Variable "f") {"f"} (freeVars_variable.mpr rfl)
      (Abstraction "x" (applyTimes k (Variable "x")))
      (by simp [namedReferenceFree, applyTimes_free])
      (by simp [boundNames, applyTimes_boundNames])
    rwa [replaceVariable_self] at this
  have hA : Evaluates env (Application (churchNumeral k) (Variable "f"))
      (Abstraction "x" (applyTimes k (Variable "x"))) := by
    refine evaluates_step (reduces_redex hsubF) ?_ hbodyNormal.2
    apply toString_ne_of_length
    simp only [churchNumeral, Expression.chars, List.length_cons, List.length_append,
      applyTimes_length, h1, h2]
    omega
  -- one step of the whole term
  have hz := normal_reduces env z hfree hred
  have hB : Reduces env (Application (Application (churchNumeral k) (Variable "f")) z)
      (Application (Abstraction "x" (applyTimes k (Variable "x"))) z) :=
    reduces_application (fun p b e => by cases e) hA hz.2
  -- the redex that is left
  obtain ⟨sz, hsz⟩ := freeVars_total env z hfree
  have hsubX : Substitutes env (applyTimes k (Variable "x")) "x" z (applyTimes k z) := by
    have := substitutes_plain env "x" z sz hsz (applyTimes k (Variable "x"))
      (by simp [namedReferenceFree, applyTimes_free])
      (by simp [boundNames, applyTimes_boundNames])
    rwa [replaceVariable_applyTimes "x" z (by decide), show
      replaceVariable "x" z (Variable "x") = z by simp [replaceVariable]] at this
  have hresNormal := normal_reduces env (applyTimes k z)
    (by simp [applyTimes_free, hfree]) (by simp [applyTimes_hasRedex, hred])
  have hC : Evaluates env (Application (Abstraction "x" (applyTimes k (Variable "x"))) z)
      (applyTimes k z) := by
    refine evaluates_step (reduces_redex hsubX) ?_ hresNormal.2
    apply toString_ne_of_length
    simp only [Expression.chars, List.length_cons, List.length_append,
      applyTimes_length, h1, h2]
    omega
  refine ⟨evaluates_step hB ?_ hC, ?_⟩
  · apply toString_ne_of_length
    simp only [churchNumeral, Expression.chars, List.length_cons, List.length_append,
      applyTimes_length, h1, h2]
    omega
  · apply toString_ne_of_length
    simp only [churchNumeral, Expression.chars, List.length_cons, List.length_append,
      applyTimes_length, h1, h2]
    omega

/-- The body `f^m ((N f) x)` left after both arguments have been substituted. -/
theorem applyTimes_numeral_applied (env : Environment) (n : Nat) :
    ∀ m : Nat,
      Evaluates env
          (applyTimes m
            (Application (Application (churchNumeral n) (Variable "f")) (Variable "x")))
          (applyTimes (m + n) (Variable "x")) ∧
        (applyTimes (m + n) (Variable "x")).toString ≠
          (applyTimes m
            (Application (Application (churchNumeral n) (Variable "f"))
              (Variable "x"))).toString := by
  intro m
  induction m with
  | zero =>
    have := numeral_applied env n (Variable "x") rfl rfl
    simpa [applyTimes] using this
  | succ m ih =>
    obtain ⟨hev, hne⟩ := ih
    have hvar := normal_reduces env (Variable "f") rfl rfl
    have hred : Reduces env
        (applyTimes (m + 1)
          (Application (Application (churchNumeral n) (Variable "f")) (Variable "x")))
        (applyTimes (m + 1 + n) (Variable "x")) := by
      have := reduces_application (fun p b e => by cases e) hvar.2 hev
      simpa [applyTimes, Nat.succ_add] using this
    have hne' : (applyTimes (m + 1 + n) (Variable "x")).toString ≠
        (applyTimes (m + 1)
          (Application (Application (churchNumeral n) (Variable "f"))
            (Variable "x"))).toString := by
      intro e
      apply hne
      rw [toString_eq_iff] at e ⊢
      rw [Nat.succ_add] at e
      simpa [applyTimes, Expression.chars] using e
    have hnormal := normal_reduces env (applyTimes (m + 1 + n) (Variable "x"))
      (by simp [applyTimes_free, namedReferenceFree])
      (by simp [applyTimes_hasRedex, hasRedex])
    exact ⟨evaluates_step hred hne' hnormal.2, hne'⟩

theorem abstraction_toString_ne {p : String} {b b' : Expression}
    (h : b'.toString ≠ b.toString) :
    (Abstraction p b').toString ≠ (Abstraction p b).toString := by
  intro e
  apply h
  rw [toString_eq_iff] at e ⊢
  simpa [Expression.chars] using e

theorem evaluates_denotesNumeral {env : Environment} {t : Expression} {k : Nat}
    (h : DenotesNumeral env t k) : Evaluates env t (churchNumeral k) := by
  have hn := normal_reduces env (churchNumeral k) (churchNumeral_normal k).1
    (churchNumeral_normal k).2
  rcases h with rfl | ⟨name, rfl, hid, hl⟩
  · exact hn.2
  · refine evaluates_step (reduces_reference_some hl) ?_ hn.2
    obtain ⟨c, rest, hdata, hc, _⟩ := isIdentifier_head hid
    intro e
    rw [toString_eq_iff] at e
    simp only [churchNumeral, Expression.chars, hdata, List.cons.injEq] at e
    exact hc e.1.symm

/-! ## Substitution returns on terms without references -/

/-- On terms without references `substitute` returns, whatever the environment; the
result has no reference either, and renaming to a variable keeps the size. -/
theorem substitutes_total_aux (env : Environment) :
    ∀ (n : Nat) (M : Expression), M.size ≤ n → namedReferenceFree M = true →
      ∀ (x : String) (N : Expression), namedReferenceFree N = true →
        ∃ r, Substitutes env M x N r ∧ namedReferenceFree r = true ∧
          (∀ v, N = Variable v → r.size = M.size) := by
  intro n
  induction n with
  | zero =>
    intro M hsize
    cases M <;> simp [Expression.size] at hsize
  | succ n ih =>
    intro M hsize hfree x N hN
    cases M with
    | Variable name =>
      by_cases h : name = x
      · subst h
        refine ⟨N, substitutes_variable_eq env name N, hN, ?_⟩
        rintro v rfl
        rfl
      · exact ⟨Variable name, substitutes_variable_ne env N h, rfl, fun _ _ => rfl⟩
    | NamedReference name => simp [namedReferenceFree] at hfree
    | Application f a =>
      simp only [namedReferenceFree, Bool.and_eq_true] at hfree
      simp only [Expression.size] at hsize
      obtain ⟨rf, hrf, hff, hsf⟩ := ih f (by omega) hfree.1 x N hN
      obtain ⟨ra, hra, hfa, hsa⟩ := ih a (by omega) hfree.2 x N hN
      refine ⟨Application rf ra, substitutes_application hrf hra, ?_, ?_⟩
      · simp [namedReferenceFree, hff, hfa]
      · intro v hv
        simp [Expression.size, hsf v hv, hsa v hv]
    | Abstraction p b =>
      simp only [namedReferenceFree] at hfree
      simp only [Expression.size] at hsize
      by_cases h : p = x
      · subst h
        exact ⟨Abstraction p b, substitutes_shadow env p b N, by simpa [namedReferenceFree],
          fun _ _ => rfl⟩
      · obtain ⟨sn, hsn⟩ := freeVars_total env N hN
        by_cases hmem : p ∈ sn
        · obtain ⟨sm, hsm⟩ := freeVars_total env (Abstraction p b)
            (by simpa [namedReferenceFree])
          obtain ⟨rb, hrb, hfrb, hsrb⟩ := ih b (by omega) hfree p
            (Variable (generateFreshVariable (sm ∪ sn) p)) rfl
          have hsize_rb : rb.size = b.size := hsrb _ rfl
          obtain ⟨nb, hnb, hfnb, hsnb⟩ := ih rb (by omega) hfrb x N hN
          refine ⟨_, substitutes_rename h hsn hmem hsm hrb hnb, by simpa [namedReferenceFree],
            ?_⟩
          intro v hv
          simp [Expression.size, hsnb v hv, hsize_rb]
        · obtain ⟨nb, hnb, hfnb, hsnb⟩ := ih b (by omega) hfree x N hN
          refine ⟨_, substitutes_abstraction h hsn hmem hnb, by simpa [namedReferenceFree], ?_⟩
          intro v hv
          simp [Expression.size, hsnb v hv]

theorem substitutes_total (env : Environment) (M : Expression) (x : String) (N : Expression)
    (hM : namedReferenceFree M = true) (hN : namedReferenceFree N = true) :
    ∃ r, Substitutes env M x N r := by
  obtain ⟨r, hr, _⟩ := substitutes_total_aux env M.size M (Nat.le_refl _) hM x N hN
  exact ⟨r, hr⟩

/-! ## The reducer on two particular terms -/

theorem selfApplication3_reduces (env : Environment) :
    Reduces env (Application selfApplication3 selfApplication3)
      (Application (Application selfApplication3 selfApplication3) selfApplication3) :=
  ⟨4, rfl⟩

/-- The driver never returns on `(λx.((x x) x)) (λx.((x x) x))`. -/
theorem selfApplication3_diverges (env : Environment) :
    ∀ fuel, evaluateNormalOrder env fuel (Application selfApplication3 selfApplication3) =
      none := by
  intro fuel
  induction fuel using Nat.strong_induction_on with
  | _ fuel ih =>
    cases fuel with
    | zero => rfl
    | succ f =>
      rw [evaluateNormalOrder]
      have hstep : ∀ r, betaReduce env f (Application selfApplication3 selfApplication3) =
          some r →
          r = Application (Application selfApplication3 selfApplication3) selfApplication3 :=
        fun r hr => reduces_unique ⟨f, hr⟩ (selfApplication3_reduces env)
      have hnf : isNormalForm env f (Application selfApplication3 selfApplication3) ≠
          some true := by
        cases f with
        | zero => simp [isNormalForm]
        | succ g =>
          rw [isNormalForm]
          cases hb : betaReduce env g (Application selfApplication3 selfApplication3) with
          | none => simp
          | some r =>
            have := reduces_unique ⟨g, hb⟩ (selfApplication3_reduces env)
            subst this
            simp only [ne_eq, Option.some.injEq, decide_eq_true_eq]
            decide
      cases hn : isNormalForm env f (Application selfApplication3 selfApplication3) with
      | none => rfl
      | some b =>
        cases b with
        | true => exact absurd hn hnf
        | false =>
          simp only
          cases hb : betaReduce env f (Application selfApplication3 selfApplication3) with
          | none => rfl
          | some r =>
            have := hstep r hb
            subst this
            simp only
            -- the reduct is an application whose function is the term itself
            cases f with
            | zero => rfl
            | succ g =>
              rw [evaluateNormalOrder]
              cases g with
              | zero => rfl
              | succ h =>
                rw [isNormalForm]
                cases h with
                | zero => rfl
                | succ j =>
                  have hj := ih j (by omega)
                  have : betaReduce env (j + 1)
                      (Application (Application selfApplication3 selfApplication3)
                        selfApplication3) = none := by
                    simp only [betaReduce, hj]
                  simp only [this]

theorem discardsDivergent_diverges (env : Environment) :
    ∀ fuel, evaluateNormalOrder env fuel discardsDivergent = none := by
  have hred : ∀ fuel, betaReduce env fuel discardsDivergent = none := by
    intro fuel
    cases fuel with
    | zero => rfl
    | succ f =>
      simp only [discardsDivergent, betaReduce, selfApplication3_diverges env f]
      cases evaluateNormalOrder env f
        (Application (Abstraction "a" (Variable "a"))
          (Abstraction "x" (Abstraction "y" (Variable "y")))) <;> rfl
  intro fuel
  cases fuel with
  | zero => rfl
  | succ f =>
    rw [evaluateNormalOrder]
    cases f with
    | zero => rfl
    | succ g =>
      rw [isNormalForm, hred g]

/-! ## Successor, addition and identity -/

theorem evaluates_identity_applied {env : Environment} {t r : Expression}
    (h : Evaluates env t r) : Evaluates env (Application identityDefinition t) r := by
  refine evaluates_step (reduces_redex (substitutes_variable_eq env "x" t)) ?_ h
  apply toString_ne_of_length
  simp only [identityDefinition, Expression.chars, List.length_cons, List.length_append]
  omega

theorem reference_application_toString_ne {name : String} (hid : isIdentifier name = true)
    (p : String) (b a a' : Expression) :
    (Application (Abstraction p b) a').toString ≠
      (Application (NamedReference name) a).toString := by
  obtain ⟨c, rest, hdata, hc, _⟩ := isIdentifier_head hid
  intro e
  rw [toString_eq_iff] at e
  simp only [Expression.chars, hdata, List.cons_append, List.cons.injEq, true_and] at e
  exact hc e.1.symm

theorem evaluates_reference {env : Environment} {name : String} {d : Expression}
    (hid : isIdentifier name = true) (hl : env.lookup name = some d) (p : String)
    (b : Expression) (hd : d = Abstraction p b) (hfree : namedReferenceFree d = true)
    (hred : hasRedex d = false) : Evaluates env (NamedReference name) d := by
  refine evaluates_step (reduces_reference_some hl) ?_ (normal_reduces env d hfree hred).2
  obtain ⟨c, rest, hdata, hc, _⟩ := isIdentifier_head hid
  intro e
  rw [toString_eq_iff] at e
  subst hd
  simp only [Expression.chars, hdata, List.cons.injEq] at e
  exact hc e.1.symm

theorem evaluates_succ {env : Environment} {N : Expression} {n : Nat}
    (hsucc : env.lookup "succ" = some succDefinition) (hN : DenotesNumeral env N n) :
    Evaluates env (Application (NamedReference "succ") N) (churchNumeral (n + 1)) := by
  have hS : Evaluates env (NamedReference "succ") succDefinition :=
    evaluates_reference (by decide) hsucc _ _ rfl (by decide) (by decide)
  have h1 : Reduces env (Application (NamedReference "succ") N)
      (Application succDefinition (churchNumeral n)) :=
    reduces_application (fun p b e => by cases e) hS (evaluates_denotesNumeral hN)
  have hsub : Substitutes env
      (Abstraction "f" (Abstraction "x" (Application (Variable "f")
        (Application (Application (Variable "n") (Variable "f")) (Variable "x")))))
      "n" (churchNumeral n)
      (Abstraction "f" (Abstraction "x" (applyTimes 1
        (Application (Application (churchNumeral n) (Variable "f")) (Variable "x"))))) := by
    have := substitutes_plain env "n" (churchNumeral n) ∅ (freeVars_churchNumeral env n)
      (Abstraction "f" (Abstraction "x" (Application (Variable "f")
        (Application (Application (Variable "n") (Variable "f")) (Variable "x")))))
      (by decide) (by simp)
    simpa [replaceVariable, applyTimes] using this
  obtain ⟨hbody, hne⟩ := applyTimes_numeral_applied env n 1
  have h3 : Evaluates env
      (Abstraction "f" (Abstraction "x" (applyTimes 1
        (Application (Application (churchNumeral n) (Variable "f")) (Variable "x")))))
      (churchNumeral (n + 1)) := by
    have := evaluates_abstraction (p := "f") (evaluates_abstraction (p := "x") hbody hne)
      (abstraction_toString_ne hne)
    rwa [Nat.add_comm 1 n] at this
  refine evaluates_step h1 (reference_application_toString_ne (by decide) _ _ _ _) ?_
  refine evaluates_step (reduces_redex hsub) ?_ h3
  intro e
  rw [toString_eq_iff] at e
  simp [succDefinition, Expression.chars] at e

theorem evaluates_plus {env : Environment} {M N : Expression} {m n : Nat}
    (hplus : env.lookup "plus" = some plusDefinition) (hM : DenotesNumeral env M m)
    (hN : DenotesNumeral env N n) :
    Evaluates env (Application (Application (NamedReference "plus") M) N)
      (churchNumeral (m + n)) := by
  have hP : Evaluates env (NamedReference "plus") plusDefinition :=
    evaluates_reference (by decide) hplus _ _ rfl (by decide) (by decide)
  -- `plus M`
  have h1 : Reduces env (Application (NamedReference "plus") M)
      (Application plusDefinition (churchNumeral m)) :=
    reduces_application (fun p b e => by cases e) hP (evaluates_denotesNumeral hM)
  have hsub1 : Substitutes env
      (Abstraction "n" (Abstraction "f" (Abstraction "x"
        (Application (Application (Variable "m") (Variable "f"))
          (Application (Application (Variable "n") (Variable "f")) (Variable "x"))))))
      "m" (churchNumeral m)
      (Abstraction "n" (Abstraction "f" (Abstraction "x"
        (Application (Application (churchNumeral m) (Variable "f"))
          (Application (Application (Variable "n") (Variable "f")) (Variable "x")))))) := by
    have := substitutes_plain env "m" (churchNumeral m) ∅ (freeVars_churchNumeral env m)
      (Abstraction "n" (Abstraction "f" (Abstraction "x"
        (Application (Application (Variable "m") (Variable "f"))
          (Application (Application (Variable "n") (Variable "f")) (Variable "x"))))))
      (by decide) (by simp)
    simpa [replaceVariable] using this
  obtain ⟨hbody1, hne1⟩ := numeral_applied env m
    (Application (Application (Variable "n") (Variable "f")) (Variable "x"))
    (by decide) (by decide)
  have h2 : Evaluates env
      (Abstraction "n" (Abstraction "f" (Abstraction "x"
        (Application (Application (churchNumeral m) (Variable "f"))
          (Application (Application (Variable "n") (Variable "f")) (Variable "x"))))))
      (Abstraction "n" (Abstraction "f" (Abstraction "x" (applyTimes m
        (Application (Application (Variable "n") (Variable "f")) (Variable "x")))))) :=
    evaluates_abstraction
      (evaluates_abstraction (evaluates_abstraction hbody1 hne1) (abstraction_toString_ne hne1))
      (abstraction_toString_ne (abstraction_toString_ne hne1))
  have hPM : Evaluates env (Application (NamedReference "plus") M)
      (Abstraction "n" (Abstraction "f" (Abstraction "x" (applyTimes m
        (Application (Application (Variable "n") (Variable "f")) (Variable "x")))))) := by
    refine evaluates_step h1 (reference_application_toString_ne (by decide) _ _ _ _) ?_
    refine evaluates_step (reduces_redex hsub1) ?_ h2
    intro e
    rw [toString_eq_iff] at e
    simp [plusDefinition, Expression.chars] at e
  -- `(plus M) N`
  have h3 : Reduces env (Application (Application (NamedReference "plus") M) N)
      (Application
        (Abstraction "n" (Abstraction "f" (Abstraction "x" (applyTimes m
          (Application (Application (Variable "n") (Variable "f")) (Variable "x"))))))
        (churchNumeral n)) :=
    reduces_application (fun p b e => by cases e) hPM (evaluates_denotesNumeral hN)
  have hsub2 : Substitutes env
      (Abstraction "f" (Abstraction "x" (applyTimes m
        (Application (Application (Variable "n") (Variable "f")) (Variable "x")))))
      "n" (churchNumeral n)
      (Abstraction "f" (Abstraction "x" (applyTimes m
        (Application (Application (churchNumeral n) (Variable "f")) (Variable "x"))))) := by
    have := substitutes_plain env "n" (churchNumeral n) ∅ (freeVars_churchNumeral env n)
      (Abstraction "f" (Abstraction "x" (applyTimes m
        (Application (Application (Variable "n") (Variable "f")) (Variable "x")))))
      (by simp [namedReferenceFree, applyTimes_free]) (by simp)
    simpa [replaceVariable, replaceVariable_applyTimes] using this
  obtain ⟨hbody2, hne2⟩ := applyTimes_numeral_applied env n m
  have h4 : Evaluates env
      (Abstraction "f" (Abstraction "x" (applyTimes m
        (Application (Application (churchNumeral n) (Variable "f")) (Variable "x")))))
      (churchNumeral (m + n)) :=
    evaluates_abstraction (evaluates_abstraction hbody2 hne2) (abstraction_toString_ne hne2)
  refine evaluates_step h3 ?_ (evaluates_step (reduces_redex hsub2) ?_ h4)
  · intro e
    rw [toString_eq_iff] at e
    simp [Expression.chars] at e
  · intro e
    rw [toString_eq_iff] at e
    simp [Expression.chars] at e

/-! ## The environment as a finite map -/

theorem lookupIn_defineIn_same (defs : List (String × Expression)) (name : String)
    (expr : Expression) : lookupIn (defineIn defs name expr) name = some expr := by
  induction defs with
  | nil => simp [defineIn, lookupIn]
  | cons entry rest ih =>
    obtain ⟨key, value⟩ := entry
    by_cases h : key = name
    · simp [defineIn, lookupIn, h]
    · simp [defineIn, lookupIn, h, ih]

theorem lookupIn_defineIn_other (defs : List (String × Expression)) {name other : String}
    (expr : Expression) (h : other ≠ name) :
    lookupIn (defineIn defs name expr) other = lookupIn defs other := by
  induction defs with
  | nil =>
    have : ¬ name = other := fun e => h e.symm
    simp [defineIn, lookupIn, this]
  | cons entry rest ih =>
    obtain ⟨key, value⟩ := entry
    by_cases hk : key = name
    · have : ¬ name = other := fun e => h e.symm
      simp [defineIn, lookupIn, hk, this]
    · by_cases ho : key = other
      · subst ho
        simp [defineIn, lookupIn, h]
      · simp [defineIn, lookupIn, hk, ho, ih]

/-- Each key occurs once in the list, as in a `std::map`. -/
theorem defineIn_keys_nodup (defs : List (String × Expression)) (name : String)
    (expr : Expression) (h : (defs.map Prod.fst).Nodup) :
    ((defineIn defs name expr).map Prod.fst).Nodup := by
  induction defs with
  | nil => simp [defineIn]
  | cons entry rest ih =>
    obtain ⟨key, value⟩ := entry
    simp only [List.map_cons, List.nodup_cons] at h
    by_cases hk : key = name
    · simpa [defineIn, hk] using h
    · simp only [defineIn, hk, if_false, List.map_cons, List.nodup_cons]
      refine ⟨?_, ih h.2⟩
      intro hmem
      apply h.1
      clear ih h
      induction rest with
      | nil => simp [defineIn] at hmem; exact absurd hmem hk
      | cons e2 rest2 ih2 =>
        obtain ⟨k2, v2⟩ := e2
        by_cases h2 : k2 = name
        · simpa [defineIn, h2] using hmem
        · simp only [defineIn, h2, if_false, List.map_cons, List.mem_cons] at hmem ⊢
          rcases hmem with hmem | hmem
          · exact Or.inl hmem
          · exact Or.inr (ih2 hmem)

/-! ## The name returned by the fresh-name loop -/

/-- The loop stops at the first candidate outside the avoidance set. -/
theorem generateFreshVariableLoop_first (usedVars : Finset String) (base : String) :
    ∀ (budget suffix : Nat) (freshVar : String),
      generateFreshVariableLoop usedVars base budget suffix freshVar ∉ usedVars →
      (freshVar ∉ usedVars ∧
        generateFreshVariableLoop usedVars base budget suffix freshVar = freshVar) ∨
      (freshVar ∈ usedVars ∧ ∃ k, suffix < k ∧ k ≤ suffix + budget ∧
        generateFreshVariableLoop usedVars base budget suffix freshVar =
          base ++ Nat.repr k ∧
        ∀ j, suffix < j → j < k → base ++ Nat.repr j ∈ usedVars) := by
  intro budget
  induction budget with
  | zero =>
    intro suffix freshVar h
    exact Or.inl ⟨h, rfl⟩
  | succ b ih =>
    intro suffix freshVar h
    by_cases hm : freshVar ∈ usedVars
    · right
      refine ⟨hm, ?_⟩
      have hstep : generateFreshVariableLoop usedVars base (b + 1) suffix freshVar =
          generateFreshVariableLoop usedVars base b (suffix + 1)
            (base ++ Nat.repr (suffix + 1)) := by
        simp [generateFreshVariableLoop, hm]
      rw [hstep] at h ⊢
      rcases ih (suffix + 1) _ h with ⟨hnot, heq⟩ | ⟨hin, k, hk1, hk2, heq, hall⟩
      · refine ⟨suffix + 1, by omega, by omega, heq, ?_⟩
        intro j h1 h2
        omega
      · refine ⟨k, by omega, by omega, heq, ?_⟩
        intro j h1 h2
        by_cases hj : j = suffix + 1
        · rw [hj]; exact hin
        · exact hall j (by omega) h2
    · left
      exact ⟨hm, by simp [generateFreshVariableLoop, hm]⟩

theorem digitChar_isDigit (k : Nat) (hk : k < 10) :
    ('0' ≤ Nat.digitChar k ∧ Nat.digitChar k ≤ '9') ∧ (k ≠ 0 → Nat.digitChar k ≠ '0') := by
  interval_cases k <;> decide

/-- The digits `toDigitsCore` puts in front of `ds` are decimal digits, the first of
them not `0` when the number is positive. -/
theorem toDigitsCore_shape :
    ∀ (fuel n : Nat) (ds : List Char), n < fuel →
      ∃ front, Nat.toDigitsCore 10 fuel n ds = front ++ ds ∧
        (∀ c ∈ front, '0' ≤ c ∧ c ≤ '9') ∧
        (0 < n → ∃ c rest, front = c :: rest ∧ c ≠ '0') := by
  intro fuel
  induction fuel with
  | zero => intro n ds h; omega
  | succ k ih =>
    intro n ds h
    simp only [Nat.toDigitsCore]
    have hd := digitChar_isDigit (n % 10) (Nat.mod_lt _ (by decide))
    by_cases h0 : n / 10 = 0
    · simp only [h0, if_true]
      refine ⟨[Nat.digitChar (n % 10)], rfl, ?_, ?_⟩
      · intro c hc
        rw [List.mem_singleton] at hc
        rw [hc]; exact hd.1
      · intro hpos
        refine ⟨_, [], rfl, hd.2 ?_⟩
        have : n % 10 = n := Nat.mod_eq_of_lt (by omega)
        omega
    · simp only [h0, if_false]
      obtain ⟨front, hfront, hdig, hhead⟩ :=
        ih (n / 10) (Nat.digitChar (n % 10) :: ds) (by omega)
      refine ⟨front ++ [Nat.digitChar (n % 10)], by simp [hfront], ?_, ?_⟩
      · intro c hc
        rcases List.mem_append.mp hc with hc | hc
        · exact hdig c hc
        · rw [List.mem_singleton] at hc
          rw [hc]; exact hd.1
      · intro _
        obtain ⟨c, rest, hf, hc⟩ := hhead (Nat.pos_of_ne_zero h0)
        exact ⟨c, rest ++ [Nat.digitChar (n % 10)], by simp [hf], hc⟩

/-- The string `Nat.repr k` is the decimal numeral of `k`: decimal digits only, value
`k`, and no leading zero when `k` is positive. -/
theorem repr_decimal (k : Nat) :
    (∀ c ∈ (Nat.repr k).data, '0' ≤ c ∧ c ≤ '9') ∧
      decimalValue 0 (Nat.repr k).data = k ∧
      (0 < k → ∃ c rest, (Nat.repr k).data = c :: rest ∧ c ≠ '0') := by
  have hdata : (Nat.repr k).data = Nat.toDigitsCore 10 (k + 1) k [] := rfl
  obtain ⟨front, hfront, hdig, hhead⟩ := toDigitsCore_shape (k + 1) k [] (Nat.lt_succ_self k)
  rw [List.append_nil] at hfront
  rw [hdata, hfront]
  refine ⟨hdig, ?_, hhead⟩
  rw [← hfront]
  simpa [decimalValue] using decimalValue_toDigitsCore (k + 1) k [] (Nat.lt_succ_self k)

/-! ## What the parser returns -/

theorem parseIdentifierLoop_all (input : List Char) :
    ∀ c ∈ (parseIdentifierLoop input).1, isAlphaNumeric c = true := by
  induction input with
  | nil => simp [parseIdentifierLoop]
  | cons d rest ih =>
    by_cases h : isAlphaNumeric d = true
    · simp only [parseIdentifierLoop, h, if_true, List.mem_cons]
      rintro c (rfl | hc)
      · exact h
      · exact ih c hc
    · simp [parseIdentifierLoop, h]

theorem parseIdentifier_isIdentifier {input : List Char} {name : String} {rest : List Char}
    (h : parseIdentifier input = some (name, rest)) : isIdentifier name = true := by
  cases input with
  | nil => simp [parseIdentifier] at h
  | cons c tail =>
    by_cases hc : isAlpha c = true
    · simp only [parseIdentifier, hc, if_true, Option.some.injEq, Prod.mk.injEq] at h
      rw [← h.1]
      simp only [isIdentifier, hc, Bool.true_and, List.all_eq_true]
      exact parseIdentifierLoop_all tail
    · simp [parseIdentifier, hc] at h

/-- Every property that holds of the terms `parseVariable` builds, and is kept by
`Abstraction` over an identifier and by `Application`, holds of every parsed term. -/
theorem parser_invariant (lit : LambdaLiteral) (env : Environment) (P : Expression → Prop)
    (hV : ∀ n, isIdentifier n = true → env.isDefined n = false → P (Variable n))
    (hR : ∀ n, isIdentifier n = true → env.isDefined n = true → P (NamedReference n))
    (hA : ∀ p b, isIdentifier p = true → P b → P (Abstraction p b))
    (hApp : ∀ f a, P f → P a → P (Application f a)) :
    ∀ fuel : Nat,
      (∀ input e rest, parseExpression lit env fuel input = Outcome.ok (e, rest) → P e) ∧
      (∀ input e rest, parseApplication lit env fuel input = Outcome.ok (e, rest) → P e) ∧
      (∀ e0 input e rest, P e0 →
        parseApplicationLoop lit env fuel e0 input = Outcome.ok (e, rest) → P e) ∧
      (∀ input e rest, parsePrimary lit env fuel input = Outcome.ok (e, rest) → P e) ∧
      (∀ input e rest, parseAbstraction lit env fuel input = Outcome.ok (e, rest) → P e) ∧
      (∀ input e rest, parseParenthesized lit env fuel input = Outcome.ok (e, rest) → P e) := by
  intro fuel
  induction fuel with
  | zero =>
    refine ⟨?_, ?_, ?_, ?_, ?_, ?_⟩
    · intro input e rest h; simp [parseExpression] at h
    · intro input e rest h; simp [parseApplication] at h
    · intro e0 input e rest _ h; simp [parseApplicationLoop] at h
    · intro input e rest h; simp [parsePrimary] at h
    · intro input e rest h; simp [parseAbstraction] at h
    · intro input e rest h; simp [parseParenthesized] at h
  | succ k ih =>
    obtain ⟨ihE, ihA, ihL, ihP, ihAbs, ihPar⟩ := ih
    refine ⟨?_, ?_, ?_, ?_, ?_, ?_⟩
    · intro input e rest h
      rw [parseExpression] at h
      exact ihA _ _ _ h
    · intro input e rest h
      rw [parseApplication] at h
      cases hp : parsePrimary lit env k input with
      | ok v =>
        obtain ⟨e1, r1⟩ := v
        rw [hp] at h
        exact ihL _ _ _ _ (ihP _ _ _ hp) h
      | parserError => rw [hp] at h; simp at h
      | outOfFuel => rw [hp] at h; simp at h
    · intro e0 input e rest he0 h
      rw [parseApplicationLoop] at h
      cases hs : skipWhitespace input with
      | nil =>
        rw [hs] at h
        simp only [Outcome.ok.injEq, Prod.mk.injEq] at h
        rw [← h.1]; exact he0
      | cons c tail =>
        rw [hs] at h
        simp only at h
        split at h
        · cases hp : parsePrimary lit env k (c :: tail) with
          | ok v =>
            obtain ⟨e1, r1⟩ := v
            rw [hp] at h
            exact ihL _ _ _ _ (hApp _ _ he0 (ihP _ _ _ hp)) h
          | parserError => rw [hp] at h; simp at h
          | outOfFuel => rw [hp] at h; simp at h
        · simp only [Outcome.ok.injEq, Prod.mk.injEq] at h
          rw [← h.1]; exact he0
    · intro input e rest h
      rw [parsePrimary] at h
      cases hs : skipWhitespace input with
      | nil => rw [hs] at h; simp at h
      | cons c tail =>
        rw [hs] at h
        simp only at h
        split at h
        · -- parseVariable
          unfold parseVariable at h
          cases hid : parseIdentifier (c :: tail) with
          | none => rw [hid] at h; simp at h
          | some v =>
            obtain ⟨name, r⟩ := v
            rw [hid] at h
            have hname := parseIdentifier_isIdentifier hid
            by_cases hd : env.isDefined name = true
            · simp only [hd, if_true, Outcome.ok.injEq, Prod.mk.injEq] at h
              rw [← h.1]; exact hR name hname hd
            · have hd' : env.isDefined name = false := by simpa using hd
              simp only [hd', Bool.false_eq_true, if_false, Outcome.ok.injEq,
                Prod.mk.injEq] at h
              rw [← h.1]; exact hV name hname hd'
        · split at h
          · exact ihPar _ _ _ h
          · split at h
            · exact ihAbs _ _ _ h
            · simp at h
    · intro input e rest h
      rw [parseAbstraction] at h
      cases hid : parseIdentifier (skipWhitespace input) with
      | none => rw [hid] at h; simp at h
      | some v =>
        obtain ⟨p, r⟩ := v
        rw [hid] at h
        simp only at h
        split at h
        · rename_i rest' hdot
          cases hb : parseExpression lit env k (skipWhitespace rest') with
          | ok w =>
            obtain ⟨b, r2⟩ := w
            rw [hb] at h
            simp only [Outcome.ok.injEq, Prod.mk.injEq] at h
            rw [← h.1]
            exact hA p b (parseIdentifier_isIdentifier hid) (ihE _ _ _ hb)
          | parserError => rw [hb] at h; simp at h
          | outOfFuel => rw [hb] at h; simp at h
        · simp at h
    · intro input e rest h
      rw [parseParenthesized] at h
      cases hb : parseExpression lit env k input with
      | ok w =>
        obtain ⟨b, r2⟩ := w
        rw [hb] at h
        simp only at h
        split at h
        · simp only [Outcome.ok.injEq, Prod.mk.injEq] at h
          rw [← h.1]
          exact ihE _ _ _ hb
        · simp at h
      | parserError => rw [hb] at h; simp at h
      | outOfFuel => rw [hb] at h; simp at h

theorem parse_invariant (lit : LambdaLiteral) (env : Environment) (P : Expression → Prop)
    (hV : ∀ n, isIdentifier n = true → env.isDefined n = false → P (Variable n))
    (hR : ∀ n, isIdentifier n = true → env.isDefined n = true → P (NamedReference n))
    (hA : ∀ p b, isIdentifier p = true → P b → P (Abstraction p b))
    (hApp : ∀ f a, P f → P a → P (Application f a))
    {fuel : Nat} {input : String} {e : Expression}
    (h : parse lit env fuel input = Outcome.ok e) : P e := by
  unfold parse at h
  cases hb : parseExpression lit env fuel (skipWhitespace input.data) with
  | ok w =>
    obtain ⟨b, r⟩ := w
    rw [hb] at h
    simp only at h
    split at h
    · simp only [Outcome.ok.injEq] at h
      rw [← h]
      exact (parser_invariant lit env P hV hR hA hApp fuel).1 _ _ _ hb
    · simp at h
  | parserError => rw [hb] at h; simp at h
  | outOfFuel => rw [hb] at h; simp at h

/-! ## Terms without references stay without references -/

theorem substitute_referenceFree {env : Environment} {fuel : Nat} {M : Expression}
    {x : String} {N r : Expression} (h : substitute env fuel M x N = some r)
    (hM : namedReferenceFree M = true) (hN : namedReferenceFree N = true) :
    namedReferenceFree r = true := by
  obtain ⟨r', hr', hfree, _⟩ := substitutes_total_aux env M.size M (Nat.le_refl _) hM x N hN
  rw [substitutes_unique ⟨fuel, h⟩ hr']
  exact hfree

theorem reducer_referenceFree (env : Environment) :
    ∀ fuel : Nat,
      (∀ t r, betaReduce env fuel t = some r → namedReferenceFree t = true →
        namedReferenceFree r = true) ∧
      (∀ t r, evaluateNormalOrder env fuel t = some r → namedReferenceFree t = true →
        namedReferenceFree r = true) := by
  intro fuel
  induction fuel with
  | zero =>
    constructor
    · intro t r h; simp [betaReduce] at h
    · intro t r h; simp [evaluateNormalOrder] at h
  | succ k ih =>
    obtain ⟨ihB, ihE⟩ := ih
    constructor
    · intro t r h hfree
      cases t with
      | Variable name =>
        simp only [betaReduce, Option.some.injEq] at h
        rw [← h]; rfl
      | NamedReference name => simp [namedReferenceFree] at hfree
      | Abstraction p b =>
        simp only [betaReduce] at h
        cases hb : evaluateNormalOrder env k b with
        | none => simp [hb] at h
        | some eb =>
          simp only [hb, Option.some.injEq] at h
          rw [← h]
          simpa [namedReferenceFree] using ihE b eb hb (by simpa [namedReferenceFree] using hfree)
      | Application f a =>
        simp only [namedReferenceFree, Bool.and_eq_true] at hfree
        cases f with
        | Abstraction p b =>
          simp only [betaReduce] at h
          exact substitute_referenceFree h (by simpa [namedReferenceFree] using hfree.1) hfree.2
        | Variable name =>
          simp only [betaReduce] at h
          cases hf : evaluateNormalOrder env k (Variable name) with
          | none => simp [hf] at h
          | some ef =>
            cases ha : evaluateNormalOrder env k a with
            | none => simp [hf, ha] at h
            | some ea =>
              simp only [hf, ha, Option.some.injEq] at h
              rw [← h]
              simp [namedReferenceFree, ihE _ _ hf hfree.1, ihE _ _ ha hfree.2]
        | NamedReference name => simp [namedReferenceFree] at hfree
        | Application f1 f2 =>
          simp only [betaReduce] at h
          cases hf : evaluateNormalOrder env k (Application f1 f2) with
          | none => simp [hf] at h
          | some ef =>
            cases ha : evaluateNormalOrder env k a with
            | none => simp [hf, ha] at h
            | some ea =>
              simp only [hf, ha, Option.some.injEq] at h
              rw [← h]
              simp [namedReferenceFree, ihE _ _ hf hfree.1, ihE _ _ ha hfree.2]
    · intro t r h hfree
      simp only [evaluateNormalOrder] at h
      cases hn : isNormalForm env k t with
      | none => simp [hn] at h
      | some b =>
        cases b with
        | true =>
          simp only [hn, Option.some.injEq] at h
          rw [← h]; exact hfree
        | false =>
          simp only [hn] at h
          cases hb : betaReduce env k t with
          | none => simp [hb] at h
          | some rb =>
            simp only [hb] at h
            exact ihE rb r h (ihB t rb hb hfree)

theorem shadowCaptured_referenceFree (binders : List String) (t : Expression)
    (h : namedReferenceFree t = true) : shadowCaptured binders t = false := by
  induction t generalizing binders with
  | Variable name => rfl
  | NamedReference name => simp [namedReferenceFree] at h
  | Abstraction p b ih => simpa [shadowCaptured] using ih _ (by simpa [namedReferenceFree] using h)
  | Application f a ihf iha =>
    simp only [namedReferenceFree, Bool.and_eq_true] at h
    simp [shadowCaptured, ihf _ h.1, iha _ h.2]

theorem shadowCaptured_resolved (env : Environment) (t : Expression) :
    ∀ binders : List String, namesResolved env t = true →
      (∀ p ∈ binders, env.isDefined p = false) →
      (∀ p ∈ boundNames t, env.isDefined p = false) → shadowCaptured binders t = false := by
  induction t with
  | Variable name => intro _ _ _ _; rfl
  | NamedReference name =>
    intro binders hres hb _
    simp only [namesResolved] at hres
    simp only [shadowCaptured, decide_eq_false_iff_not]
    intro hmem
    have := hb name hmem
    rw [hres] at this
    exact absurd this (by decide)
  | Abstraction p b ih =>
    intro binders hres hb hp
    simp only [shadowCaptured]
    apply ih _ (by simpa [namesResolved] using hres)
    · intro q hq
      rcases List.mem_cons.mp hq with rfl | hq
      · exact hp q (by simp [boundNames])
      · exact hb q hq
    · intro q hq
      exact hp q (by simp [boundNames, hq])
  | Application f a ihf iha =>
    intro binders hres hb hp
    simp only [namesResolved, Bool.and_eq_true] at hres
    simp only [shadowCaptured, Bool.or_eq_false_iff]
    exact ⟨ihf _ hres.1 hb (fun q hq => hp q (by simp [boundNames, hq])),
      iha _ hres.2 hb (fun q hq => hp q (by simp [boundNames, hq]))⟩

theorem parse_namesResolved {lit : LambdaLiteral} {env : Environment} {fuel : Nat}
    {input : String} {t : Expression} (h : parse lit env fuel input = Outcome.ok t) :
    namesResolved env t = true := by
  refine parse_invariant lit env (fun e => namesResolved env e = true) ?_ ?_ ?_ ?_ h
  · intro n _ hd; simp [namesResolved, hd]
  · intro n _ hd; simp [namesResolved, hd]
  · intro p b _ hb; simpa [namesResolved] using hb
  · intro f a hf ha; simp [namesResolved, hf, ha]

theorem isIdentifier_underscore {name : String} (h : isIdentifier name = true) :
    matchesUnderscoreIdentifier name = true := by
  unfold isIdentifier at h
  unfold matchesUnderscoreIdentifier
  cases hd : name.data with
  | nil => simp [hd] at h
  | cons c rest =>
    simp only [hd, Bool.and_eq_true, List.all_eq_true] at h ⊢
    refine ⟨by simpa [isAlpha, isLetter] using h.1, ?_⟩
    intro d hdm
    have := h.2 d hdm
    simp only [isAlphaNumeric, isAlpha, isLetter, isDecimalDigit, Bool.or_eq_true,
      Bool.and_eq_true] at this ⊢
    tauto

/-! ## The parser on identifiers separated by whitespace -/

theorem isSpace_not_alphaNumeric {c : Char} (h : isSpace c = true) :
    isAlphaNumeric c = false := by
  simp only [isSpace, Bool.or_eq_true, beq_iff_eq] at h
  rcases h with ((((h | h) | h) | h) | h) | h <;> subst h <;> decide

theorem isAlpha_alphaNumeric {c : Char} (h : isAlpha c = true) : isAlphaNumeric c = true := by
  simp [isAlphaNumeric, h]

theorem isAlpha_not_space {c : Char} (h : isAlpha c = true) : isSpace c = false := by
  cases hs : isSpace c with
  | false => rfl
  | true =>
    have := isSpace_not_alphaNumeric hs
    rw [isAlpha_alphaNumeric h] at this
    exact absurd this (by decide)

theorem parseIdentifierLoop_append (cs tail : List Char)
    (hcs : ∀ c ∈ cs, isAlphaNumeric c = true) (htail : EndsIdentifier tail) :
    parseIdentifierLoop (cs ++ tail) = (cs, tail) := by
  induction cs with
  | nil =>
    cases tail with
    | nil => rfl
    | cons c rest => simp [parseIdentifierLoop, htail c rest rfl]
  | cons d ds ih =>
    have hd := hcs d (by simp)
    have := ih (fun c hc => hcs c (by simp [hc]))
    simp [parseIdentifierLoop, hd, this]

theorem parseIdentifier_append {name : String} (tail : List Char)
    (hname : isIdentifier name = true) (htail : EndsIdentifier tail) :
    parseIdentifier (name.data ++ tail) = some (name, tail) := by
  unfold isIdentifier at hname
  cases hd : name.data with
  | nil => simp [hd] at hname
  | cons c rest =>
    simp only [hd, Bool.and_eq_true, List.all_eq_true] at hname
    have hloop := parseIdentifierLoop_append rest tail hname.2 htail
    have hmk : String.mk (c :: rest) = name := by rw [← hd]
    simp [parseIdentifier, hname.1, hloop, hmk]

theorem isIdentifier_data {name : String} (hname : isIdentifier name = true) :
    ∃ c rest, name.data = c :: rest ∧ isAlpha c = true := by
  unfold isIdentifier at hname
  cases hd : name.data with
  | nil => simp [hd] at hname
  | cons c rest =>
    simp only [hd, Bool.and_eq_true] at hname
    exact ⟨c, rest, rfl, hname.1⟩

theorem skipWhitespace_append (ws tail : List Char) (hws : ∀ c ∈ ws, isSpace c = true)
    (htail : ∀ c rest, tail = c :: rest → isSpace c = false) :
    skipWhitespace (ws ++ tail) = tail := by
  induction ws with
  | nil =>
    cases tail with
    | nil => rfl
    | cons c rest => simp [skipWhitespace, htail c rest rfl]
  | cons d ds ih =>
    have hd := hws d (by simp)
    have := ih (fun c hc => hws c (by simp [hc]))
    simp [skipWhitespace, hd, this]

theorem joinSeparated_endsIdentifier (others : List (List Char × String))
    (h : WellSeparated others) : EndsIdentifier (joinSeparated others) := by
  intro c rest hc
  cases others with
  | nil => simp [joinSeparated] at hc
  | cons entry more =>
    obtain ⟨ws, a⟩ := entry
    obtain ⟨hne, hsp, _⟩ := h (ws, a) (by simp)
    cases ws with
    | nil => exact absurd rfl hne
    | cons w ws' =>
      simp only [joinSeparated, List.cons_append, List.cons.injEq] at hc
      rw [← hc.1]
      exact isSpace_not_alphaNumeric (hsp w (by simp))

theorem parseVariable_append (env : Environment) {name : String} (tail : List Char)
    (hname : isIdentifier name = true) (htail : EndsIdentifier tail) :
    parseVariable env (name.data ++ tail) = Outcome.ok (resolveName env name, tail) := by
  unfold parseVariable
  rw [parseIdentifier_append tail hname htail]
  simp only [resolveName]
  split <;> rfl

theorem parsePrimary_identifier (lit : LambdaLiteral) (env : Environment) (fuel : Nat)
    {name : String} (tail : List Char) (hname : isIdentifier name = true)
    (htail : EndsIdentifier tail) :
    parsePrimary lit env (fuel + 1) (name.data ++ tail) =
      Outcome.ok (resolveName env name, tail) := by
  obtain ⟨c, rest, hd, hc⟩ := isIdentifier_data hname
  have hv := parseVariable_append env tail hname htail
  have hcons : name.data ++ tail = c :: (rest ++ tail) := by rw [hd]; rfl
  have hskip : skipWhitespace (c :: (rest ++ tail)) = c :: (rest ++ tail) := by
    simp [skipWhitespace, isAlpha_not_space hc]
  rw [hcons] at hv ⊢
  rw [parsePrimary, hskip]
  simp only [hc, if_true]
  exact hv

theorem parseApplicationLoop_identifiers (lit : LambdaLiteral) (env : Environment) :
    ∀ (others : List (List Char × String)) (e0 : Expression) (k : Nat),
      WellSeparated others →
      parseApplicationLoop lit env (others.length + 1 + k) e0 (joinSeparated others) =
        Outcome.ok
          (leftNested e0 (others.map (fun entry => resolveName env entry.2)), []) := by
  intro others
  induction others with
  | nil =>
    intro e0 k _
    have e : ([] : List (List Char × String)).length + 1 + k = k + 1 := by simp; omega
    rw [e, parseApplicationLoop]
    simp [joinSeparated, skipWhitespace, leftNested]
  | cons entry more ih =>
    intro e0 k hwell
    obtain ⟨ws, a⟩ := entry
    obtain ⟨_, hsp, hid⟩ := hwell (ws, a) (by simp)
    have hmore : WellSeparated more := fun en hen => hwell en (by simp [hen])
    obtain ⟨c, rest, hd, hc⟩ := isIdentifier_data hid
    have e : ((ws, a) :: more).length + 1 + k = (more.length + 1 + k) + 1 := by
      simp only [List.length_cons]; omega
    have hskip : skipWhitespace (joinSeparated ((ws, a) :: more)) =
        c :: (rest ++ joinSeparated more) := by
      simp only [joinSeparated, List.append_assoc]
      rw [skipWhitespace_append ws _ hsp, hd]
      · rfl
      · intro c' rest' hc'
        rw [hd] at hc'
        simp only [List.cons_append, List.cons.injEq] at hc'
        rw [← hc'.1]
        exact isAlpha_not_space hc
    have e2 : more.length + 1 + k = (more.length + k) + 1 := by omega
    have hprim : parsePrimary lit env (more.length + 1 + k) (c :: (rest ++ joinSeparated more)) =
        Outcome.ok (resolveName env a, joinSeparated more) := by
      have := parsePrimary_identifier lit env (more.length + k) (joinSeparated more) hid
        (joinSeparated_endsIdentifier more hmore)
      rw [hd] at this
      rw [e2]
      exact this
    rw [e, parseApplicationLoop, hskip]
    simp only [hc, Bool.true_or, if_true, hprim]
    rw [ih (Application e0 (resolveName env a)) k hmore]
    simp [leftNested]

/-- The parser on `a1 ws a2 ws … an` returns the left-nested application. -/
theorem parse_identifiers (lit : LambdaLiteral) (env : Environment) (first : String)
    (others : List (List Char × String)) (hfirst : isIdentifier first = true)
    (hwell : WellSeparated others) (k : Nat) :
    parse lit env (others.length + 4 + k) (String.mk (first.data ++ joinSeparated others)) =
      Outcome.ok
        (leftNested (resolveName env first)
          (others.map (fun entry => resolveName env entry.2))) := by
  obtain ⟨c, rest, hd, hc⟩ := isIdentifier_data hfirst
  have hskip : skipWhitespace (first.data ++ joinSeparated others) =
      first.data ++ joinSeparated others := by
    rw [hd]
    simp [skipWhitespace, isAlpha_not_space hc]
  have e : others.length + 4 + k = (others.length + 2 + k) + 1 + 1 := by omega
  have e2 : others.length + 2 + k = (others.length + 1 + k) + 1 := by omega
  have hprim := parsePrimary_identifier lit env (others.length + 1 + k)
    (joinSeparated others) hfirst (joinSeparated_endsIdentifier others hwell)
  have hloop := parseApplicationLoop_identifiers lit env others (resolveName env first)
    (k + 1) hwell
  have e3 : others.length + 1 + (k + 1) = others.length + 2 + k := by omega
  rw [e3] at hloop
  rw [← e2] at hprim
  unfold parse
  simp only [hskip]
  rw [e, parseExpression, parseApplication, hprim]
  simp only [hloop, skipWhitespace]

theorem parse_lambda_body (lit : LambdaLiteral) (env : Environment)
    (hx : env.isDefined "x" = false) (hy : env.isDefined "y" = false) :
    parse lit env 8 "\\x.x y" =
      Outcome.ok (Abstraction "x" (Application (Variable "x") (Variable "y"))) := by
  have h1 : ("\\x.x y" : String).data = ['\\', 'x', '.', 'x', ' ', 'y'] := rfl
  have a1 : isAlpha '\\' = false := by decide
  have a2 : isAlpha 'x' = true := by decide
  have a3 : isAlpha 'y' = true := by decide
  have a4 : isAlphaNumeric '.' = false := by decide
  have a5 : isAlphaNumeric ' ' = false := by decide
  have s1 : isSpace '\\' = false := by decide
  have s2 : isSpace 'x' = false := by decide
  have s3 : isSpace '.' = false := by decide
  have s4 : isSpace ' ' = true := by decide
  have s5 : isSpace 'y' = false := by decide
  have m1 : String.mk ['x'] = "x" := rfl
  have m2 : String.mk ['y'] = "y" := rfl
  simp [parse, parseExpression, parseApplication, parseApplicationLoop, parsePrimary,
    parseAbstraction, parseVariable, parseIdentifier, parseIdentifierLoop, skipWhitespace,
    h1, a1, a2, a3, a4, a5, s1, s2, s3, s4, s5, m1, m2, hx, hy]

/-! ## References under the driver -/

/-- What the driver returns passes the normal-form test. -/
theorem evaluateNormalOrder_result_normal (env : Environment) :
    ∀ (fuel : Nat) (t r : Expression), evaluateNormalOrder env fuel t = some r →
      ∃ f, isNormalForm env f r = some true := by
  intro fuel
  induction fuel with
  | zero => intro t r h; simp [evaluateNormalOrder] at h
  | succ k ih =>
    intro t r h
    simp only [evaluateNormalOrder] at h
    cases hn : isNormalForm env k t with
    | none => simp [hn] at h
    | some b =>
      cases b with
      | true =>
        simp only [hn, Option.some.injEq] at h
        rw [← h]
        exact ⟨k, hn⟩
      | false =>
        simp only [hn] at h
        cases hb : betaReduce env k t with
        | none => simp [hb] at h
        | some rb =>
          simp only [hb] at h
          exact ih rb r h

theorem isNormalForm_reference {env : Environment} {name : String} {d : Expression}
    (hl : env.lookup name = some d) {fuel : Nat} {b : Bool}
    (h : isNormalForm env fuel (NamedReference name) = some b) :
    b = decide (d.toString = name) := by
  cases fuel with
  | zero => simp [isNormalForm] at h
  | succ k =>
    cases k with
    | zero => simp [isNormalForm, betaReduce] at h
    | succ j =>
      simp only [isNormalForm, betaReduce, hl, Option.some.injEq] at h
      rw [← h]
      rfl

theorem identifier_toString_ne {name : String} (hid : isIdentifier name = true)
    (d : Expression)
    (hd : (∃ p b, d = Abstraction p b) ∨ (∃ f a, d = Application f a)) :
    d.toString ≠ name := by
  obtain ⟨c, rest, hdata, hc1, hc2⟩ := isIdentifier_head hid
  intro e
  have := congrArg String.data e
  rw [toString_data, hdata] at this
  rcases hd with ⟨p, b, rfl⟩ | ⟨f, a, rfl⟩
  · simp only [Expression.chars, List.cons.injEq] at this
    exact hc1 this.1.symm
  · simp only [Expression.chars, List.cons.injEq] at this
    exact hc2 this.1.symm

/-! ## Free variables under the reducer -/

theorem reducer_freeVars (env : Environment) :
    ∀ fuel : Nat,
      (∀ t r s, betaReduce env fuel t = some r → FreeVars env t s →
        ∃ sr, FreeVars env r sr ∧ sr ⊆ s) ∧
      (∀ t r s, evaluateNormalOrder env fuel t = some r → FreeVars env t s →
        ∃ sr, FreeVars env r sr ∧ sr ⊆ s) := by
  intro fuel
  induction fuel with
  | zero =>
    constructor
    · intro t r s h; simp [betaReduce] at h
    · intro t r s h; simp [evaluateNormalOrder] at h
  | succ k ih =>
    obtain ⟨ihB, ihE⟩ := ih
    constructor
    · intro t r s h hT
      cases t with
      | Variable name =>
        simp only [betaReduce, Option.some.injEq] at h
        rw [← h]
        exact ⟨s, hT, Finset.Subset.refl s⟩
      | NamedReference name =>
        simp only [betaReduce] at h
        cases hl : env.lookup name with
        | none =>
          simp only [hl, Option.some.injEq] at h
          rw [← h]
          have hs := (freeVars_reference_none hl).mp hT
          exact ⟨s, freeVars_variable.mpr hs, Finset.Subset.refl s⟩
        | some d =>
          simp only [hl, Option.some.injEq] at h
          rw [← h]
          exact ⟨s, (freeVars_reference_some hl).mp hT, Finset.Subset.refl s⟩
      | Abstraction p b =>
        simp only [betaReduce] at h
        obtain ⟨sb, hb, hs⟩ := freeVars_abstraction.mp hT
        cases he : evaluateNormalOrder env k b with
        | none => simp [he] at h
        | some eb =>
          simp only [he, Option.some.injEq] at h
          rw [← h]
          obtain ⟨seb, hseb, hsub⟩ := ihE b eb sb he hb
          refine ⟨seb.erase p, freeVars_abstraction.mpr ⟨seb, hseb, rfl⟩, ?_⟩
          rw [hs]
          exact Finset.erase_subset_erase p hsub
      | Application f a =>
        obtain ⟨sf, sa, hf, ha, hs⟩ := freeVars_application.mp hT
        cases f with
        | Abstraction p b =>
          simp only [betaReduce] at h
          obtain ⟨sb, hb, hsf⟩ := freeVars_abstraction.mp hf
          obtain ⟨sr, hsr, hsub⟩ := substitute_freeVars env k b p a r sb sa h hb ha
          refine ⟨sr, hsr, ?_⟩
          rw [hs, hsf]
          exact hsub
        | Variable name =>
          simp only [betaReduce] at h
          cases h1 : evaluateNormalOrder env k (Variable name) with
          | none => simp [h1] at h
          | some ef =>
            cases h2 : evaluateNormalOrder env k a with
            | none => simp [h1, h2] at h
            | some ea =>
              simp only [h1, h2, Option.some.injEq] at h
              rw [← h]
              obtain ⟨s1, hs1, hsub1⟩ := ihE _ _ _ h1 hf
              obtain ⟨s2, hs2, hsub2⟩ := ihE _ _ _ h2 ha
              refine ⟨s1 ∪ s2, freeVars_application.mpr ⟨s1, s2, hs1, hs2, rfl⟩, ?_⟩
              rw [hs]
              exact Finset.union_subset_union hsub1 hsub2
        | NamedReference name =>
          simp only [betaReduce] at h
          cases h1 : evaluateNormalOrder env k (NamedReference name) with
          | none => simp [h1] at h
          | some ef =>
            cases h2 : evaluateNormalOrder env k a with
            | none => simp [h1, h2] at h
            | some ea =>
              simp only [h1, h2, Option.some.injEq] at h
              rw [← h]
              obtain ⟨s1, hs1, hsub1⟩ := ihE _ _ _ h1 hf
              obtain ⟨s2, hs2, hsub2⟩ := ihE _ _ _ h2 ha
              refine ⟨s1 ∪ s2, freeVars_application.mpr ⟨s1, s2, hs1, hs2, rfl⟩, ?_⟩
              rw [hs]
              exact Finset.union_subset_union hsub1 hsub2
        | Application f1 f2 =>
          simp only [betaReduce] at h
          cases h1 : evaluateNormalOrder env k (Application f1 f2) with
          | none => simp [h1] at h
          | some ef =>
            cases h2 : evaluateNormalOrder env k a with
            | none => simp [h1, h2] at h
            | some ea =>
              simp only [h1, h2, Option.some.injEq] at h
              rw [← h]
              obtain ⟨s1, hs1, hsub1⟩ := ihE _ _ _ h1 hf
              obtain ⟨s2, hs2, hsub2⟩ := ihE _ _ _ h2 ha
              refine ⟨s1 ∪ s2, freeVars_application.mpr ⟨s1, s2, hs1, hs2, rfl⟩, ?_⟩
              rw [hs]
              exact Finset.union_subset_union hsub1 hsub2
    · intro t r s h hT
      simp only [evaluateNormalOrder] at h
      cases hn : isNormalForm env k t with
      | none => simp [hn] at h
      | some b =>
        cases b with
        | true =>
          simp only [hn, Option.some.injEq] at h
          rw [← h]
          exact ⟨s, hT, Finset.Subset.refl s⟩
        | false =>
          simp only [hn] at h
          cases hb : betaReduce env k t with
          | none => simp [hb] at h
          | some rb =>
            simp only [hb] at h
            obtain ⟨s1, hs1, hsub1⟩ := ihB t rb s hb hT
            obtain ⟨s2, hs2, hsub2⟩ := ihE rb r s1 h hs1
            exact ⟨s2, hs2, hsub2.trans hsub1⟩

/-! ## The canonical string determines the term -/

theorem append_split_unique :
    ∀ (l1 l2 s1 s2 : List Char), (∀ c ∈ l1, isAlphaNumeric c = true) →
      (∀ c ∈ l2, isAlphaNumeric c = true) → EndsIdentifier s1 → EndsIdentifier s2 →
      l1 ++ s1 = l2 ++ s2 → l1 = l2 ∧ s1 = s2 := by
  intro l1
  induction l1 with
  | nil =>
    intro l2 s1 s2 _ h2 e1 _ h
    cases l2 with
    | nil => exact ⟨rfl, by simpa using h⟩
    | cons d ds =>
      simp only [List.nil_append, List.cons_append] at h
      have := e1 d (ds ++ s2) h
      rw [h2 d (by simp)] at this
      exact absurd this (by decide)
  | cons c cs ih =>
    intro l2 s1 s2 h1 h2 e1 e2 h
    cases l2 with
    | nil =>
      simp only [List.nil_append, List.cons_append] at h
      have := e2 c (cs ++ s1) h.symm
      rw [h1 c (by simp)] at this
      exact absurd this (by decide)
    | cons d ds =>
      simp only [List.cons_append, List.cons.injEq] at h
      obtain ⟨hl, hs⟩ := ih ds s1 s2 (fun x hx => h1 x (by simp [hx]))
        (fun x hx => h2 x (by simp [hx])) e1 e2 h.2
      exact ⟨by rw [h.1, hl], hs⟩

theorem isIdentifier_chars {name : String} (h : isIdentifier name = true) :
    ∀ c ∈ name.data, isAlphaNumeric c = true := by
  unfold isIdentifier at h
  cases hd : name.data with
  | nil => simp [hd] at h
  | cons c rest =>
    simp only [hd, Bool.and_eq_true, List.all_eq_true] at h
    intro x hx
    rcases List.mem_cons.mp hx with rfl | hx
    · exact isAlpha_alphaNumeric h.1
    · exact h.2 x hx

theorem endsIdentifier_cons {c : Char} (rest : List Char) (h : isAlphaNumeric c = false) :
    EndsIdentifier (c :: rest) := by
  intro d r e
  simp only [List.cons.injEq] at e
  rw [← e.1]; exact h

/-- A term is determined by its characters, whatever follows them, as long as what
follows does not continue an identifier. -/
theorem chars_unique :
    ∀ t1 : Expression, namedReferenceFree t1 = true →
      (∀ n ∈ allNames t1, isIdentifier n = true) →
      ∀ (t2 : Expression) (s1 s2 : List Char), namedReferenceFree t2 = true →
        (∀ n ∈ allNames t2, isIdentifier n = true) →
        EndsIdentifier s1 → EndsIdentifier s2 →
        t1.chars ++ s1 = t2.chars ++ s2 → t1 = t2 ∧ s1 = s2 := by
  intro t1
  induction t1 with
  | NamedReference name => intro h; simp [namedReferenceFree] at h
  | Variable n1 =>
    intro _ hv1 t2 s1 s2 hf2 hv2 e1 e2 h
    have hid1 := hv1 n1 (by simp [allNames])
    obtain ⟨c, rest, hd, hc⟩ := isIdentifier_data hid1
    cases t2 with
    | NamedReference name => simp [namedReferenceFree] at hf2
    | Variable n2 =>
      have hid2 := hv2 n2 (by simp [allNames])
      simp only [Expression.chars] at h
      obtain ⟨hl, hs⟩ := append_split_unique _ _ _ _ (isIdentifier_chars hid1)
        (isIdentifier_chars hid2) e1 e2 h
      exact ⟨by rw [String.ext hl], hs⟩
    | Abstraction p b =>
      simp only [Expression.chars, hd, List.cons_append, List.cons.injEq] at h
      rw [h.1] at hc
      exact absurd hc (by decide)
    | Application f a =>
      simp only [Expression.chars, hd, List.cons_append, List.cons.injEq] at h
      rw [h.1] at hc
      exact absurd hc (by decide)
  | Abstraction p1 b1 ih =>
    intro hf1 hv1 t2 s1 s2 hf2 hv2 e1 e2 h
    have hid1 := hv1 p1 (by simp [allNames])
    cases t2 with
    | NamedReference name => simp [namedReferenceFree] at hf2
    | Variable n2 =>
      obtain ⟨c, rest, hd, hc⟩ := isIdentifier_data (hv2 n2 (by simp [allNames]))
      simp only [Expression.chars, hd, List.cons_append, List.cons.injEq] at h
      rw [← h.1] at hc
      exact absurd hc (by decide)
    | Application f a =>
      simp only [Expression.chars, List.cons_append, List.cons.injEq] at h
      exact absurd h.1 (by decide)
    | Abstraction p2 b2 =>
      have hid2 := hv2 p2 (by simp [allNames])
      simp only [Expression.chars, List.cons_append, List.cons.injEq, true_and,
        List.append_assoc] at h
      obtain ⟨hp, hrest⟩ := append_split_unique _ _ _ _ (isIdentifier_chars hid1)
        (isIdentifier_chars hid2) (endsIdentifier_cons _ (by decide))
        (endsIdentifier_cons _ (by decide)) h
      simp only [List.cons.injEq, true_and] at hrest
      obtain ⟨hb, hs⟩ := ih (by simpa [namedReferenceFree] using hf1)
        (fun n hn => hv1 n (by simp [allNames, hn])) b2 s1 s2
        (by simpa [namedReferenceFree] using hf2)
        (fun n hn => hv2 n (by simp [allNames, hn])) e1 e2 hrest
      exact ⟨by rw [String.ext hp, hb], hs⟩
  | Application f1 a1 ihf iha =>
    intro hf1 hv1 t2 s1 s2 hf2 hv2 e1 e2 h
    simp only [namedReferenceFree, Bool.and_eq_true] at hf1
    cases t2 with
    | NamedReference name => simp [namedReferenceFree] at hf2
    | Variable n2 =>
      obtain ⟨c, rest, hd, hc⟩ := isIdentifier_data (hv2 n2 (by simp [allNames]))
      simp only [Expression.chars, hd, List.cons_append, List.cons.injEq] at h
      rw [← h.1] at hc
      exact absurd hc (by decide)
    | Abstraction p b =>
      simp only [Expression.chars, List.cons_append, List.cons.injEq] at h
      exact absurd h.1 (by decide)
    | Application f2 a2 =>
      simp only [namedReferenceFree, Bool.and_eq_true] at hf2
      simp only [Expression.chars, List.cons_append, List.cons.injEq, true_and,
        List.append_assoc] at h
      obtain ⟨hf, hrest⟩ := ihf hf1.1 (fun n hn => hv1 n (by simp [allNames, hn])) f2 _ _
        hf2.1 (fun n hn => hv2 n (by simp [allNames, hn]))
        (endsIdentifier_cons _ (by decide)) (endsIdentifier_cons _ (by decide)) h
      simp only [List.cons.injEq, true_and] at hrest
      obtain ⟨ha, hs⟩ := iha hf1.2 (fun n hn => hv1 n (by simp [allNames, hn])) a2 _ _
        hf2.2 (fun n hn => hv2 n (by simp [allNames, hn]))
        (endsIdentifier_cons _ (by decide)) (endsIdentifier_cons _ (by decide)) hrest
      simp only [List.singleton_append, List.cons.injEq, true_and] at hs
      exact ⟨by rw [hf, ha], hs⟩

theorem toString_injective {t1 t2 : Expression} (hf1 : namedReferenceFree t1 = true)
    (hv1 : ∀ n ∈ allNames t1, isIdentifier n = true) (hf2 : namedReferenceFree t2 = true)
    (hv2 : ∀ n ∈ allNames t2, isIdentifier n = true) (h : t1.toString = t2.toString) :
    t1 = t2 := by
  have hc := (toString_eq_iff t1 t2).mp h
  have := chars_unique t1 hf1 hv1 t2 [] [] hf2 hv2 (fun _ _ e => by cases e)
    (fun _ _ e => by cases e) (by simpa using hc)
  exact this.1

theorem specIdentifier_isIdentifier {name : String} (h : matchesSpecIdentifier name = true) :
    isIdentifier name = true := by
  unfold matchesSpecIdentifier at h
  unfold isIdentifier
  cases hd : name.data with
  | nil => simp [hd] at h
  | cons c rest =>
    simp only [hd, Bool.and_eq_true, List.all_eq_true] at h ⊢
    refine ⟨by simpa [isAlpha, isLetter] using h.1, ?_⟩
    intro d hdm
    have := h.2 d hdm
    simp only [isAlphaNumeric, isAlpha, isLetter, isDecimalDigit, Bool.or_eq_true,
      Bool.and_eq_true] at this ⊢
    tauto

/-! ## Substitution under an acyclic environment -/

theorem lookupIn_mem {defs : List (String × Expression)} {name : String} {D : Expression}
    (h : lookupIn defs name = some D) : (name, D) ∈ defs := by
  induction defs with
  | nil => simp [lookupIn] at h
  | cons entry rest ih =>
    obtain ⟨key, value⟩ := entry
    by_cases hk : key = name
    · simp only [lookupIn, hk, if_true, Option.some.injEq] at h
      simp [hk, h]
    · simp only [lookupIn, hk, if_false] at h
      exact List.mem_cons_of_mem _ (ih h)

theorem isDefined_mem {env : Environment} {name : String} (h : env.isDefined name = true) :
    name ∈ env.definitions.map Prod.fst := by
  unfold Environment.isDefined at h
  obtain ⟨D, hD⟩ := Option.isSome_iff_exists.mp h
  exact List.mem_map.mpr ⟨(name, D), lookupIn_mem hD, rfl⟩

/-- A rank that decreases along every reference excludes cycles. -/
theorem acyclic_of_rank (env : Environment) (rank : String → Nat)
    (h : ∀ entry ∈ env.definitions, ∀ m ∈ referencedNames entry.2,
      env.isDefined m = true → rank m < rank entry.1) :
    AcyclicReferences env := by
  have hstep : ∀ m n, RefersTo env m n → rank m < rank n := by
    rintro m n ⟨D, hl, hm, hd⟩
    exact h (n, D) (lookupIn_mem hl) m hm hd
  have htrans : ∀ m n, Relation.TransGen (RefersTo env) m n → rank m < rank n := by
    intro m n hmn
    induction hmn with
    | single h1 => exact hstep _ _ h1
    | tail _ h2 ih => exact lt_trans ih (hstep _ _ h2)
  intro n hn
  exact lt_irrefl _ (htrans n n hn)

theorem acyclic_wellFounded {env : Environment} (h : AcyclicReferences env) :
    WellFounded (RefersTo env) := by
  haveI : IsStrictOrder String (Relation.TransGen (RefersTo env)) :=
    { irrefl := h
      trans := fun _ _ _ h1 h2 => Relation.TransGen.trans h1 h2 }
  have hfin : {n : String | n ∈ env.definitions.map Prod.fst}.Finite :=
    List.finite_toSet _
  have hwf := Set.wellFoundedOn_iff.mp
    (Set.Finite.wellFoundedOn (r := Relation.TransGen (RefersTo env)) hfin)
  refine Subrelation.wf ?_ hwf
  rintro m n ⟨D, hl, hm, hd⟩
  refine ⟨Relation.TransGen.single ⟨D, hl, hm, hd⟩, isDefined_mem hd, ?_⟩
  exact List.mem_map.mpr ⟨(n, D), lookupIn_mem hl, rfl⟩

theorem expandedSize_pos {env : Environment} {t : Expression} {k : Nat}
    (h : ExpandedSize env t k) : 0 < k := by
  cases h <;> omega

theorem expandedSize_of_references (env : Environment) :
    ∀ t : Expression,
      (∀ m ∈ referencedNames t, env.isDefined m = true →
        ∃ k, ExpandedSize env (NamedReference m) k) →
      ∃ k, ExpandedSize env t k := by
  intro t
  induction t with
  | Variable name => intro _; exact ⟨1, ExpandedSize.ofVariable name⟩
  | NamedReference name =>
    intro h
    cases hl : env.lookup name with
    | none => exact ⟨1, ExpandedSize.ofUndefined hl⟩
    | some D =>
      apply h name (by simp [referencedNames])
      simp [Environment.isDefined, Environment.lookup] at hl ⊢
      rw [hl]; rfl
  | Abstraction p b ih =>
    intro h
    obtain ⟨k, hk⟩ := ih (fun m hm hd => h m (by simpa [referencedNames] using hm) hd)
    exact ⟨k + 1, ExpandedSize.ofAbstraction p hk⟩
  | Application f a ihf iha =>
    intro h
    obtain ⟨k1, h1⟩ := ihf (fun m hm hd => h m (by simp [referencedNames, hm]) hd)
    obtain ⟨k2, h2⟩ := iha (fun m hm hd => h m (by simp [referencedNames, hm]) hd)
    exact ⟨k1 + k2 + 1, ExpandedSize.ofApplication h1 h2⟩

theorem expandedSize_reference {env : Environment} (h : AcyclicReferences env) :
    ∀ n : String, ∃ k, ExpandedSize env (NamedReference n) k := by
  intro n
  induction n using (acyclic_wellFounded h).induction with
  | _ n ih =>
    cases hl : env.lookup n with
    | none => exact ⟨1, ExpandedSize.ofUndefined hl⟩
    | some D =>
      obtain ⟨k, hk⟩ := expandedSize_of_references env D
        (fun m hm hd => ih m ⟨D, hl, hm, hd⟩)
      exact ⟨k + 1, ExpandedSize.ofDefined hl hk⟩

theorem expandedSize_total {env : Environment} (h : AcyclicReferences env)
    (t : Expression) : ∃ k, ExpandedSize env t k :=
  expandedSize_of_references env t (fun m _ _ => expandedSize_reference h m)

theorem freeVars_of_expandedSize {env : Environment} {t : Expression} {k : Nat}
    (h : ExpandedSize env t k) : ∃ s, FreeVars env t s := by
  induction h with
  | ofVariable name => exact ⟨_, freeVars_variable.mpr rfl⟩
  | ofUndefined hl => exact ⟨_, (freeVars_reference_none hl).mpr rfl⟩
  | ofDefined hl _ ih =>
    obtain ⟨s, hs⟩ := ih
    exact ⟨s, (freeVars_reference_some hl).mpr hs⟩
  | ofAbstraction p _ ih =>
    obtain ⟨s, hs⟩ := ih
    exact ⟨_, freeVars_abstraction.mpr ⟨s, hs, rfl⟩⟩
  | ofApplication _ _ ihf iha =>
    obtain ⟨sf, hf⟩ := ihf
    obtain ⟨sa, ha⟩ := iha
    exact ⟨_, freeVars_application.mpr ⟨sf, sa, hf, ha, rfl⟩⟩

/-- The call `substitute(M, x, N)` returns when the expanded size of `M` is defined and
the free-variable analysis returns on `N`; replacing by a variable does not increase the
expanded size. -/
theorem substitutes_of_expandedSize (env : Environment) :
    ∀ (k : Nat) (M : Expression) (j : Nat), j ≤ k → ExpandedSize env M j →
      ∀ (x : String) (N : Expression) (sn : Finset String), FreeVars env N sn →
        ∃ r, Substitutes env M x N r ∧
          (∀ v, N = Variable v → ∃ j', j' ≤ j ∧ ExpandedSize env r j') := by
  intro k
  induction k with
  | zero =>
    intro M j hj hES
    have := expandedSize_pos hES
    omega
  | succ k ih =>
    intro M j hj hES x N sn hN
    cases hES with
    | ofVariable name =>
      by_cases h : name = x
      · subst h
        refine ⟨N, substitutes_variable_eq env name N, ?_⟩
        rintro v rfl
        exact ⟨1, Nat.le_refl _, ExpandedSize.ofVariable v⟩
      · exact ⟨Variable name, substitutes_variable_ne env N h,
          fun _ _ => ⟨1, Nat.le_refl _, ExpandedSize.ofVariable name⟩⟩
    | ofUndefined hl =>
      rename_i name
      refine ⟨_, substitutes_reference_none x N hl, ?_⟩
      intro v hv
      by_cases h : name = x
      · rw [if_pos h, hv]
        exact ⟨1, Nat.le_refl _, ExpandedSize.ofVariable v⟩
      · rw [if_neg h]
        exact ⟨1, Nat.le_refl _, ExpandedSize.ofUndefined hl⟩
    | ofDefined hl hD =>
      rename_i name D j0
      obtain ⟨r, hr, hsize⟩ := ih D j0 (by omega) hD x N sn hN
      refine ⟨r, substitutes_reference_some hl hr, ?_⟩
      intro v hv
      obtain ⟨j', hj', hES'⟩ := hsize v hv
      exact ⟨j', by omega, hES'⟩
    | ofAbstraction p hb =>
      rename_i b j0
      by_cases h : p = x
      · subst h
        exact ⟨Abstraction p b, substitutes_shadow env p b N,
          fun _ _ => ⟨j0 + 1, Nat.le_refl _, ExpandedSize.ofAbstraction p hb⟩⟩
      · by_cases hmem : p ∈ sn
        · obtain ⟨sm, hsm⟩ := freeVars_of_expandedSize (ExpandedSize.ofAbstraction p hb)
          obtain ⟨rb, hrb, hsrb⟩ := ih b j0 (by omega) hb p
            (Variable (generateFreshVariable (sm ∪ sn) p)) _ (freeVars_variable.mpr rfl)
          obtain ⟨j1, hj1, hES1⟩ := hsrb _ rfl
          obtain ⟨nb, hnb, hsnb⟩ := ih rb j1 (by omega) hES1 x N sn hN
          refine ⟨_, substitutes_rename h hN hmem hsm hrb hnb, ?_⟩
          intro v hv
          obtain ⟨j2, hj2, hES2⟩ := hsnb v hv
          exact ⟨j2 + 1, by omega, ExpandedSize.ofAbstraction _ hES2⟩
        · obtain ⟨nb, hnb, hsnb⟩ := ih b j0 (by omega) hb x N sn hN
          refine ⟨_, substitutes_abstraction h hN hmem hnb, ?_⟩
          intro v hv
          obtain ⟨j2, hj2, hES2⟩ := hsnb v hv
          exact ⟨j2 + 1, by omega, ExpandedSize.ofAbstraction _ hES2⟩
    | ofApplication hf ha =>
      rename_i f a j1 j2
      obtain ⟨rf, hrf, hsf⟩ := ih f j1 (by omega) hf x N sn hN
      obtain ⟨ra, hra, hsa⟩ := ih a j2 (by omega) ha x N sn hN
      refine ⟨_, substitutes_application hrf hra, ?_⟩
      intro v hv
      obtain ⟨j1', hj1', hES1⟩ := hsf v hv
      obtain ⟨j2', hj2', hES2⟩ := hsa v hv
      exact ⟨j1' + j2' + 1, by omega, ExpandedSize.ofApplication hES1 hES2⟩

theorem acyclic_emptyEnv : AcyclicReferences emptyEnv := by
  intro n hn
  have : ∀ m k, Relation.TransGen (RefersTo emptyEnv) m k → False := by
    intro m k h
    cases h with
    | single h1 =>
      obtain ⟨D, hl, _⟩ := h1
      simp [emptyEnv, Environment.lookup, lookupIn] at hl
    | tail _ h2 =>
      obtain ⟨D, hl, _⟩ := h2
      simp [emptyEnv, Environment.lookup, lookupIn] at hl
  exact this n n hn

theorem expandedSize_emptyEnv (t : Expression) : ExpandedSize emptyEnv t t.size := by
  induction t with
  | Variable name => exact ExpandedSize.ofVariable name
  | NamedReference name => exact ExpandedSize.ofUndefined rfl
  | Abstraction p b ih => exact ExpandedSize.ofAbstraction p ih
  | Application f a ihf iha => exact ExpandedSize.ofApplication ihf iha

theorem expandedSize_emptyEnv_eq {t : Expression} {k : Nat}
    (h : ExpandedSize emptyEnv t k) : k = t.size := by
  induction h with
  | ofVariable name => rfl
  | ofUndefined _ => rfl
  | ofDefined hl _ _ => simp [emptyEnv, Environment.lookup, lookupIn] at hl
  | ofAbstraction p _ ih => simp [Expression.size, ih]
  | ofApplication _ _ ihf iha => simp [Expression.size, ihf, iha]

/-! ## Names of references and of parameters under rewriting -/

theorem extendsByDigits_self (p : List Char) : extendsByDigits p p = true := by
  induction p with
  | nil => rfl
  | cons c cs ih => simp [extendsByDigits, ih]

theorem extendsByDigits_append :
    ∀ (p q ds : List Char), extendsByDigits p q = true →
      (∀ c ∈ ds, isDecimalDigit c = true) → extendsByDigits p (q ++ ds) = true := by
  intro p
  induction p with
  | nil =>
    intro q ds h hds
    simp only [extendsByDigits, List.all_eq_true] at h ⊢
    intro c hc
    rcases List.mem_append.mp hc with hc | hc
    · exact h c hc
    · exact hds c hc
  | cons c cs ih =>
    intro q ds h hds
    cases q with
    | nil => simp [extendsByDigits] at h
    | cons d qs =>
      simp only [extendsByDigits, Bool.and_eq_true] at h
      simp only [List.cons_append, extendsByDigits, Bool.and_eq_true]
      exact ⟨h.1, ih qs ds h.2 hds⟩

/-- The generated name is the hint, or the hint followed by a decimal numeral. -/
theorem generateFreshVariable_form (usedVars : Finset String) (hint : String) :
    ∃ ds : List Char, (∀ c ∈ ds, isDecimalDigit c = true) ∧
      (generateFreshVariable usedVars hint).data = hint.data ++ ds := by
  have hfresh := generateFreshVariable_not_mem usedVars hint
  rcases generateFreshVariableLoop_first usedVars hint (usedVars.card + 1) 0 hint hfresh with
    ⟨_, heq⟩ | ⟨_, k, _, _, heq, _⟩
  · refine ⟨[], by simp, ?_⟩
    unfold generateFreshVariable
    rw [heq]; simp
  · refine ⟨(Nat.repr k).data, ?_, ?_⟩
    · intro c hc
      have := (repr_decimal k).1 c hc
      simp [isDecimalDigit, this.1, this.2]
    · unfold generateFreshVariable
      rw [heq, String.data_append]

theorem goodNames_variable (R P : List String) (name : String) :
    GoodNames R P (Variable name) := by
  constructor
  · intro n hn; simp [referencedNames] at hn
  · intro q hq; simp [boundNames] at hq

theorem goodNames_abstraction {R P : List String} {p : String} {b : Expression} :
    GoodNames R P (Abstraction p b) ↔
      (∃ p0 ∈ P, extendsByDigits p0.data p.data = true) ∧ GoodNames R P b := by
  constructor
  · rintro ⟨h1, h2⟩
    exact ⟨h2 p (by simp [boundNames]),
      fun n hn => h1 n (by simpa [referencedNames] using hn),
      fun q hq => h2 q (by simp [boundNames, hq])⟩
  · rintro ⟨hp, h1, h2⟩
    refine ⟨fun n hn => h1 n (by simpa [referencedNames] using hn), ?_⟩
    intro q hq
    simp only [boundNames, List.mem_cons] at hq
    rcases hq with rfl | hq
    · exact hp
    · exact h2 q hq

theorem goodNames_application {R P : List String} {f a : Expression} :
    GoodNames R P (Application f a) ↔ GoodNames R P f ∧ GoodNames R P a := by
  constructor
  · rintro ⟨h1, h2⟩
    exact ⟨⟨fun n hn => h1 n (by simp [referencedNames, hn]),
        fun q hq => h2 q (by simp [boundNames, hq])⟩,
      ⟨fun n hn => h1 n (by simp [referencedNames, hn]),
        fun q hq => h2 q (by simp [boundNames, hq])⟩⟩
  · rintro ⟨⟨hf1, hf2⟩, ⟨ha1, ha2⟩⟩
    constructor
    · intro n hn
      simp only [referencedNames, List.mem_append] at hn
      rcases hn with hn | hn
      · exact hf1 n hn
      · exact ha1 n hn
    · intro q hq
      simp only [boundNames, List.mem_append] at hq
      rcases hq with hq | hq
      · exact hf2 q hq
      · exact ha2 q hq

/-- The result of `substitute` has the references and the parameters of its arguments and
of the definitions, up to the digits that renaming appends to a parameter. -/
theorem substitute_goodNames (env : Environment) (R P : List String)
    (henv : ∀ entry ∈ env.definitions, GoodNames R P entry.2) :
    ∀ (fuel : Nat) (M : Expression) (x : String) (N r : Expression),
      substitute env fuel M x N = some r → GoodNames R P M → GoodNames R P N →
      GoodNames R P r := by
  intro fuel
  induction fuel with
  | zero => intro M x N r h; simp [substitute] at h
  | succ k ih =>
    intro M x N r h hM hN
    cases M with
    | Variable name =>
      have hr := substitute_variable_cases h
      by_cases hx : name = x
      · rw [if_pos hx] at hr; rw [hr]; exact hN
      · rw [if_neg hx] at hr; rw [hr]; exact hM
    | NamedReference name =>
      rcases substitute_reference_cases h with ⟨d, hl, hd⟩ | ⟨hl, hr⟩
      · exact ih d x N r hd (henv (name, d) (lookupIn_mem hl)) hN
      · by_cases hx : name = x
        · rw [if_pos hx] at hr; rw [hr]; exact hN
        · rw [if_neg hx] at hr; rw [hr]; exact hM
    | Abstraction p b =>
      obtain ⟨hp, hb⟩ := goodNames_abstraction.mp hM
      rcases substitute_abstraction_cases h with ⟨_, hr⟩ | ⟨_, sn, _, hcase⟩
      · rw [hr]; exact hM
      · rcases hcase with ⟨_, nb, hnb, hr⟩ | ⟨_, sm, rb, nb, _, hrb, hnb, hr⟩
        · rw [hr]
          exact goodNames_abstraction.mpr ⟨hp, ih b x N nb hnb hb hN⟩
        · rw [hr]
          have h1 := ih b p _ rb hrb hb (goodNames_variable R P _)
          have h2 := ih rb x N nb hnb h1 hN
          refine goodNames_abstraction.mpr ⟨?_, h2⟩
          obtain ⟨p0, hp0, hext⟩ := hp
          obtain ⟨ds, hds, hform⟩ := generateFreshVariable_form (sm ∪ sn) p
          refine ⟨p0, hp0, ?_⟩
          rw [hform]
          exact extendsByDigits_append _ _ _ hext hds
    | Application f a =>
      obtain ⟨hf, ha⟩ := goodNames_application.mp hM
      obtain ⟨nf, na, hnf, hna, hr⟩ := substitute_application_cases h
      rw [hr]
      exact goodNames_application.mpr ⟨ih f x N nf hnf hf hN, ih a x N na hna ha hN⟩

theorem reducer_goodNames (env : Environment) (R P : List String)
    (henv : ∀ entry ∈ env.definitions, GoodNames R P entry.2) :
    ∀ fuel : Nat,
      (∀ t r, betaReduce env fuel t = some r → GoodNames R P t → GoodNames R P r) ∧
      (∀ t r, evaluateNormalOrder env fuel t = some r → GoodNames R P t →
        GoodNames R P r) := by
  intro fuel
  induction fuel with
  | zero =>
    constructor
    · intro t r h; simp [betaReduce] at h
    · intro t r h; simp [evaluateNormalOrder] at h
  | succ k ih =>
    obtain ⟨ihB, ihE⟩ := ih
    constructor
    · intro t r h hT
      cases t with
      | Variable name =>
        simp only [betaReduce, Option.some.injEq] at h
        rw [← h]; exact hT
      | NamedReference name =>
        simp only [betaReduce] at h
        cases hl : env.lookup name with
        | none =>
          simp only [hl, Option.some.injEq] at h
          rw [← h]; exact goodNames_variable R P name
        | some d =>
          simp only [hl, Option.some.injEq] at h
          rw [← h]; exact henv (name, d) (lookupIn_mem hl)
      | Abstraction p b =>
        simp only [betaReduce] at h
        obtain ⟨hp, hb⟩ := goodNames_abstraction.mp hT
        cases he : evaluateNormalOrder env k b with
        | none => simp [he] at h
        | some eb =>
          simp only [he, Option.some.injEq] at h
          rw [← h]
          exact goodNames_abstraction.mpr ⟨hp, ihE b eb he hb⟩
      | Application f a =>
        obtain ⟨hf, ha⟩ := goodNames_application.mp hT
        cases f with
        | Abstraction p b =>
          simp only [betaReduce] at h
          exact substitute_goodNames env R P henv k b p a r h
            (goodNames_abstraction.mp hf).2 ha
        | Variable name =>
          simp only [betaReduce] at h
          cases h1 : evaluateNormalOrder env k (Variable name) with
          | none => simp [h1] at h
          | some ef =>
            cases h2 : evaluateNormalOrder env k a with
            | none => simp [h1, h2] at h
            | some ea =>
              simp only [h1, h2, Option.some.injEq] at h
              rw [← h]
              exact goodNames_application.mpr ⟨ihE _ _ h1 hf, ihE _ _ h2 ha⟩
        | NamedReference name =>
          simp only [betaReduce] at h
          cases h1 : evaluateNormalOrder env k (NamedReference name) with
          | none => simp [h1] at h
          | some ef =>
            cases h2 : evaluateNormalOrder env k a with
            | none => simp [h1, h2] at h
            | some ea =>
              simp only [h1, h2, Option.some.injEq] at h
              rw [← h]
              exact goodNames_application.mpr ⟨ihE _ _ h1 hf, ihE _ _ h2 ha⟩
        | Application f1 f2 =>
          simp only [betaReduce] at h
          cases h1 : evaluateNormalOrder env k (Application f1 f2) with
          | none => simp [h1] at h
          | some ef =>
            cases h2 : evaluateNormalOrder env k a with
            | none => simp [h1, h2] at h
            | some ea =>
              simp only [h1, h2, Option.some.injEq] at h
              rw [← h]
              exact goodNames_application.mpr ⟨ihE _ _ h1 hf, ihE _ _ h2 ha⟩
    · intro t r h hT
      simp only [evaluateNormalOrder] at h
      cases hn : isNormalForm env k t with
      | none => simp [hn] at h
      | some b =>
        cases b with
        | true =>
          simp only [hn, Option.some.injEq] at h
          rw [← h]; exact hT
        | false =>
          simp only [hn] at h
          cases hb : betaReduce env k t with
          | none => simp [hb] at h
          | some rb =>
            simp only [hb] at h
            exact ihE rb r h (ihB t rb hb hT)

theorem mem_collectNames {names : Expression → List String} {t : Expression}
    {terms : List Expression} {n : String} (ht : t ∈ terms) (hn : n ∈ names t) :
    n ∈ collectNames names terms := by
  induction terms with
  | nil => simp at ht
  | cons u rest ih =>
    simp only [collectNames, List.mem_append]
    rcases List.mem_cons.mp ht with rfl | ht
    · exact Or.inl hn
    · exact Or.inr (ih ht)

theorem goodNames_of_mem {t : Expression} {terms : List Expression} (ht : t ∈ terms) :
    GoodNames (collectNames referencedNames terms) (collectNames boundNames terms) t :=
  ⟨fun _ hn => mem_collectNames ht hn,
    fun q hq => ⟨q, mem_collectNames ht hq, extendsByDigits_self _⟩⟩

theorem shadowCaptured_of_disjoint (t : Expression) :
    ∀ binders : List String,
      (∀ n ∈ referencedNames t, n ∉ binders ∧ n ∉ boundNames t) →
      shadowCaptured binders t = false := by
  induction t with
  | Variable name => intro _ _; rfl
  | NamedReference name =>
    intro binders h
    simp only [shadowCaptured, decide_eq_false_iff_not]
    exact (h name (by simp [referencedNames])).1
  | Abstraction p b ih =>
    intro binders h
    simp only [shadowCaptured]
    apply ih
    intro n hn
    have := h n (by simpa [referencedNames] using hn)
    simp only [boundNames, List.mem_cons, not_or] at this ⊢
    exact ⟨⟨this.2.1, this.1⟩, this.2.2⟩
  | Application f a ihf iha =>
    intro binders h
    simp only [shadowCaptured, Bool.or_eq_false_iff]
    constructor
    · apply ihf
      intro n hn
      have := h n (by simp [referencedNames, hn])
      simp only [boundNames, List.mem_append, not_or] at this
      exact ⟨this.1, this.2.1⟩
    · apply iha
      intro n hn
      have := h n (by simp [referencedNames, hn])
      simp only [boundNames, List.mem_append, not_or] at this
      exact ⟨this.1, this.2.2⟩

/-- Under `separatedNames`, a term with the names of the given terms and definitions has
no reference with the name of one of its parameters. -/
theorem separated_goodNames {env : Environment} {terms : List Expression}
    (hsep : separatedNames env terms = true) {r : Expression}
    (hr : GoodNames (collectNames referencedNames (terms ++ env.definitions.map Prod.snd))
      (collectNames boundNames (terms ++ env.definitions.map Prod.snd)) r) :
    (∀ n ∈ referencedNames r, n ∉ boundNames r) ∧ shadowCaptured [] r = false := by
  have hdis : ∀ n ∈ referencedNames r, n ∉ boundNames r := by
    intro n hn hq
    obtain ⟨p, hp, hext⟩ := hr.2 n hq
    have hR := hr.1 n hn
    simp only [separatedNames, List.all_eq_true, Bool.not_eq_true'] at hsep
    rw [hsep n hR p hp] at hext
    exact absurd hext (by decide)
  exact ⟨hdis, shadowCaptured_of_disjoint r [] (fun n hn => ⟨by simp, hdis n hn⟩)⟩

theorem separated_env {env : Environment} (terms : List Expression) :
    ∀ entry ∈ env.definitions,
      GoodNames (collectNames referencedNames (terms ++ env.definitions.map Prod.snd))
        (collectNames boundNames (terms ++ env.definitions.map Prod.snd)) entry.2 := by
  intro entry hentry
  apply goodNames_of_mem
  exact List.mem_append_right _ (List.mem_map.mpr ⟨entry, hentry, rfl⟩)

theorem extendsByDigits_digits :
    ∀ q n : List Char, q.all isDecimalDigit = true → extendsByDigits q n = true →
      n.all isDecimalDigit = true := by
  intro q
  induction q with
  | nil => intro n _ h; simpa [extendsByDigits] using h
  | cons c cs ih =>
    intro n hq h
    cases n with
    | nil => simp [extendsByDigits] at h
    | cons d ds =>
      simp only [extendsByDigits, Bool.and_eq_true, beq_iff_eq] at h
      simp only [List.all_cons, Bool.and_eq_true] at hq ⊢
      exact ⟨h.1 ▸ hq.1, ih ds hq.2 h.2⟩

theorem extendsByDigits_trans :
    ∀ p q n : List Char, extendsByDigits p q = true → extendsByDigits q n = true →
      extendsByDigits p n = true := by
  intro p
  induction p with
  | nil =>
    intro q n hpq hqn
    simp only [extendsByDigits] at hpq ⊢
    exact extendsByDigits_digits q n hpq hqn
  | cons c cs ih =>
    intro q n hpq hqn
    cases q with
    | nil => simp [extendsByDigits] at hpq
    | cons d ds =>
      cases n with
      | nil => simp [extendsByDigits] at hqn
      | cons e es =>
        simp only [extendsByDigits, Bool.and_eq_true, beq_iff_eq] at hpq hqn ⊢
        exact ⟨hpq.1.trans hqn.1, ih ds es hpq.2 hqn.2⟩

theorem collectNames_append (names : Expression → List String)
    (front back : List Expression) :
    collectNames names (front ++ back) = collectNames names front ++ collectNames names back := by
  induction front with
  | nil => rfl
  | cons t rest ih => simp [collectNames, ih]

/-- Under `separatedNames`, a term with the names of the given terms and definitions is
itself separated from the definitions. -/
theorem separated_result {env : Environment} {terms : List Expression}
    (hsep : separatedNames env terms = true) {r : Expression}
    (hr : GoodNames (collectNames referencedNames (terms ++ env.definitions.map Prod.snd))
      (collectNames boundNames (terms ++ env.definitions.map Prod.snd)) r) :
    separatedNames env [r] = true := by
  simp only [separatedNames, List.all_eq_true, Bool.not_eq_true'] at hsep ⊢
  intro n hn q hq
  have hR : n ∈ collectNames referencedNames (terms ++ env.definitions.map Prod.snd) := by
    rw [collectNames_append] at hn
    rcases List.mem_append.mp hn with h | h
    · exact hr.1 n (by simpa [collectNames] using h)
    · rw [collectNames_append]
      exact List.mem_append_right _ h
  have hP : ∃ p ∈ collectNames boundNames (terms ++ env.definitions.map Prod.snd),
      extendsByDigits p.data q.data = true := by
    rw [collectNames_append] at hq
    rcases List.mem_append.mp hq with h | h
    · exact hr.2 q (by simpa [collectNames] using h)
    · exact ⟨q, by rw [collectNames_append]; exact List.mem_append_right _ h,
        extendsByDigits_self _⟩
  obtain ⟨p, hp, hext⟩ := hP
  cases hqn : extendsByDigits q.data n.data with
  | false => rfl
  | true =>
    have := extendsByDigits_trans _ _ _ hext hqn
    rw [hsep n hR p hp] at this
    exact absurd this (by decide)

/-! ## The claims -/

/-- Claim C1 (substitute against textbook substitution; the code departs from the claim).
For `M = λy.y`, `x = y1` and `N = y`, all without references and in the empty environment,
`substitute` returns `λy1.y`, in which `y` is free, while the textbook substitution
`M[x := N]` is `λy.y`; the two are not alpha-equivalent (though `λz.z` and `λy.y` are),
and the beta step on `(λy1.λy.y) y` returns that same `λy1.y`. -/
theorem C1_substitute_not_capture_avoiding :
    substitute emptyEnv 3 (Abstraction "y" (Variable "y")) "y1" (Variable "y") =
        some (Abstraction "y1" (Variable "y")) ∧
      textbookSubst (Abstraction "y" (Variable "y")) "y1" (Variable "y") =
        Abstraction "y" (Variable "y") ∧
      alphaEquivalent (Abstraction "y1" (Variable "y")) (Abstraction "y" (Variable "y")) =
        false ∧
      alphaEquivalent (Abstraction "z" (Variable "z")) (Abstraction "y" (Variable "y")) =
        true ∧
      betaReduce emptyEnv 4
          (Application (Abstraction "y1" (Abstraction "y" (Variable "y"))) (Variable "y")) =
        some (Abstraction "y1" (Variable "y")) ∧
      BetaStep (Application (Abstraction "y1" (Abstraction "y" (Variable "y"))) (Variable "y"))
        (Abstraction "y" (Variable "y")) := by
  refine ⟨by decide, by decide, by decide, by decide, by decide, ?_⟩
  exact BetaStep.beta "y1" (Abstraction "y" (Variable "y")) (Variable "y")

/-- Claim C2 (free-variable soundness): whenever `substitute(M, x, N)` returns `r` and the
free-variable analysis returns `sM` on `M` and `sN` on `N`, the analysis also returns on
`r`, and every set it returns on `r` is a subset of `(sM \ {x}) ∪ sN`. -/
theorem C2_free_variable_soundness (env : Environment) (fuel fM fN : Nat) (M : Expression)
    (x : String) (N r : Expression) (sM sN : Finset String)
    (hsub : substitute env fuel M x N = some r)
    (hM : getFreeVariables env fM M = some sM)
    (hN : getFreeVariables env fN N = some sN) :
    (∃ fR sR, getFreeVariables env fR r = some sR) ∧
      ∀ fR sR, getFreeVariables env fR r = some sR → sR ⊆ (sM \ {x}) ∪ sN := by
  obtain ⟨sr, ⟨fR, hfR⟩, hsubset⟩ := substitute_freeVars env fuel M x N r sM sN hsub ⟨fM, hM⟩ ⟨fN, hN⟩
  refine ⟨⟨fR, sr, hfR⟩, ?_⟩
  intro fR' sR hR
  have : sR = sr := freeVars_unique ⟨fR', hR⟩ ⟨fR, hfR⟩
  subst this
  rwa [Finset.sdiff_singleton_eq_erase]

/-- Witness for C2: with `foo = λy.x`, substituting `y` for `x` in the reference `foo`
gives `λy1.y`, whose free variables lie in `({x} \ {x}) ∪ {y}`. -/
theorem C2_free_variable_soundness_witness :
    (∃ fR sR, getFreeVariables fooEnv fR (Abstraction "y1" (Variable "y")) = some sR) ∧
      ∀ fR sR, getFreeVariables fooEnv fR (Abstraction "y1" (Variable "y")) = some sR →
        sR ⊆ (({"x"} : Finset String) \ {"x"}) ∪ {"y"} :=
  C2_free_variable_soundness fooEnv 4 3 1 (NamedReference "foo") "x" (Variable "y")
    (Abstraction "y1" (Variable "y")) {"x"} {"y"} (by decide) (by decide) (by decide)

/-- Claim C3 (no capture): whenever `substitute(M, x, N)` returns `r`, the free-variable
analysis returns `sM` on `M` and `sN` on `N`, and `x` is in `sM`, the analysis returns on
`r` and every set it returns on `r` contains `sN`. -/
theorem C3_no_capture (env : Environment) (fuel fM fN : Nat) (M : Expression)
    (x : String) (N r : Expression) (sM sN : Finset String)
    (hsub : substitute env fuel M x N = some r)
    (hM : getFreeVariables env fM M = some sM)
    (hN : getFreeVariables env fN N = some sN)
    (hx : x ∈ sM) :
    (∃ fR sR, getFreeVariables env fR r = some sR) ∧
      ∀ fR sR, getFreeVariables env fR r = some sR → sN ⊆ sR := by
  obtain ⟨sr, ⟨fR, hfR⟩, _⟩ := substitute_freeVars env fuel M x N r sM sN hsub ⟨fM, hM⟩ ⟨fN, hN⟩
  refine ⟨⟨fR, sr, hfR⟩, ?_⟩
  intro fR' sR hR
  exact substitute_no_capture env fuel M x N r sM sN sR hsub ⟨fM, hM⟩ ⟨fN, hN⟩ ⟨fR', hR⟩ hx

/-- Witness for C3: substituting `y z` for `x` in `λy.(x y)` gives `λy1.((y z) y1)`, in
which `y` and `z` are still free. -/
theorem C3_no_capture_witness :
    (∃ fR sR, getFreeVariables emptyEnv fR
        (Abstraction "y1" (Application (Application (Variable "y") (Variable "z"))
          (Variable "y1"))) = some sR) ∧
      ∀ fR sR, getFreeVariables emptyEnv fR
        (Abstraction "y1" (Application (Application (Variable "y") (Variable "z"))
          (Variable "y1"))) = some sR → ({"y", "z"} : Finset String) ⊆ sR :=
  C3_no_capture emptyEnv 4 3 2
    (Abstraction "y" (Application (Variable "x") (Variable "y"))) "x"
    (Application (Variable "y") (Variable "z"))
    (Abstraction "y1" (Application (Application (Variable "y") (Variable "z")) (Variable "y1")))
    {"x"} {"y", "z"} (by decide) (by decide) (by decide) (by decide)

/-- Claim C4 (normal order is normalizing; the code departs from the claim).  The term
`((λa.a) (λx.λy.y)) ((λx.((x x) x)) (λx.((x x) x)))` has no reference and reaches the
redex-free term `λy.y` in two beta steps, yet `evaluateNormalOrder` returns on it at no
recursion depth: the single step evaluates the argument of an application whose function
is not yet an abstraction, and that argument has no normal form. -/
theorem C4_normal_order_not_normalizing :
    namedReferenceFree discardsDivergent = true ∧
      Relation.ReflTransGen BetaStep discardsDivergent (Abstraction "y" (Variable "y")) ∧
      hasRedex (Abstraction "y" (Variable "y")) = false ∧
      ∀ env fuel, evaluateNormalOrder env fuel discardsDivergent = none := by
  refine ⟨by decide, ?_, by decide, discardsDivergent_diverges⟩
  have h1 : BetaStep discardsDivergent
      (Application (Abstraction "x" (Abstraction "y" (Variable "y")))
        (Application selfApplication3 selfApplication3)) :=
    BetaStep.function (BetaStep.beta "a" (Variable "a")
      (Abstraction "x" (Abstraction "y" (Variable "y"))))
  have h2 : BetaStep
      (Application (Abstraction "x" (Abstraction "y" (Variable "y")))
        (Application selfApplication3 selfApplication3))
      (Abstraction "y" (Variable "y")) := by
    have := BetaStep.beta "x" (Abstraction "y" (Variable "y"))
      (Application selfApplication3 selfApplication3)
    have e : textbookSubst (Abstraction "y" (Variable "y")) "x"
        (Application selfApplication3 selfApplication3) = Abstraction "y" (Variable "y") := by
      decide
    rwa [e] at this
  exact Relation.ReflTransGen.head h1 (Relation.ReflTransGen.single h2)

/-- Claim C5 (alpha safety): when `p ≠ x` and `p` is free in `N`, every result of
`substitute(λp.B, x, N)` is an abstraction whose parameter is
`generateFreshVariable(FV(λp.B) ∪ FV(N), p)`, a name different from `p` and not free in
`N`; the call returns when `B` and `N` have no reference; `substitute(λy.x, x, y)` is
`λy1.y`, and evaluating `(λx.λy.x) y` prints `λy1.y`. -/
theorem C5_alpha_safety (env : Environment) (p x : String) (B N : Expression)
    (fN : Nat) (sN : Finset String) (hx : x ≠ p)
    (hN : getFreeVariables env fN N = some sN) (hp : p ∈ sN) :
    (∀ fuel r, substitute env fuel (Abstraction p B) x N = some r →
      ∃ fM sM body, getFreeVariables env fM (Abstraction p B) = some sM ∧
        r = Abstraction (generateFreshVariable (sM ∪ sN) p) body ∧
        generateFreshVariable (sM ∪ sN) p ≠ p ∧
        generateFreshVariable (sM ∪ sN) p ∉ sN) ∧
    (namedReferenceFree B = true → namedReferenceFree N = true →
      ∃ fuel r, substitute env fuel (Abstraction p B) x N = some r) ∧
    substitute emptyEnv 3 (Abstraction "y" (Variable "x")) "x" (Variable "y") =
      some (Abstraction "y1" (Variable "y")) ∧
    (evaluateNormalOrder emptyEnv 7
      (Application (Abstraction "x" (Abstraction "y" (Variable "x"))) (Variable "y"))).map
        Expression.toString = some "λy1.y" := by
  refine ⟨?_, ?_, by decide, by decide⟩
  · intro fuel r h
    cases fuel with
    | zero => simp [substitute] at h
    | succ k =>
      rcases substitute_abstraction_cases h with ⟨hpx, _⟩ | ⟨_, sn, hsn, hcase⟩
      · exact absurd hpx.symm hx
      · have e : sn = sN := freeVars_unique ⟨k, hsn⟩ ⟨fN, hN⟩
        subst e
        rcases hcase with ⟨hmem, _⟩ | ⟨_, sm, rb, nb, hsm, _, _, hr⟩
        · exact absurd hp hmem
        · have hfresh := generateFreshVariable_not_mem (sm ∪ sn) p
          refine ⟨k, sm, nb, hsm, hr, ?_, ?_⟩
          · intro e
            apply hfresh
            rw [e]
            exact Finset.mem_union_right _ hp
          · intro hmem
            exact hfresh (Finset.mem_union_right _ hmem)
  · intro hB hNfree
    obtain ⟨r, fuel, hr⟩ := substitutes_total env (Abstraction p B) x N
      (by simpa [namedReferenceFree] using hB) hNfree
    exact ⟨fuel, r, hr⟩

/-- Witness for C5: `λy.x` with `y` substituted for `x`. -/
theorem C5_alpha_safety_witness :
    (∀ fuel r, substitute emptyEnv fuel (Abstraction "y" (Variable "x")) "x" (Variable "y") =
        some r →
      ∃ fM sM body,
        getFreeVariables emptyEnv fM (Abstraction "y" (Variable "x")) = some sM ∧
        r = Abstraction (generateFreshVariable (sM ∪ {"y"}) "y") body ∧
        generateFreshVariable (sM ∪ {"y"}) "y" ≠ "y" ∧
        generateFreshVariable (sM ∪ {"y"}) "y" ∉ ({"y"} : Finset String)) ∧
    (namedReferenceFree (Variable "x") = true → namedReferenceFree (Variable "y") = true →
      ∃ fuel r, substitute emptyEnv fuel (Abstraction "y" (Variable "x")) "x" (Variable "y") =
        some r) ∧
    substitute emptyEnv 3 (Abstraction "y" (Variable "x")) "x" (Variable "y") =
      some (Abstraction "y1" (Variable "y")) ∧
    (evaluateNormalOrder emptyEnv 7
      (Application (Abstraction "x" (Abstraction "y" (Variable "x"))) (Variable "y"))).map
        Expression.toString = some "λy1.y" :=
  C5_alpha_safety emptyEnv "y" "x" (Variable "x") (Variable "y") 1 {"y"} (by decide)
    (by decide) (by decide)

/-- Claim C6 (the self-application term; the code departs from the claim).  On
`(λx.(x x)) (λx.(x x))` the single step returns the term itself, so `isNormalForm`
answers `true` and `evaluateNormalOrder` returns the term at every recursion depth from
five on, in every environment. -/
theorem C6_self_application_returns (env : Environment) (k : Nat) :
    betaReduce env (k + 3) (Application selfApplication selfApplication) =
        some (Application selfApplication selfApplication) ∧
      isNormalForm env (k + 4) (Application selfApplication selfApplication) = some true ∧
      evaluateNormalOrder env (k + 5) (Application selfApplication selfApplication) =
        some (Application selfApplication selfApplication) :=
  ⟨@betaReduce_mono env 3 (k + 3) _ _ rfl (by omega),
    @isNormalForm_mono env 4 (k + 4) _ _ rfl (by omega),
    @evaluateNormalOrder_mono env 5 (k + 5) _ _ rfl (by omega)⟩

/-- Claim C7 (Church addition): with `plus` bound to `λm.λn.λf.λx.((m f) ((n f) x))`, and
`M`, `N` standing for the Church numerals `m` and `n` (literally, or as references under
an identifier), `evaluateNormalOrder` returns on `(plus M) N` at some recursion depth,
and the canonical string of the result is that of the Church numeral `m + n`. -/
theorem C7_church_addition (env : Environment) (m n : Nat) (M N : Expression)
    (hplus : env.lookup "plus" = some plusDefinition)
    (hM : DenotesNumeral env M m) (hN : DenotesNumeral env N n) :
    ∃ fuel r,
      evaluateNormalOrder env fuel
        (Application (Application (NamedReference "plus") M) N) = some r ∧
      r.toString = (churchNumeral (m + n)).toString := by
  obtain ⟨fuel, h⟩ := evaluates_plus hplus hM hN
  exact ⟨fuel, _, h, rfl⟩

/-- Witness for C7: `plus one one` prints `λf.λx.(f (f x))`. -/
theorem C7_church_addition_witness :
    ∃ fuel r,
      evaluateNormalOrder scenarioEnv fuel
        (Application (Application (NamedReference "plus") (NamedReference "one"))
          (NamedReference "one")) = some r ∧
      r.toString = "λf.λx.(f (f x))" :=
  C7_church_addition scenarioEnv 1 1 (NamedReference "one") (NamedReference "one")
    (by decide) (Or.inr ⟨"one", rfl, by decide, by decide⟩)
    (Or.inr ⟨"one", rfl, by decide, by decide⟩)

/-- Claim C8 (Church successor): with `succ` bound to `λn.λf.λx.(f ((n f) x))` and `N`
standing for the Church numeral `n`, `evaluateNormalOrder` returns on `succ N` at some
recursion depth, and the canonical string of the result is that of the Church numeral
`n + 1`. -/
theorem C8_church_successor (env : Environment) (n : Nat) (N : Expression)
    (hsucc : env.lookup "succ" = some succDefinition) (hN : DenotesNumeral env N n) :
    ∃ fuel r,
      evaluateNormalOrder env fuel (Application (NamedReference "succ") N) = some r ∧
      r.toString = (churchNumeral (n + 1)).toString := by
  obtain ⟨fuel, h⟩ := evaluates_succ hsucc hN
  exact ⟨fuel, _, h, rfl⟩

/-- Witness for C8: `succ zero` prints `λf.λx.(f x)`. -/
theorem C8_church_successor_witness :
    ∃ fuel r,
      evaluateNormalOrder scenarioEnv fuel
        (Application (NamedReference "succ") (NamedReference "zero")) = some r ∧
      r.toString = "λf.λx.(f x)" :=
  C8_church_successor scenarioEnv 0 (NamedReference "zero") (by decide)
    (Or.inr ⟨"zero", rfl, by decide, by decide⟩)

/-- Claim C9 (identity application): when `evaluateNormalOrder` returns `r` on `t`, it
returns the same `r`, hence the same canonical string, on `(λx.x) t`, and on `name t` for
every identifier `name` bound to `λx.x`. -/
theorem C9_identity_application (env : Environment) (fuel : Nat) (t r : Expression)
    (h : evaluateNormalOrder env fuel t = some r) :
    (∃ fuel', evaluateNormalOrder env fuel' (Application identityDefinition t) = some r) ∧
      (∀ name, isIdentifier name = true → env.lookup name = some identityDefinition →
        ∃ fuel', evaluateNormalOrder env fuel' (Application (NamedReference name) t) =
          some r) ∧
      (evaluateNormalOrder emptyEnv 4
        (Application identityDefinition (Variable "y"))).map Expression.toString =
          some "y" ∧
      (evaluateNormalOrder scenarioEnv 10
        (Application (NamedReference "id") (NamedReference "id"))).map Expression.toString =
          some "λx.x" := by
  have ht : Evaluates env t r := ⟨fuel, h⟩
  refine ⟨evaluates_identity_applied ht, ?_, by decide, by decide⟩
  intro name hid hl
  have hI : Evaluates env (NamedReference name) identityDefinition :=
    evaluates_reference hid hl _ _ rfl (by decide) (by decide)
  have h1 : Reduces env (Application (NamedReference name) t)
      (Application identityDefinition r) :=
    reduces_application (fun p b e => by cases e) hI ht
  exact evaluates_step h1 (reference_application_toString_ne hid _ _ _ _)
    (evaluates_identity_applied (evaluates_idempotent ht))

/-- Witness for C9: the reference `id`, which evaluates to `λx.x`, under `λx.x` and
under `id`. -/
theorem C9_identity_application_witness :
    (∃ fuel', evaluateNormalOrder scenarioEnv fuel'
        (Application identityDefinition (NamedReference "id")) = some identityDefinition) ∧
      (∀ name, isIdentifier name = true → scenarioEnv.lookup name = some identityDefinition →
        ∃ fuel', evaluateNormalOrder scenarioEnv fuel'
          (Application (NamedReference name) (NamedReference "id")) =
            some identityDefinition) ∧
      (evaluateNormalOrder emptyEnv 4
        (Application identityDefinition (Variable "y"))).map Expression.toString =
          some "y" ∧
      (evaluateNormalOrder scenarioEnv 10
        (Application (NamedReference "id") (NamedReference "id"))).map Expression.toString =
          some "λx.x" :=
  C9_identity_application scenarioEnv 8 (NamedReference "id") identityDefinition (by decide)

/-- Claim C10 (shadowing): at every recursion depth of at least one, in every environment,
`substitute(λx.B, x, N)` returns `λx.B` itself. -/
theorem C10_shadowing (env : Environment) (k : Nat) (x : String) (B N : Expression) :
    substitute env (k + 1) (Abstraction x B) x N = some (Abstraction x B) := by
  simp [substitute]

/-- Claim C11 (fresh-name generation): for every finite avoidance set `S` and hint `h`,
the loop of `generateFreshVariable(S, h)` ends within its `|S| + 1` iterations with a name
outside `S`; the name is `h` when `h ∉ S`, and otherwise `h` followed by the decimal
numeral, without leading zero, of the smallest positive `k` for which `h + str(k) ∉ S`
(such a `k` is at most `|S| + 1`). -/
theorem C11_fresh_name_generation (S : Finset String) (h : String) :
    generateFreshVariable S h ∉ S ∧
      (h ∉ S → generateFreshVariable S h = h) ∧
      (h ∈ S → ∃ k, 1 ≤ k ∧ k ≤ S.card + 1 ∧
        generateFreshVariable S h = h ++ Nat.repr k ∧
        h ++ Nat.repr k ∉ S ∧
        (∀ j, 1 ≤ j → j < k → h ++ Nat.repr j ∈ S) ∧
        (∀ c ∈ (Nat.repr k).data, '0' ≤ c ∧ c ≤ '9') ∧
        decimalValue 0 (Nat.repr k).data = k ∧
        ∃ c rest, (Nat.repr k).data = c :: rest ∧ c ≠ '0') := by
  have hfresh := generateFreshVariable_not_mem S h
  have hfirst := generateFreshVariableLoop_first S h (S.card + 1) 0 h hfresh
  refine ⟨hfresh, ?_, ?_⟩
  · intro hh
    rcases hfirst with ⟨_, heq⟩ | ⟨hin, _⟩
    · exact heq
    · exact absurd hin hh
  · intro hh
    rcases hfirst with ⟨hnot, _⟩ | ⟨_, k, hk1, hk2, heq, hall⟩
    · exact absurd hh hnot
    · have hrepr := repr_decimal k
      refine ⟨k, hk1, by omega, heq, ?_, fun j h1 h2 => hall j (by omega) h2, hrepr.1,
        hrepr.2.1, hrepr.2.2 (by omega)⟩
      have := hfresh
      unfold generateFreshVariable at this
      rwa [heq] at this

/-- Witness for C11: with `y` and `y1` taken, the name generated from the hint `y` is
`y2`, and with the hint `z` it is `z`. -/
theorem C11_fresh_name_generation_witness :
    generateFreshVariable {"y", "y1"} "y" = "y2" ∧
      generateFreshVariable {"y", "y1"} "z" = "z" ∧
      (generateFreshVariable {"y", "y1"} "y" ∉ ({"y", "y1"} : Finset String) ∧
      ("y" ∉ ({"y", "y1"} : Finset String) → generateFreshVariable {"y", "y1"} "y" = "y") ∧
      ("y" ∈ ({"y", "y1"} : Finset String) → ∃ k, 1 ≤ k ∧
        k ≤ ({"y", "y1"} : Finset String).card + 1 ∧
        generateFreshVariable {"y", "y1"} "y" = "y" ++ Nat.repr k ∧
        "y" ++ Nat.repr k ∉ ({"y", "y1"} : Finset String) ∧
        (∀ j, 1 ≤ j → j < k → "y" ++ Nat.repr j ∈ ({"y", "y1"} : Finset String)) ∧
        (∀ c ∈ (Nat.repr k).data, '0' ≤ c ∧ c ≤ '9') ∧
        decimalValue 0 (Nat.repr k).data = k ∧
        ∃ c rest, (Nat.repr k).data = c :: rest ∧ c ≠ '0')) :=
  ⟨by decide, by decide, C11_fresh_name_generation {"y", "y1"} "y"⟩

/-- Claim C12 (parser name resolution): in every term that `Parser::parse` returns, each
`NamedReference` carries a name that is defined in the environment of the parser and each
`Variable` a name that is not; parameters are not looked up. -/
theorem C12_parser_name_resolution (lit : LambdaLiteral) (env : Environment) (fuel : Nat)
    (input : String) (t : Expression) (h : parse lit env fuel input = Outcome.ok t) :
    namesResolved env t = true :=
  parse_namesResolved h

/-- Witness for C12: `plus n one` in the environment of the scenarios. -/
theorem C12_parser_name_resolution_witness :
    namesResolved scenarioEnv
      (Application (Application (NamedReference "plus") (Variable "n"))
        (NamedReference "one")) = true :=
  C12_parser_name_resolution truncatedLambda scenarioEnv 20 "plus n one" _ (by decide)

/-- Counterexample to C13: with `zero` defined, the input `\zero.zero` is parsed to
`λzero.zero` whose body is the `NamedReference`; with `p = λz.z`, the input
`(\x.\p.x) p` is parsed to a term without such a reference, on which the single step
returns `λp.p` with the `NamedReference` `p` below the parameter `p`; and with
`y1 = λz.z`, the input `(\x.\y.x) (y y1)` is parsed to a term without such a reference,
on which the single step renames `y` to `y1` and returns `λy1.(y y1)` with the
`NamedReference` `y1` below the parameter `y1`.  In the first the parameter is a defined
name, in the two others a reference carries the name of a parameter, or of a parameter
followed by a digit. -/
theorem C13_shadow_captured_reference :
    parse truncatedLambda scenarioEnv 20 "\\zero.zero" =
        Outcome.ok (Abstraction "zero" (NamedReference "zero")) ∧
      shadowCaptured [] (Abstraction "zero" (NamedReference "zero")) = true ∧
      parse truncatedLambda closedDefinitionEnv 20 "(\\x.\\p.x) p" =
        Outcome.ok (Application (Abstraction "x" (Abstraction "p" (Variable "x")))
          (NamedReference "p")) ∧
      shadowCaptured [] (Application (Abstraction "x" (Abstraction "p" (Variable "x")))
          (NamedReference "p")) = false ∧
      betaReduce closedDefinitionEnv 5
        (Application (Abstraction "x" (Abstraction "p" (Variable "x")))
          (NamedReference "p")) = some (Abstraction "p" (NamedReference "p")) ∧
      shadowCaptured [] (Abstraction "p" (NamedReference "p")) = true ∧
      parse truncatedLambda freshNameEnv 20 "(\\x.\\y.x) (y y1)" =
        Outcome.ok (Application (Abstraction "x" (Abstraction "y" (Variable "x")))
          (Application (Variable "y") (NamedReference "y1"))) ∧
      shadowCaptured [] (Application (Abstraction "x" (Abstraction "y" (Variable "x")))
          (Application (Variable "y") (NamedReference "y1"))) = false ∧
      betaReduce freshNameEnv 6
        (Application (Abstraction "x" (Abstraction "y" (Variable "x")))
          (Application (Variable "y") (NamedReference "y1"))) =
        some (Abstraction "y1" (Application (Variable "y") (NamedReference "y1"))) ∧
      shadowCaptured []
        (Abstraction "y1" (Application (Variable "y") (NamedReference "y1"))) = true ∧
      scenarioEnv.isDefined "zero" = true ∧
      separatedNames closedDefinitionEnv
        [Application (Abstraction "x" (Abstraction "p" (Variable "x")))
          (NamedReference "p")] = false ∧
      separatedNames freshNameEnv
        [Application (Abstraction "x" (Abstraction "y" (Variable "x")))
          (Application (Variable "y") (NamedReference "y1"))] = false := by
  refine ⟨by decide, by decide, by decide, by decide, by decide, by decide, by decide,
    by decide, by decide, by decide, by decide, by decide, by decide⟩

/-- Claim C13 as amended: a term that `Parser::parse` returns and none of whose parameters
is defined in the environment of the parser has no `NamedReference` with the name of an
enclosing parameter.  When, among the terms given and the definitions of the environment,
no name of a `NamedReference` is a parameter or a parameter followed by decimal digits
(the names that renaming can give a parameter), every term that `substitute`,
`betaReduce` and `evaluateNormalOrder` return is again such a term, so that the steps can
be repeated, and it has no `NamedReference` with the name of any of its parameters,
enclosing or not.  And on terms without any `NamedReference` the three return terms
without any. -/
theorem C13_no_shadow_captured_reference (lit : LambdaLiteral) (env : Environment) :
    (∀ fuel input t, parse lit env fuel input = Outcome.ok t →
      (∀ p ∈ boundNames t, env.isDefined p = false) → shadowCaptured [] t = false) ∧
    (∀ fuel M x N r, separatedNames env [M, N] = true →
      substitute env fuel M x N = some r →
      separatedNames env [r] = true ∧ (∀ n ∈ referencedNames r, n ∉ boundNames r) ∧
        shadowCaptured [] r = false) ∧
    (∀ fuel t r, separatedNames env [t] = true → betaReduce env fuel t = some r →
      separatedNames env [r] = true ∧ (∀ n ∈ referencedNames r, n ∉ boundNames r) ∧
        shadowCaptured [] r = false) ∧
    (∀ fuel t r, separatedNames env [t] = true → evaluateNormalOrder env fuel t = some r →
      separatedNames env [r] = true ∧ (∀ n ∈ referencedNames r, n ∉ boundNames r) ∧
        shadowCaptured [] r = false) ∧
    (∀ fuel M x N r, namedReferenceFree M = true → namedReferenceFree N = true →
      substitute env fuel M x N = some r →
      namedReferenceFree r = true ∧ shadowCaptured [] r = false) ∧
    (∀ fuel t r, namedReferenceFree t = true → betaReduce env fuel t = some r →
      namedReferenceFree r = true ∧ shadowCaptured [] r = false) ∧
    (∀ fuel t r, namedReferenceFree t = true → evaluateNormalOrder env fuel t = some r →
      namedReferenceFree r = true ∧ shadowCaptured [] r = false) := by
  refine ⟨?_, ?_, ?_, ?_, ?_, ?_, ?_⟩
  · intro fuel input t h hp
    exact shadowCaptured_resolved env t [] (parse_namesResolved h) (by simp) hp
  · intro fuel M x N r hsep h
    have hr := substitute_goodNames env _ _ (separated_env [M, N]) fuel M x N r h
      (goodNames_of_mem (by simp)) (goodNames_of_mem (by simp))
    exact ⟨separated_result hsep hr, separated_goodNames hsep hr⟩
  · intro fuel t r hsep h
    have hr := (reducer_goodNames env _ _ (separated_env [t]) fuel).1 t r h
      (goodNames_of_mem (by simp))
    exact ⟨separated_result hsep hr, separated_goodNames hsep hr⟩
  · intro fuel t r hsep h
    have hr := (reducer_goodNames env _ _ (separated_env [t]) fuel).2 t r h
      (goodNames_of_mem (by simp))
    exact ⟨separated_result hsep hr, separated_goodNames hsep hr⟩
  · intro fuel M x N r hM hN h
    have := substitute_referenceFree h hM hN
    exact ⟨this, shadowCaptured_referenceFree [] r this⟩
  · intro fuel t r ht h
    have := (reducer_referenceFree env fuel).1 t r h ht
    exact ⟨this, shadowCaptured_referenceFree [] r this⟩
  · intro fuel t r ht h
    have := (reducer_referenceFree env fuel).2 t r h ht
    exact ⟨this, shadowCaptured_referenceFree [] r this⟩

/-- Witness for the amended C13: `(\x.plus x one) two` in the environment of the
scenarios, parsed, substituted in, stepped and evaluated; and the rewriting of
`(λx.λy.x) y`, which has no reference. -/
theorem C13_no_shadow_captured_reference_witness :
    shadowCaptured [] sumRedex = false ∧
      (separatedNames scenarioEnv [sumReduct] = true ∧
        (∀ n ∈ referencedNames sumReduct, n ∉ boundNames sumReduct) ∧
        shadowCaptured [] sumReduct = false) ∧
      (separatedNames scenarioEnv [sumReduct] = true ∧
        (∀ n ∈ referencedNames sumReduct, n ∉ boundNames sumReduct) ∧
        shadowCaptured [] sumReduct = false) ∧
      (separatedNames scenarioEnv [churchNumeral 3] = true ∧
        (∀ n ∈ referencedNames (churchNumeral 3), n ∉ boundNames (churchNumeral 3)) ∧
        shadowCaptured [] (churchNumeral 3) = false) ∧
      (namedReferenceFree (Abstraction "y1" (Variable "y")) = true ∧
        shadowCaptured [] (Abstraction "y1" (Variable "y")) = false) ∧
      (namedReferenceFree (Abstraction "y1" (Variable "y")) = true ∧
        shadowCaptured [] (Abstraction "y1" (Variable "y")) = false) ∧
      (namedReferenceFree (Abstraction "y1" (Variable "y")) = true ∧
        shadowCaptured [] (Abstraction "y1" (Variable "y")) = false) :=
  ⟨(C13_no_shadow_captured_reference truncatedLambda scenarioEnv).1 20
      "(\\x.plus x one) two" sumRedex (by decide) (by decide),
    (C13_no_shadow_captured_reference truncatedLambda scenarioEnv).2.1 12
      (Application (Application (NamedReference "plus") (Variable "x")) (NamedReference "one"))
      "x" (NamedReference "two") sumReduct (by decide) (by decide),
    (C13_no_shadow_captured_reference truncatedLambda scenarioEnv).2.2.1 13 sumRedex
      sumReduct (by decide) (by decide),
    (C13_no_shadow_captured_reference truncatedLambda scenarioEnv).2.2.2.1 36 sumRedex
      (churchNumeral 3) (by decide) (by decide),
    (C13_no_shadow_captured_reference truncatedLambda scenarioEnv).2.2.2.2.1 3
      (Abstraction "y" (Variable "x")) "x" (Variable "y") _ (by decide) (by decide)
      (by decide),
    (C13_no_shadow_captured_reference truncatedLambda scenarioEnv).2.2.2.2.2.1 4
      (Application (Abstraction "x" (Abstraction "y" (Variable "x"))) (Variable "y")) _
      (by decide) (by decide),
    (C13_no_shadow_captured_reference truncatedLambda scenarioEnv).2.2.2.2.2.2 7
      (Application (Abstraction "x" (Abstraction "y" (Variable "x"))) (Variable "y")) _
      (by decide) (by decide)⟩

/-- Claim C14 (environment define and lookup): after `define(n, t)`, `lookup(n)` returns
`t` whatever `n` was bound to before and `isDefined(n)` is true; for every `m ≠ n`,
`lookup(m)` and `isDefined(m)` are what they were; and in every environment
`isDefined(m)` is true exactly when `lookup(m)` returns a term. -/
theorem C14_environment_define_lookup (env : Environment) (n m : String) (t : Expression) :
    (env.define n t).lookup n = some t ∧
      (env.define n t).isDefined n = true ∧
      (m ≠ n → (env.define n t).lookup m = env.lookup m ∧
        (env.define n t).isDefined m = env.isDefined m) ∧
      (env.isDefined m = true ↔ ∃ d, env.lookup m = some d) := by
  refine ⟨lookupIn_defineIn_same _ _ _, ?_, ?_, ?_⟩
  · simp [Environment.isDefined, Environment.define, lookupIn_defineIn_same]
  · intro h
    simp [Environment.isDefined, Environment.define, Environment.lookup,
      lookupIn_defineIn_other _ _ h]
  · simp [Environment.isDefined, Environment.lookup, Option.isSome_iff_exists]

/-- Witness for C14: re-defining `zero` in the environment of the scenarios. -/
theorem C14_environment_define_lookup_witness :
    (scenarioEnv.define "zero" identityDefinition).lookup "zero" = some identityDefinition ∧
      (scenarioEnv.define "zero" identityDefinition).isDefined "zero" = true ∧
      ("one" ≠ "zero" →
        (scenarioEnv.define "zero" identityDefinition).lookup "one" = scenarioEnv.lookup "one" ∧
        (scenarioEnv.define "zero" identityDefinition).isDefined "one" =
          scenarioEnv.isDefined "one") ∧
      (scenarioEnv.isDefined "one" = true ↔ ∃ d, scenarioEnv.lookup "one" = some d) :=
  C14_environment_define_lookup scenarioEnv "zero" "one" identityDefinition

/-- Counterexample to C15: the parser reads `a_b` as one identifier, which the grammar
`[A-Za-z_][A-Za-z0-9]*` does not match. -/
theorem C15_underscore_inside_identifier :
    parse truncatedLambda emptyEnv 20 "a_b" = Outcome.ok (Variable "a_b") ∧
      matchesSpecIdentifier "a_b" = false ∧
      matchesSpecIdentifier "ab" = true := by
  refine ⟨by decide, by decide, by decide⟩

/-- Claim C15 as amended: every name in a term that `Parser::parse` returns, of a
`Variable`, of a `NamedReference` or of a parameter, is a non-empty string matching
`[A-Za-z_][A-Za-z0-9_]*`: the underscore is accepted at every position. -/
theorem C15_identifier_grammar (lit : LambdaLiteral) (env : Environment) (fuel : Nat)
    (input : String) (t : Expression) (h : parse lit env fuel input = Outcome.ok t) :
    ∀ name ∈ allNames t, matchesUnderscoreIdentifier name = true := by
  refine parse_invariant lit env
    (fun e => ∀ name ∈ allNames e, matchesUnderscoreIdentifier name = true) ?_ ?_ ?_ ?_ h
  · intro n hn _ name hmem
    simp only [allNames, List.mem_singleton] at hmem
    rw [hmem]; exact isIdentifier_underscore hn
  · intro n hn _ name hmem
    simp only [allNames, List.mem_singleton] at hmem
    rw [hmem]; exact isIdentifier_underscore hn
  · intro p b hp hb name hmem
    simp only [allNames, List.mem_cons] at hmem
    rcases hmem with rfl | hmem
    · exact isIdentifier_underscore hp
    · exact hb name hmem
  · intro f a hf ha name hmem
    simp only [allNames, List.mem_append] at hmem
    rcases hmem with hmem | hmem
    · exact hf name hmem
    · exact ha name hmem

/-- Witness for the amended C15: the names `_x` and `a_b` of the term parsed from
`\_x.a_b _x`. -/
theorem C15_identifier_grammar_witness :
    matchesUnderscoreIdentifier "_x" = true ∧ matchesUnderscoreIdentifier "a_b" = true :=
  ⟨C15_identifier_grammar truncatedLambda emptyEnv 20 "\\_x.a_b _x"
      (Abstraction "_x" (Application (Variable "a_b") (Variable "_x"))) (by decide) "_x"
      (by decide),
    C15_identifier_grammar truncatedLambda emptyEnv 20 "\\_x.a_b _x"
      (Abstraction "_x" (Application (Variable "a_b") (Variable "_x"))) (by decide) "a_b"
      (by decide)⟩

/-- Claim C16 (application is left-associative): on identifiers `a1 … an`, `n ≥ 1`,
separated by non-empty runs of whitespace, `Parser::parse` returns, at some recursion
depth, the left-nested application `(…((a1 a2) a3) … an)` of the terms `parseVariable`
builds for the identifiers; and on `\x.x y`, with `x` and `y` not defined, it returns
`λx.(x y)`: the body of a lambda extends to the end of the expression. -/
theorem C16_application_left_associative (lit : LambdaLiteral) (env : Environment)
    (first : String) (others : List (List Char × String))
    (hfirst : isIdentifier first = true) (hwell : WellSeparated others) :
    (∃ fuel, parse lit env fuel (String.mk (first.data ++ joinSeparated others)) =
      Outcome.ok
        (leftNested (resolveName env first)
          (others.map (fun entry => resolveName env entry.2)))) ∧
    (env.isDefined "x" = false → env.isDefined "y" = false →
      ∃ fuel, parse lit env fuel "\\x.x y" =
        Outcome.ok (Abstraction "x" (Application (Variable "x") (Variable "y")))) :=
  ⟨⟨_, parse_identifiers lit env first others hfirst hwell 0⟩,
    fun hx hy => ⟨8, parse_lambda_body lit env hx hy⟩⟩

/-- Witness for C16: `plus one one`, with a tab and two blanks as second separator, is
parsed to `Application(Application(plus, one), one)`. -/
theorem C16_application_left_associative_witness :
    (∃ fuel, parse truncatedLambda scenarioEnv fuel "plus one\t  one" =
      Outcome.ok
        (Application (Application (NamedReference "plus") (NamedReference "one"))
          (NamedReference "one"))) ∧
    (scenarioEnv.isDefined "x" = false → scenarioEnv.isDefined "y" = false →
      ∃ fuel, parse truncatedLambda scenarioEnv fuel "\\x.x y" =
        Outcome.ok (Abstraction "x" (Application (Variable "x") (Variable "y")))) :=
  C16_application_left_associative truncatedLambda scenarioEnv "plus"
    [([' '], "one"), (['\t', ' ', ' '], "one")] (by decide)
    (by unfold WellSeparated; decide)

/-- Claim C17 (normal-form characterisation; the code departs from the claim).  The term
`(λx.(x x)) (λx.(x x))` has no reference and is a redex, its function being an
abstraction, yet the single step returns the term itself, with the same canonical string,
and `isNormalForm` answers `true` at every recursion depth from four on. -/
theorem C17_redex_counted_normal (env : Environment) (k : Nat) :
    namedReferenceFree (Application selfApplication selfApplication) = true ∧
      hasRedex (Application selfApplication selfApplication) = true ∧
      isAbstraction selfApplication = true ∧
      betaReduce env (k + 3) (Application selfApplication selfApplication) =
        some (Application selfApplication selfApplication) ∧
      isNormalForm env (k + 4) (Application selfApplication selfApplication) = some true :=
  ⟨by decide, by decide, by decide, @betaReduce_mono env 3 (k + 3) _ _ rfl (by omega),
    @isNormalForm_mono env 4 (k + 4) _ _ rfl (by omega)⟩

/-- Counterexample to C18: after the input line `a = a` in a fresh session, `a` is bound
to the variable `a`; the single step turns the reference `a` into that variable, which
prints the same, so `isNormalForm` answers `true` on the reference and
`evaluateNormalOrder` returns the reference to the defined name. -/
theorem C18_defined_reference_counted_normal :
    parse truncatedLambda emptyEnv 20 "a" = Outcome.ok (Variable "a") ∧
      selfNamedEnv.isDefined "a" = true ∧
      betaReduce selfNamedEnv 1 (NamedReference "a") = some (Variable "a") ∧
      isNormalForm selfNamedEnv 2 (NamedReference "a") = some true ∧
      evaluateNormalOrder selfNamedEnv 3 (NamedReference "a") =
        some (NamedReference "a") := by
  refine ⟨by decide, by decide, by decide, by decide, by decide⟩

/-- Claim C18 as amended: when `n` is bound to a definition whose canonical string is not
`n` itself, as is every abstraction and every application when `n` is an identifier,
`isNormalForm(NamedReference n)` is `false` at every recursion depth at which it returns
(it returns from depth two on), and `evaluateNormalOrder` never returns
`NamedReference n`. -/
theorem C18_defined_reference_not_normal (env : Environment) (n : String) (D : Expression)
    (hl : env.lookup n = some D) (hne : D.toString ≠ n) :
    (∀ k, isNormalForm env (k + 2) (NamedReference n) = some false) ∧
      (∀ fuel b, isNormalForm env fuel (NamedReference n) = some b → b = false) ∧
      (∀ fuel t, evaluateNormalOrder env fuel t ≠ some (NamedReference n)) ∧
      (∀ name d, isIdentifier name = true →
        ((∃ p b, d = Abstraction p b) ∨ (∃ f a, d = Application f a)) →
        d.toString ≠ name) := by
  have hall : ∀ fuel b, isNormalForm env fuel (NamedReference n) = some b → b = false := by
    intro fuel b h
    rw [isNormalForm_reference hl h]
    simpa using hne
  refine ⟨?_, hall, ?_, fun name d hid hd => identifier_toString_ne hid d hd⟩
  · intro k
    simp [isNormalForm, betaReduce, hl, hne, Expression.toString]
  · intro fuel t h
    obtain ⟨f, hf⟩ := evaluateNormalOrder_result_normal env fuel t _ h
    exact absurd (hall f true hf) (by decide)

/-- Witness for the amended C18: the reference `zero` in the environment of the
scenarios. -/
theorem C18_defined_reference_not_normal_witness :
    (∀ k, isNormalForm scenarioEnv (k + 2) (NamedReference "zero") = some false) ∧
      (∀ fuel b, isNormalForm scenarioEnv fuel (NamedReference "zero") = some b →
        b = false) ∧
      (∀ fuel t, evaluateNormalOrder scenarioEnv fuel t ≠ some (NamedReference "zero")) ∧
      (∀ name d, isIdentifier name = true →
        ((∃ p b, d = Abstraction p b) ∨ (∃ f a, d = Application f a)) →
        d.toString ≠ name) :=
  C18_defined_reference_not_normal scenarioEnv "zero" (churchNumeral 0) (by decide)
    (by decide)

/-- Claim C19 (references unfold on evaluation): when `n` is bound to a definition `D`
without reference and without redex, `evaluateNormalOrder(NamedReference n)` returns at
some recursion depth a term whose canonical string is that of `D`; the term is `D` itself
unless `D` prints as `n`. -/
theorem C19_references_unfold (env : Environment) (n : String) (D : Expression)
    (hl : env.lookup n = some D) (hfree : namedReferenceFree D = true)
    (hred : hasRedex D = false) :
    ∃ fuel r, evaluateNormalOrder env fuel (NamedReference n) = some r ∧
      r.toString = D.toString ∧ (D.toString ≠ n → r = D) := by
  by_cases h : D.toString = n
  · obtain ⟨fuel, hf⟩ := evaluates_fixed (reduces_reference_some hl) h
    exact ⟨fuel, _, hf, h.symm, fun hne => absurd h hne⟩
  · obtain ⟨fuel, hf⟩ :=
      evaluates_step (reduces_reference_some hl) h (normal_reduces env D hfree hred).2
    exact ⟨fuel, _, hf, rfl, fun _ => rfl⟩

/-- Witness for C19: with `zero = λf.λx.x`, evaluating `zero` prints `λf.λx.x`. -/
theorem C19_references_unfold_witness :
    ∃ fuel r, evaluateNormalOrder scenarioEnv fuel (NamedReference "zero") = some r ∧
      r.toString = "λf.λx.x" ∧ ("λf.λx.x" ≠ "zero" → r = churchNumeral 0) :=
  C19_references_unfold scenarioEnv "zero" (churchNumeral 0) (by decide) (by decide)
    (by decide)

/-- Claim C20 (substitution inlines definitions): on a reference to a defined name,
`substitute` is `substitute` on the definition, one call deeper; on a reference to an
undefined name it returns the replacement when the name is the substituted variable and
the reference itself otherwise, which prints as what it returns on `Variable n`; and with
`foo = λy.x`, the input `(\x.foo) y` is parsed to `(λx.foo) y` and evaluated to `λy1.y`,
in which `y` is free. -/
theorem C20_substitution_inlines_definitions (env : Environment) (n x : String)
    (N : Expression) :
    (∀ D fuel, env.lookup n = some D →
      substitute env (fuel + 1) (NamedReference n) x N = substitute env fuel D x N) ∧
    (env.lookup n = none → ∀ fuel,
      substitute env (fuel + 1) (NamedReference n) x N =
        (if n = x then some N else some (NamedReference n)) ∧
      substitute env (fuel + 1) (Variable n) x N =
        (if n = x then some N else some (Variable n)) ∧
      (substitute env (fuel + 1) (NamedReference n) x N).map Expression.toString =
        (substitute env (fuel + 1) (Variable n) x N).map Expression.toString) ∧
    (parse truncatedLambda fooEnv 20 "(\\x.foo) y" =
        Outcome.ok (Application (Abstraction "x" (NamedReference "foo")) (Variable "y")) ∧
      evaluateNormalOrder fooEnv 8
        (Application (Abstraction "x" (NamedReference "foo")) (Variable "y")) =
          some (Abstraction "y1" (Variable "y")) ∧
      getFreeVariables fooEnv 2 (Abstraction "y1" (Variable "y")) = some {"y"}) := by
  refine ⟨?_, ?_, by decide, by decide, by decide⟩
  · intro D fuel hl
    simp [substitute, hl]
  · intro hl fuel
    by_cases hx : n = x
    · subst hx
      simp [substitute, hl]
    · simp [substitute, hl, hx, Expression.toString]

/-- Witness for C20: the reference `foo` with `foo = λy.x`, and the undefined `bar`. -/
theorem C20_substitution_inlines_definitions_witness :
    substitute fooEnv 4 (NamedReference "foo") "x" (Variable "y") =
        substitute fooEnv 3 (Abstraction "y" (Variable "x")) "x" (Variable "y") ∧
      substitute fooEnv 4 (NamedReference "foo") "x" (Variable "y") =
        some (Abstraction "y1" (Variable "y")) ∧
      (substitute fooEnv 1 (NamedReference "bar") "x" (Variable "y")).map
          Expression.toString =
        (substitute fooEnv 1 (Variable "bar") "x" (Variable "y")).map Expression.toString :=
  ⟨(C20_substitution_inlines_definitions fooEnv "foo" "x" (Variable "y")).1 _ 3 (by decide),
    by decide,
    ((C20_substitution_inlines_definitions fooEnv "bar" "x" (Variable "y")).2.1
      (by decide) 0).2.2⟩

/-- Claim C21 (reduction introduces no free variables): when the free-variable analysis
returns `sT` on `t`, it returns on every result of `betaReduce(t)` and of
`evaluateNormalOrder(t)`, and each set it returns there is a subset of `sT`. -/
theorem C21_reduction_no_new_free_variables (env : Environment) (t : Expression)
    (fT : Nat) (sT : Finset String) (hT : getFreeVariables env fT t = some sT) :
    (∀ fuel r, betaReduce env fuel t = some r →
      (∃ fR sR, getFreeVariables env fR r = some sR) ∧
        ∀ fR sR, getFreeVariables env fR r = some sR → sR ⊆ sT) ∧
    (∀ fuel r, evaluateNormalOrder env fuel t = some r →
      (∃ fR sR, getFreeVariables env fR r = some sR) ∧
        ∀ fR sR, getFreeVariables env fR r = some sR → sR ⊆ sT) := by
  constructor
  · intro fuel r h
    obtain ⟨sr, ⟨fR, hfR⟩, hsub⟩ := (reducer_freeVars env fuel).1 t r sT h ⟨fT, hT⟩
    refine ⟨⟨fR, sr, hfR⟩, ?_⟩
    intro fR' sR hR
    rw [freeVars_unique ⟨fR', hR⟩ ⟨fR, hfR⟩]
    exact hsub
  · intro fuel r h
    obtain ⟨sr, ⟨fR, hfR⟩, hsub⟩ := (reducer_freeVars env fuel).2 t r sT h ⟨fT, hT⟩
    refine ⟨⟨fR, sr, hfR⟩, ?_⟩
    intro fR' sR hR
    rw [freeVars_unique ⟨fR', hR⟩ ⟨fR, hfR⟩]
    exact hsub

/-- Witness for C21: `(λx.foo) y` with `foo = λy.x`, whose free variables are `x` and
`y`, steps and evaluates to `λy1.y`. -/
theorem C21_reduction_no_new_free_variables_witness :
    ((∃ fR sR, getFreeVariables fooEnv fR (Abstraction "y1" (Variable "y")) = some sR) ∧
      ∀ fR sR, getFreeVariables fooEnv fR (Abstraction "y1" (Variable "y")) = some sR →
        sR ⊆ ({"y"} : Finset String)) ∧
    ((∃ fR sR, getFreeVariables fooEnv fR (Abstraction "y1" (Variable "y")) = some sR) ∧
      ∀ fR sR, getFreeVariables fooEnv fR (Abstraction "y1" (Variable "y")) = some sR →
        sR ⊆ ({"y"} : Finset String)) :=
  ⟨(C21_reduction_no_new_free_variables fooEnv
      (Application (Abstraction "x" (NamedReference "foo")) (Variable "y")) 5 {"y"}
      (by decide)).1 5 _ (by decide),
    (C21_reduction_no_new_free_variables fooEnv
      (Application (Abstraction "x" (NamedReference "foo")) (Variable "y")) 5 {"y"}
      (by decide)).2 8 _ (by decide)⟩

/-- Claim C22 (idempotence of normalization): when `evaluateNormalOrder(t)` returns `r`,
`isNormalForm(r)` returns, with `true` whenever it returns, and `evaluateNormalOrder(r)`
returns `r` itself at the same recursion depth, hence a term with the canonical string of
`r`; this holds in particular when `r` prints as `t`. -/
theorem C22_normalization_idempotent (env : Environment) (fuel : Nat) (t r : Expression)
    (h : evaluateNormalOrder env fuel t = some r) :
    (∃ f, isNormalForm env f r = some true) ∧
      (∀ f b, isNormalForm env f r = some b → b = true) ∧
      evaluateNormalOrder env fuel r = some r ∧
      (∀ f r', evaluateNormalOrder env f r = some r' → r'.toString = r.toString) := by
  obtain ⟨f0, hf0⟩ := evaluateNormalOrder_result_normal env fuel t r h
  have hid := evaluateNormalOrder_idempotent env fuel t r h
  refine ⟨⟨f0, hf0⟩, ?_, hid, ?_⟩
  · intro f b hb
    have h1 := isNormalForm_mono env hf0 (Nat.le_max_left f0 f)
    have h2 := isNormalForm_mono env hb (Nat.le_max_right f0 f)
    rw [h1] at h2
    exact (Option.some.inj h2).symm
  · intro f r' hr'
    rw [evaluates_unique ⟨f, hr'⟩ ⟨fuel, hid⟩]

/-- Witness for C22: `plus one one` evaluates to the numeral two, which evaluates to
itself. -/
theorem C22_normalization_idempotent_witness :
    (∃ f, isNormalForm scenarioEnv f (churchNumeral 2) = some true) ∧
      (∀ f b, isNormalForm scenarioEnv f (churchNumeral 2) = some b → b = true) ∧
      evaluateNormalOrder scenarioEnv 31 (churchNumeral 2) = some (churchNumeral 2) ∧
      (∀ f r', evaluateNormalOrder scenarioEnv f (churchNumeral 2) = some r' →
        r'.toString = (churchNumeral 2).toString) :=
  C22_normalization_idempotent scenarioEnv 31
    (Application (Application (NamedReference "plus") (NamedReference "one"))
      (NamedReference "one")) (churchNumeral 2) (by decide)

/-- Claim C23 (the canonical string is unambiguous): two terms built from `Variable`,
`Abstraction` and `Application` whose names all match `[A-Za-z_][A-Za-z0-9]*` and whose
canonical strings are equal are the same term, so on such terms the equality of
canonical strings is the equality of terms. -/
theorem C23_canonical_string_unambiguous (t1 t2 : Expression)
    (hf1 : namedReferenceFree t1 = true) (hf2 : namedReferenceFree t2 = true)
    (hv1 : ∀ n ∈ allNames t1, matchesSpecIdentifier n = true)
    (hv2 : ∀ n ∈ allNames t2, matchesSpecIdentifier n = true) :
    (t1.toString = t2.toString → t1 = t2) ∧
      decide (t1.toString = t2.toString) = decide (t1 = t2) := by
  have hinj : t1.toString = t2.toString → t1 = t2 :=
    toString_injective hf1 (fun n hn => specIdentifier_isIdentifier (hv1 n hn)) hf2
      (fun n hn => specIdentifier_isIdentifier (hv2 n hn))
  refine ⟨hinj, ?_⟩
  by_cases h : t1 = t2
  · simp [h]
  · have : ¬ t1.toString = t2.toString := fun e => h (hinj e)
    simp [h, this]

/-- Witness for C23: `λx.(x y)` and `λx.(x y1)`. -/
theorem C23_canonical_string_unambiguous_witness :
    ((Abstraction "x" (Application (Variable "x") (Variable "y"))).toString =
        (Abstraction "x" (Application (Variable "x") (Variable "y1"))).toString →
      Abstraction "x" (Application (Variable "x") (Variable "y")) =
        Abstraction "x" (Application (Variable "x") (Variable "y1"))) ∧
      decide ((Abstraction "x" (Application (Variable "x") (Variable "y"))).toString =
        (Abstraction "x" (Application (Variable "x") (Variable "y1"))).toString) =
      decide (Abstraction "x" (Application (Variable "x") (Variable "y")) =
        Abstraction "x" (Application (Variable "x") (Variable "y1"))) :=
  C23_canonical_string_unambiguous _ _ (by decide) (by decide) (by decide) (by decide)

/-- Claim C24 (substitution terminates): when the reference graph of the environment has
no cycle, `substitute(M, x, N)` returns at some recursion depth for all terms `M`, `N` and
every name `x`, and replacing by a variable, as the rename branch does before it recurses
on the result, does not increase the expanded size of the term; the empty environment has
no cycle, and there the expanded size is the number of nodes. -/
theorem C24_substitution_terminates (env : Environment) (hacyclic : AcyclicReferences env)
    (M : Expression) (x : String) (N : Expression) :
    (∃ fuel r, substitute env fuel M x N = some r) ∧
      (∀ k v fuel r, ExpandedSize env M k →
        substitute env fuel M x (Variable v) = some r →
        ∃ j, j ≤ k ∧ ExpandedSize env r j) ∧
      AcyclicReferences emptyEnv ∧
      (∀ v fuel r, substitute emptyEnv fuel M x (Variable v) = some r →
        r.size ≤ M.size) := by
  obtain ⟨k, hk⟩ := expandedSize_total hacyclic M
  obtain ⟨kN, hkN⟩ := expandedSize_total hacyclic N
  obtain ⟨sn, hsn⟩ := freeVars_of_expandedSize hkN
  refine ⟨?_, ?_, acyclic_emptyEnv, ?_⟩
  · obtain ⟨r, ⟨fuel, hr⟩, _⟩ :=
      substitutes_of_expandedSize env k M k (Nat.le_refl _) hk x N sn hsn
    exact ⟨fuel, r, hr⟩
  · intro k' v fuel r hk' hr
    obtain ⟨r', hr', hsize⟩ := substitutes_of_expandedSize env k' M k' (Nat.le_refl _) hk' x
      (Variable v) _ (freeVars_variable.mpr rfl)
    rw [substitutes_unique ⟨fuel, hr⟩ hr']
    exact hsize v rfl
  · intro v fuel r hr
    obtain ⟨r', hr', hsize⟩ := substitutes_of_expandedSize emptyEnv M.size M M.size
      (Nat.le_refl _) (expandedSize_emptyEnv M) x (Variable v) _ (freeVars_variable.mpr rfl)
    rw [substitutes_unique ⟨fuel, hr⟩ hr']
    obtain ⟨j, hj, hES⟩ := hsize v rfl
    rw [← expandedSize_emptyEnv_eq hES]
    exact hj

/-- Witness for C24: with `two = succ one`, substituting `f` for `x` in `λf.(two x)`,
which takes the rename branch and inlines the three definitions. -/
theorem C24_substitution_terminates_witness :
    (∃ fuel r, substitute chainEnv fuel
        (Abstraction "f" (Application (NamedReference "two") (Variable "x"))) "x"
        (Variable "f") = some r) ∧
      (∀ k v fuel r, ExpandedSize chainEnv
          (Abstraction "f" (Application (NamedReference "two") (Variable "x"))) k →
        substitute chainEnv fuel
          (Abstraction "f" (Application (NamedReference "two") (Variable "x"))) "x"
          (Variable v) = some r →
        ∃ j, j ≤ k ∧ ExpandedSize chainEnv r j) ∧
      AcyclicReferences emptyEnv ∧
      (∀ v fuel r, substitute emptyEnv fuel
          (Abstraction "f" (Application (NamedReference "two") (Variable "x"))) "x"
          (Variable v) = some r →
        r.size ≤
          (Abstraction "f" (Application (NamedReference "two") (Variable "x"))).size) :=
  C24_substitution_terminates chainEnv
    (acyclic_of_rank chainEnv (fun name => if name = "two" then 1 else 0) (by decide))
    (Abstraction "f" (Application (NamedReference "two") (Variable "x"))) "x" (Variable "f")

/-- Claim C25 (vacuous substitution; the code departs from the claim).  The terms
`M = λy.y` and `N = y` have no reference and `y1` is not free in `M`, whose set of free
variables is empty; `substitute(M, y1, N)` returns `λy1.y`, whose set of free variables is
`{y}`: the fresh name `y1` picked for the parameter is the substituted variable, and `N`
is put in its place. -/
theorem C25_vacuous_substitution_adds_free_variable :
    namedReferenceFree (Abstraction "y" (Variable "y")) = true ∧
      namedReferenceFree (Variable "y") = true ∧
      getFreeVariables emptyEnv 2 (Abstraction "y" (Variable "y")) = some ∅ ∧
      generateFreshVariable (∅ ∪ {"y"}) "y" = "y1" ∧
      substitute emptyEnv 3 (Abstraction "y" (Variable "y")) "y1" (Variable "y") =
        some (Abstraction "y1" (Variable "y")) ∧
      getFreeVariables emptyEnv 2 (Abstraction "y1" (Variable "y")) = some {"y"} := by
  refine ⟨by decide, by decide, by decide, by decide, by decide, by decide⟩

end LambdaCalc

